import Mathlib

/-!
# Physical-plan graph linking and operator descriptions (`plan/explain.go`)

A shallow embedding of `setParents4FinalPlan` and of the `ExplainInfo`
methods of `plan/explain.go`.

Plan nodes live in a heap (a list of nodes); a plan value (a Go pointer) is an
index into the heap.  An index outside the heap stands for a nil pointer and
every dereference of it fails (`none`), as the Go code would panic.  Every
node of the heap is a `PhysicalPlan`, so the type assertions
`p.(PhysicalPlan)` succeed.  The two
`for pID := 0; pID < len(allPlans); pID++` loops are bounded by a fuel
argument, as is the recursion into embedded sub-plans; running out of fuel is
`none` as well.

The methods `ID`, `Children`, `SetParents` and `AddParent` belong to the plan
interface and are not part of `explain.go`: `ID` and `Children` read the
fields of the node, `SetParents` and `AddParent` are modelled from the
specification.  The `ExplainInfo` of expressions and columns is a parameter.

The properties of `setParents4FinalPlan` are proved through the sequence of
`SetParents` and `AddParent` calls of a run (`relinkOps`): a run that returns
is that sequence applied to the heap (`setParents4FinalPlan_eq`), and the
sequence is the first loop's calls for the breadth-first list of the nodes
reachable from the root, followed by one `AddParent` for every `Children()`
entry of every listed node (`relinkOps_structure`).
-/

namespace Plan

/-! ## Data model -/

/-- The dynamic type of a plan node, as far as the type switch of
`setParents4FinalPlan` distinguishes it, together with the embedded sub-plan
roots of the three reader types. -/
inductive Kind where
  | other
  | PhysicalTableReader (tablePlan : Nat)
  | PhysicalIndexReader (indexPlan : Nat)
  | PhysicalIndexLookUpReader (indexPlan : Nat) (tablePlan : Nat)
deriving DecidableEq

/-- A plan node: its `ID()`, its dynamic type, its `Children()` and its
parents list. -/
structure Node where
  id : String
  kind : Kind
  children : List Nat
  parents : List Nat
deriving DecidableEq

/-- The heap of plan nodes; a plan is an index into it. -/
abbrev Heap := List Node

/-- The map `planMark : map[string]bool`; a missing key reads as `false`. -/
abbrev PlanMark := String → Bool

/-- The assignment `planMark[k] = v`. -/
def PlanMark.set (m : PlanMark) (k : String) (v : Bool) : PlanMark :=
  fun s => if s = k then v else m s

/-- The embedded sub-plan roots of a node type, in the order in which
`setParents4FinalPlan` relinks them. -/
def Kind.embedded : Kind → List Nat
  | .other => []
  | .PhysicalTableReader t => [t]
  | .PhysicalIndexReader i => [i]
  | .PhysicalIndexLookUpReader i t => [i, t]

/-- Modelled from the spec: `SetParents` of the plan interface, whose body is
not in `explain.go`; it overwrites the `parents` field of the node ("Clear its
`parents` field to the empty sequence" when called without arguments). -/
def SetParents (h : Heap) (p : Nat) (pars : List Nat) : Option Heap :=
  match h[p]? with
  | none => none
  | some n => some (h.set p { n with parents := pars })

/-- Modelled from the spec: `AddParent` of the plan interface, whose body is
not in `explain.go`; it registers `parent` as a parent of the node ("append to
the child's `parents`"). -/
def AddParent (h : Heap) (p : Nat) (parent : Nat) : Option Heap :=
  match h[p]? with
  | none => none
  | some n => some (h.set p { n with parents := n.parents ++ [parent] })

/-! ## `setParents4FinalPlan` -/

/-- The inner loop of the first pass (lines 38-43): every child whose id is
not marked is appended to `allPlans` and marked. -/
def markChildren (h : Heap) : List Nat → List Nat → PlanMark → Option (List Nat × PlanMark)
  | [], allPlans, planMark => some (allPlans, planMark)
  | p :: ps, allPlans, planMark =>
    match h[p]? with
    | none => none
    | some n =>
      if planMark n.id then markChildren h ps allPlans planMark
      else markChildren h ps (allPlans ++ [p]) (planMark.set n.id true)

/-- The type switch of the first pass (lines 29-37): the recursive calls on
the embedded sub-plan roots, `self` being `setParents4FinalPlan`. -/
def relinkEmbedded (self : Heap → Nat → Option Heap) (h : Heap) : Kind → Option Heap
  | .other => some h
  | .PhysicalTableReader t => self h t
  | .PhysicalIndexReader i => self h i
  | .PhysicalIndexLookUpReader i t => (self h i).bind fun h1 => self h1 t

/-- The first loop (lines 27-44), from index `pID` on. -/
def pass1 (self : Heap → Nat → Option Heap) :
    Nat → Heap → List Nat → PlanMark → Nat → Option (Heap × List Nat × PlanMark)
  | 0, h, allPlans, planMark, pID =>
    match allPlans[pID]? with
    | none => some (h, allPlans, planMark)
    | some _ => none
  | fuel + 1, h, allPlans, planMark, pID =>
    match allPlans[pID]? with
    | none => some (h, allPlans, planMark)
    | some p =>
      (SetParents h p []).bind fun h1 =>
      (h1[p]?).bind fun n1 =>
      (relinkEmbedded self h1 n1.kind).bind fun h2 =>
      (h2[p]?).bind fun n2 =>
      (markChildren h2 n2.children allPlans planMark).bind fun r =>
      pass1 self fuel h2 r.1 r.2 (pID + 1)

/-- The inner loop of the second pass (lines 49-55): `parent` is added to the
parents of every child, and a child whose id is still marked is unmarked and
appended to `allPlans`. -/
def linkChildren (parent : Nat) :
    List Nat → Heap → List Nat → PlanMark → Option (Heap × List Nat × PlanMark)
  | [], h, allPlans, planMark => some (h, allPlans, planMark)
  | p :: ps, h, allPlans, planMark =>
    (AddParent h p parent).bind fun h1 =>
    (h1[p]?).bind fun n =>
    if planMark n.id then
      linkChildren parent ps h1 (allPlans ++ [p]) (planMark.set n.id false)
    else linkChildren parent ps h1 allPlans planMark

/-- The second loop (lines 48-56), from index `pID` on. -/
def pass2 : Nat → Heap → List Nat → PlanMark → Nat → Option (Heap × List Nat × PlanMark)
  | 0, h, allPlans, planMark, pID =>
    match allPlans[pID]? with
    | none => some (h, allPlans, planMark)
    | some _ => none
  | fuel + 1, h, allPlans, planMark, pID =>
    match allPlans[pID]? with
    | none => some (h, allPlans, planMark)
    | some p =>
      (h[p]?).bind fun n =>
      (linkChildren p n.children h allPlans planMark).bind fun r =>
      pass2 fuel r.1 r.2.1 r.2.2 (pID + 1)

/-- Lines 24-44 of `setParents4FinalPlan`: the initialisation and the first
loop; the result is the heap, `allPlans` and `planMark` at line 45. -/
def firstLoop (self : Heap → Nat → Option Heap) (fuel : Nat) (h : Heap) (plan : Nat) :
    Option (Heap × List Nat × PlanMark) :=
  (h[plan]?).bind fun n =>
  pass1 self fuel h [plan] (PlanMark.set (fun _ => false) n.id true) 0

/-- Lines 46-56 of `setParents4FinalPlan`: `allPlans` is cut back to the root,
the root is unmarked and the second loop runs. -/
def secondLoop (fuel : Nat) (h : Heap) (plan : Nat) (planMark : PlanMark) :
    Option (Heap × List Nat × PlanMark) :=
  (h[plan]?).bind fun n =>
  pass2 fuel h [plan] (planMark.set n.id false) 0

/-- The function `setParents4FinalPlan(plan)`. -/
def setParents4FinalPlan : Nat → Heap → Nat → Option Heap
  | 0, _, _ => none
  | fuel + 1, h, plan =>
    (firstLoop (setParents4FinalPlan fuel) fuel h plan).bind fun r =>
    (secondLoop fuel r.1 plan r.2.2).map fun r2 => r2.1

/-! ## `ExplainInfo` of `Selection`, `Projection` and `Sort` -/

/-- The loop shared by `Selection.ExplainInfo` and `Projection.ExplainInfo`
(lines 62-67 and 74-79): the description of every element is written to the
buffer, followed by `", "` when `i+1 < len`. -/
def writeExprs {ε : Type} (explainInfo : ε → String) (len : Nat) :
    Nat → List ε → String → String
  | _, [], buffer => buffer
  | i, e :: es, buffer =>
    let buffer := buffer ++ explainInfo e
    let buffer := if i + 1 < len then buffer ++ ", " else buffer
    writeExprs explainInfo len (i + 1) es buffer

/-- The method `Selection.ExplainInfo`; `explainInfo` is the `ExplainInfo` of
the expression package. -/
def Selection.ExplainInfo {ε : Type} (explainInfo : ε → String) (Conditions : List ε) : String :=
  writeExprs explainInfo Conditions.length 0 Conditions ""

/-- The method `Projection.ExplainInfo`. -/
def Projection.ExplainInfo {ε : Type} (explainInfo : ε → String) (Exprs : List ε) : String :=
  writeExprs explainInfo Exprs.length 0 Exprs ""

/-- A sort key `ByItems`: an expression and the `Desc` flag. -/
structure ByItems (ε : Type) where
  Expr : ε
  Desc : Bool

/-- The loop of `Sort.ExplainInfo` (lines 91-100). -/
def writeByItems {ε : Type} (explainInfo : ε → String) (len : Nat) :
    Nat → List (ByItems ε) → String → String
  | _, [], buffer => buffer
  | i, item :: items, buffer =>
    let order := if item.Desc then "desc" else "asc"
    let buffer := buffer ++ (explainInfo item.Expr ++ ":" ++ order)
    let buffer := if i + 1 < len then buffer ++ ", " else buffer
    writeByItems explainInfo len (i + 1) items buffer

/-- The method `Sort.ExplainInfo`. -/
def Sort.ExplainInfo {ε : Type} (explainInfo : ε → String) (items : List (ByItems ε)) : String :=
  writeByItems explainInfo items.length 0 items ""

/-! ## Plan graphs: edges, reachability and well-formedness -/

/-- The id of the plan `p`, when `p` is a node of the heap. -/
def idOf (h : Heap) (p : Nat) : Option String :=
  (h[p]?).map Node.id

/-- The list `p.Children()` (empty when `p` is not a node of the heap). -/
def childrenAt (h : Heap) (p : Nat) : List Nat :=
  ((h[p]?).map Node.children).getD []

/-- The embedded sub-plan roots of `p` (none when `p` is not a node of the
heap or not a reader). -/
def embeddedAt (h : Heap) (p : Nat) : List Nat :=
  ((h[p]?).map fun n => n.kind.embedded).getD []

/-- The parents list of `p` (empty when `p` is not a node of the heap). -/
def parentsAt (h : Heap) (p : Nat) : List Nat :=
  ((h[p]?).map Node.parents).getD []

/-- The node `c` is listed in `p.Children()`. -/
def IsChild (h : Heap) (p c : Nat) : Prop :=
  c ∈ childrenAt h p

/-- The node `e` is an embedded sub-plan root (`tablePlan` / `indexPlan`) of `p`. -/
def IsEmbedded (h : Heap) (p e : Nat) : Prop :=
  e ∈ embeddedAt h p

/-- Reachability through zero or more `Children()` edges. -/
def Reach (h : Heap) : Nat → Nat → Prop :=
  Relation.ReflTransGen (IsChild h)

/-- Reachability through `Children()` edges and embedded sub-plan roots. -/
def ReachAll (h : Heap) : Nat → Nat → Prop :=
  Relation.ReflTransGen fun p c => IsChild h p c ∨ IsEmbedded h p c

/-- No dangling plan: every child and every embedded sub-plan root is a node
of the heap. -/
def Closed (h : Heap) : Prop :=
  ∀ n ∈ h, (∀ c ∈ n.children, c < h.length) ∧ (∀ e ∈ n.kind.embedded, e < h.length)

/-- Node ids are unique. -/
def UniqueIds (h : Heap) : Prop :=
  (h.map Node.id).Nodup

/-- The nesting of embedded sub-plans is well-founded: `rank` does not
increase along a `Children()` edge and decreases from a reader to its embedded
sub-plan roots. -/
def Ranked (h : Heap) (rank : Nat → Nat) : Prop :=
  ∀ pn ∈ h.enum, (∀ c ∈ pn.2.children, rank c ≤ rank pn.1) ∧
    (∀ e ∈ pn.2.kind.embedded, rank e < rank pn.1)

instance decidableIsChild (h : Heap) (p c : Nat) : Decidable (IsChild h p c) := by
  unfold IsChild; infer_instance

instance decidableIsEmbedded (h : Heap) (p e : Nat) : Decidable (IsEmbedded h p e) := by
  unfold IsEmbedded; infer_instance

instance decidableClosed (h : Heap) : Decidable (Closed h) := by
  unfold Closed; infer_instance

instance decidableUniqueIds (h : Heap) : Decidable (UniqueIds h) := by
  unfold UniqueIds; infer_instance

instance decidableRanked (h : Heap) (rank : Nat → Nat) : Decidable (Ranked h rank) := by
  unfold Ranked; infer_instance

/-- The fields of a node that `setParents4FinalPlan` only reads. -/
def Node.shape (n : Node) : String × Kind × List Nat :=
  (n.id, n.kind, n.children)

/-- Two heaps that differ at most in `parents` fields. -/
def SameShape (h0 h : Heap) : Prop :=
  h.map Node.shape = h0.map Node.shape

/-- The outer graph shares no node with an embedded sub-plan: no node
reachable from `root` through children is reachable, through children and
embedded sub-plan roots, from an embedded sub-plan root of a node of the outer
graph. -/
def NoSharing (h : Heap) (root : Nat) : Prop :=
  ∀ R E x, Reach h root R → IsEmbedded h R E → ReachAll h E x → ¬ Reach h root x

/-- The sub-plan under the embedded root `E` is private: no node reachable
from `E` through children is reachable through children from `root` or from
another embedded sub-plan root of a node reachable from `root`. -/
def PrivateSubPlan (h : Heap) (root E : Nat) : Prop :=
  ∀ r, (r = root ∨ ∃ R, ReachAll h root R ∧ IsEmbedded h R r) → r ≠ E →
    ∀ x, Reach h E x → ¬ Reach h r x

/-- No children list has a duplicate entry. -/
def NoDuplicateChildren (h : Heap) : Prop :=
  ∀ n ∈ h, n.children.Nodup

/-- No cycle: `level` decreases along every `Children()` edge and from a
reader to its embedded sub-plan roots. -/
def Acyclic (h : Heap) (level : Nat → Nat) : Prop :=
  ∀ pn ∈ h.enum, (∀ c ∈ pn.2.children, level c < level pn.1) ∧
    (∀ e ∈ pn.2.kind.embedded, level e < level pn.1)

instance decidableNoDuplicateChildren (h : Heap) : Decidable (NoDuplicateChildren h) := by
  unfold NoDuplicateChildren; infer_instance

instance decidableAcyclic (h : Heap) (level : Nat → Nat) : Decidable (Acyclic h level) := by
  unfold Acyclic; infer_instance

/-! ## The calls of `SetParents` and `AddParent` made by a run -/

/-- A call `p.SetParents()` or `p.AddParent(parent)`. -/
inductive Op where
  | clear (p : Nat)
  | add (p : Nat) (parent : Nat)
deriving DecidableEq

/-- The node whose parents list the call writes. -/
def Op.target : Op → Nat
  | .clear p => p
  | .add p _ => p

/-- The effect of one call on the heap. -/
def Op.run (h : Heap) : Op → Option Heap
  | .clear p => SetParents h p []
  | .add p parent => AddParent h p parent

/-- The effect of a sequence of calls. -/
def runOps : List Op → Heap → Option Heap
  | [], h => some h
  | o :: os, h => (o.run h).bind (runOps os)

/-- The calls made by the type switch of the first pass. -/
def embeddedOps (self : Nat → Option (List Op)) : Kind → Option (List Op)
  | .other => some []
  | .PhysicalTableReader t => self t
  | .PhysicalIndexReader i => self i
  | .PhysicalIndexLookUpReader i t => (self i).bind fun a => (self t).map fun b => a ++ b

/-- The calls made by the first loop from index `pID` on, with the final
`allPlans` and `planMark`. -/
def pass1Ops (self : Nat → Option (List Op)) (h : Heap) :
    Nat → List Nat → PlanMark → Nat → Option (List Op × List Nat × PlanMark)
  | 0, allPlans, planMark, pID =>
    match allPlans[pID]? with
    | none => some ([], allPlans, planMark)
    | some _ => none
  | fuel + 1, allPlans, planMark, pID =>
    match allPlans[pID]? with
    | none => some ([], allPlans, planMark)
    | some p =>
      (h[p]?).bind fun n =>
      (embeddedOps self n.kind).bind fun es =>
      (markChildren h n.children allPlans planMark).bind fun r =>
      (pass1Ops self h fuel r.1 r.2 (pID + 1)).map fun q =>
        (Op.clear p :: (es ++ q.1), q.2)

/-- The bookkeeping of the inner loop of the second pass. -/
def unmarkChildren (h : Heap) : List Nat → List Nat → PlanMark → Option (List Nat × PlanMark)
  | [], allPlans, planMark => some (allPlans, planMark)
  | p :: ps, allPlans, planMark =>
    (h[p]?).bind fun n =>
    if planMark n.id then unmarkChildren h ps (allPlans ++ [p]) (planMark.set n.id false)
    else unmarkChildren h ps allPlans planMark

/-- The calls made by the second loop from index `pID` on, with the final
`allPlans` and `planMark`. -/
def pass2Ops (h : Heap) :
    Nat → List Nat → PlanMark → Nat → Option (List Op × List Nat × PlanMark)
  | 0, allPlans, planMark, pID =>
    match allPlans[pID]? with
    | none => some ([], allPlans, planMark)
    | some _ => none
  | fuel + 1, allPlans, planMark, pID =>
    match allPlans[pID]? with
    | none => some ([], allPlans, planMark)
    | some p =>
      (h[p]?).bind fun n =>
      (unmarkChildren h n.children allPlans planMark).bind fun r =>
      (pass2Ops h fuel r.1 r.2 (pID + 1)).map fun q =>
        (n.children.map (fun c => Op.add c p) ++ q.1, q.2)

/-- The calls made by `setParents4FinalPlan(plan)`, in order. -/
def relinkOps : Nat → Heap → Nat → Option (List Op)
  | 0, _, _ => none
  | fuel + 1, h, plan =>
    (h[plan]?).bind fun n =>
    (pass1Ops (relinkOps fuel h) h fuel [plan] (PlanMark.set (fun _ => false) n.id true) 0).bind
      fun r1 =>
    (pass2Ops h fuel [plan] (r1.2.2.set n.id false) 0).map fun r2 => r1.1 ++ r2.1

/-- The calls that a run makes for the embedded sub-plans of the node `p`. -/
def embeddedOpsAt (self : Nat → Option (List Op)) (h : Heap) (p : Nat) : List Op :=
  ((h[p]?).bind fun n => embeddedOps self n.kind).getD []

/-- The calls of the first pass for the nodes of `l`, in order. -/
def clearOps (self : Nat → Option (List Op)) (h : Heap) (l : List Nat) : List Op :=
  l.flatMap fun p => Op.clear p :: embeddedOpsAt self h p

/-- The calls of the second pass for the nodes of `l`, in order. -/
def addOps (h : Heap) (l : List Nat) : List Op :=
  l.flatMap fun p => (childrenAt h p).map fun c => Op.add c p

/-- The number of nodes whose id is not marked. -/
def unmarked (h : Heap) (planMark : PlanMark) : Nat :=
  h.countP fun n => !planMark n.id

/-- The invariant of `allPlans` and `planMark` in the first pass: the listed
plans are nodes, their ids are pairwise different, and exactly their ids are
marked. -/
structure Listed (h : Heap) (allPlans : List Nat) (planMark : PlanMark) : Prop where
  valid : ∀ p ∈ allPlans, p < h.length
  nodup : (allPlans.map (idOf h)).Nodup
  marks : ∀ s, planMark s = true ↔ some s ∈ allPlans.map (idOf h)

/-- The list `allPlans` at the end of the first loop: it starts with the root,
lists nodes with pairwise different ids that are reachable from the root, and
holds the id of every child of a listed node. -/
structure Discovered (h : Heap) (root : Nat) (L : List Nat) : Prop where
  head : L.head? = some root
  valid : ∀ p ∈ L, p < h.length
  nodup : (L.map (idOf h)).Nodup
  reach : ∀ p ∈ L, Reach h root p
  closed : ∀ p ∈ L, ∀ c ∈ childrenAt h p, c < h.length ∧ idOf h c ∈ L.map (idOf h)

/-- The parents list that a sequence of calls leaves at node `x`, from the
list `init` it had before. -/
def parentsAfter (x : Nat) : List Op → List Nat → List Nat
  | [], init => init
  | .clear p :: os, init => parentsAfter x os (if p = x then [] else init)
  | .add p parent :: os, init => parentsAfter x os (if p = x then init ++ [parent] else init)

/-- The calls leave every `Children()` edge under the embedded root `E`
recorded, whatever the parents lists were before. -/
def LinksRegion (h : Heap) (E : Nat) (os : List Op) : Prop :=
  ∀ P C, Reach h E P → IsChild h P C → ∀ init, P ∈ parentsAfter C os init

/-- The calls clear no node under the embedded root `E`. -/
def SparesRegion (h : Heap) (E : Nat) (os : List Op) : Prop :=
  ∀ x, Reach h E x → Op.clear x ∉ os

/-- The parent that a call adds to the node `x`, if any. -/
def addedTo (x : Nat) : Op → Option Nat
  | .add c p => if c = x then some p else none
  | .clear _ => none

/-! ## Example plans -/

/-- The plan of the shared-node scenario: `A` with children `[B, C]` and `C`
with children `[B]`; `B` starts with a stale parents entry. -/
def sharedPlan : Heap :=
  [⟨"A", .other, [1, 2], []⟩, ⟨"B", .other, [], [2, 2, 0]⟩, ⟨"C", .other, [1], []⟩]

/-- The shared-node plan after `setParents4FinalPlan` on `A`. -/
def sharedPlanLinked : Heap :=
  [⟨"A", .other, [1, 2], []⟩, ⟨"B", .other, [], [0, 2]⟩, ⟨"C", .other, [1], [0]⟩]

/-- A plan with a reader: `Lookup` (children `[Sel]`) embeds the index plan
`IdxScan` and the table plan `TblSel` (children `[TblScan]`); `Orphan` is not
part of the plan.  Some nodes start with stale parents entries. -/
def readerPlan : Heap :=
  [⟨"Lookup", .PhysicalIndexLookUpReader 2 3, [1], [5]⟩,
   ⟨"Sel", .other, [], [0, 0]⟩,
   ⟨"IdxScan", .other, [], [0]⟩,
   ⟨"TblSel", .other, [4], [0]⟩,
   ⟨"TblScan", .other, [], []⟩,
   ⟨"Orphan", .other, [1], [0, 3]⟩]

/-- The reader plan after `setParents4FinalPlan` on `Lookup`. -/
def readerPlanLinked : Heap :=
  [⟨"Lookup", .PhysicalIndexLookUpReader 2 3, [1], []⟩,
   ⟨"Sel", .other, [], [0]⟩,
   ⟨"IdxScan", .other, [], []⟩,
   ⟨"TblSel", .other, [4], []⟩,
   ⟨"TblScan", .other, [], [3]⟩,
   ⟨"Orphan", .other, [1], [0, 3]⟩]

/-- A plan in which an embedded sub-plan shares a node with the outer graph:
the reader `R` (children `[X]`) embeds the table plan `T`, and `X` is a child
of `T` as well. -/
def sharingPlan : Heap :=
  [⟨"R", .PhysicalTableReader 1, [2], []⟩, ⟨"T", .other, [2], []⟩, ⟨"X", .other, [], []⟩]

/-- The plan `sharingPlan` after `setParents4FinalPlan` on `R`. -/
def sharingPlanLinked : Heap :=
  [⟨"R", .PhysicalTableReader 1, [2], []⟩, ⟨"T", .other, [2], []⟩, ⟨"X", .other, [], [0]⟩]

/-- A level function of `sharingPlan`. -/
def sharingLevel (p : Nat) : Nat :=
  if p = 0 then 2 else if p = 1 then 1 else 0

/-- The nesting rank of `readerPlan`: the reader is above its embedded plans. -/
def readerRank (p : Nat) : Nat :=
  if p = 0 ∨ p = 5 then 1 else 0

/-! ## `ExplainInfo` of the other operators -/

/-- The text that `fmt.Sprintf` builds from a format, for the verbs `%s` and
`%v` of `explain.go`; every operand is given by its text. -/
def sprintfChars : List Char → List String → List Char
  | [], _ => []
  | '%' :: 's' :: cs, a :: as => a.data ++ sprintfChars cs as
  | '%' :: 'v' :: cs, a :: as => a.data ++ sprintfChars cs as
  | c :: cs, args => c :: sprintfChars cs args

/-- The call `fmt.Sprintf(format, args...)`. -/
def Sprintf (format : String) (args : List String) : String :=
  String.mk (sprintfChars format.data args)

/-- The types and methods of other packages that the `ExplainInfo` methods
call: expressions and columns with their `ExplainInfo`, aggregate functions
with `expression.ExplainAggFunc`, datums with `ToString` (the text and the
`Error()` text of the error, if any), join types and aggregation types with
their `String`. -/
structure Externals where
  Expression : Type
  AggregationFunction : Type
  Datum : Type
  JoinType : Type
  AggregationType : Type
  ExplainInfo : Expression → String
  ExplainAggFunc : AggregationFunction → String
  ToString : Datum → String × Option String
  JoinTypeString : JoinType → String
  AggTypeString : AggregationType → String

/-- A block `if len(l) > 0 { buffer.WriteString(label); for i, x := range l
{ ... } }` of the join descriptions: the label and the descriptions of the
elements, written only for a non-empty list. -/
def writeClause {ε : Type} (explainInfo : ε → String) (label : String) (l : List ε)
    (buffer : String) : String :=
  if l.length > 0 then writeExprs explainInfo l.length 0 l (buffer ++ label) else buffer

/-- The expression `p.Children()[i].ID()`: it fails for an index out of range
and for a nil child. -/
def childID (h : Heap) (children : List Nat) (i : Int) : Option String :=
  if i < 0 then none else (children[i.toNat]?).bind (idOf h)

/-- The fields of `TableDual` read by `ExplainInfo`. -/
structure TableDual where
  RowCount : Int

/-- The method `TableDual.ExplainInfo`. -/
def TableDual.ExplainInfo (p : TableDual) : String :=
  Sprintf "rows:%v" [toString p.RowCount]

/-- The fields of `Limit` read by `ExplainInfo` (both `uint64`). -/
structure Limit where
  Offset : Nat
  Count : Nat

/-- The method `Limit.ExplainInfo`. -/
def Limit.ExplainInfo (p : Limit) : String :=
  Sprintf "offset:%v, count:%v" [toString p.Offset, toString p.Count]

/-- The fields of `PhysicalAggregation` read by `ExplainInfo`. -/
structure PhysicalAggregation (X : Externals) where
  HasGby : Bool
  AggType : X.AggregationType
  AggFuncs : List X.AggregationFunction
  GroupByItems : List X.Expression

/-- The method `PhysicalAggregation.ExplainInfo`. -/
def PhysicalAggregation.ExplainInfo (X : Externals) (p : PhysicalAggregation X) : String :=
  let buffer := Sprintf "type:%s" [X.AggTypeString p.AggType]
  let buffer :=
    if p.HasGby then
      writeExprs X.ExplainInfo p.GroupByItems.length 0 p.GroupByItems (buffer ++ ", group by:")
    else buffer
  let buffer := buffer ++ ", funcs:"
  writeExprs X.ExplainAggFunc p.AggFuncs.length 0 p.AggFuncs buffer

/-- The fields of `PhysicalApply` read by `ExplainInfo`; the embedded
`PhysicalJoin` is given by its own `ExplainInfo`. -/
structure PhysicalApply where
  PhysicalJoin : Heap → Option String
  Children : List Nat
  rightChOffset : Int

/-- The method `PhysicalApply.ExplainInfo`. -/
def PhysicalApply.ExplainInfo (h : Heap) (p : PhysicalApply) : Option String :=
  (p.PhysicalJoin h).bind fun join =>
  (childID h p.Children p.rightChOffset).bind fun id =>
  some (join ++ Sprintf ", right:%s" [id])

/-- The fields of `PhysicalIndexJoin` read by `ExplainInfo`. -/
structure PhysicalIndexJoin (X : Externals) where
  Children : List Nat
  outerIndex : Int
  OuterJoinKeys : List X.Expression
  InnerJoinKeys : List X.Expression
  LeftConditions : List X.Expression
  RightConditions : List X.Expression
  OtherConditions : List X.Expression

/-- The method `PhysicalIndexJoin.ExplainInfo`. -/
def PhysicalIndexJoin.ExplainInfo (X : Externals) (h : Heap) (p : PhysicalIndexJoin X) :
    Option String :=
  (childID h p.Children p.outerIndex).bind fun id =>
  let buffer := Sprintf "outer:%s" [id]
  let buffer := writeClause X.ExplainInfo ", outer key:" p.OuterJoinKeys buffer
  let buffer := writeClause X.ExplainInfo ", inner key:" p.InnerJoinKeys buffer
  let buffer := writeClause X.ExplainInfo ", left cond:" p.LeftConditions buffer
  let buffer := writeClause X.ExplainInfo ", right cond:" p.RightConditions buffer
  let buffer := writeClause X.ExplainInfo ", other cond:" p.OtherConditions buffer
  some buffer

/-- The fields of `PhysicalHashJoin` read by `ExplainInfo`. -/
structure PhysicalHashJoin (X : Externals) where
  Children : List Nat
  JoinType : X.JoinType
  SmallTable : Int
  EqualConditions : List X.Expression
  LeftConditions : List X.Expression
  RightConditions : List X.Expression
  OtherConditions : List X.Expression

/-- The method `PhysicalHashJoin.ExplainInfo`. -/
def PhysicalHashJoin.ExplainInfo (X : Externals) (h : Heap) (p : PhysicalHashJoin X) :
    Option String :=
  let buffer := X.JoinTypeString p.JoinType
  (childID h p.Children p.SmallTable).bind fun id =>
  let buffer := buffer ++ Sprintf ", small:%s" [id]
  let buffer := writeClause X.ExplainInfo ", equal:" p.EqualConditions buffer
  let buffer := writeClause X.ExplainInfo ", left cond:" p.LeftConditions buffer
  let buffer := writeClause X.ExplainInfo ", right cond:" p.RightConditions buffer
  let buffer := writeClause X.ExplainInfo ", other cond:" p.OtherConditions buffer
  some buffer

/-- The fields of `PhysicalHashSemiJoin` read by `ExplainInfo`. -/
structure PhysicalHashSemiJoin (X : Externals) where
  Children : List Nat
  rightChOffset : Int
  WithAux : Bool
  Anti : Bool
  EqualConditions : List X.Expression
  LeftConditions : List X.Expression
  RightConditions : List X.Expression
  OtherConditions : List X.Expression

/-- The method `PhysicalHashSemiJoin.ExplainInfo`. -/
def PhysicalHashSemiJoin.ExplainInfo (X : Externals) (h : Heap) (p : PhysicalHashSemiJoin X) :
    Option String :=
  (childID h p.Children p.rightChOffset).bind fun id =>
  let buffer := Sprintf "right:%s" [id]
  let buffer := if p.WithAux then buffer ++ ", aux" else buffer
  let buffer := if p.Anti then buffer ++ ", anti" else buffer
  let buffer := writeClause X.ExplainInfo ", equal:" p.EqualConditions buffer
  let buffer := writeClause X.ExplainInfo ", left cond:" p.LeftConditions buffer
  let buffer := writeClause X.ExplainInfo ", right cond:" p.RightConditions buffer
  let buffer := writeClause X.ExplainInfo ", other cond:" p.OtherConditions buffer
  some buffer

/-- The fields of `PhysicalMergeJoin` read by `ExplainInfo`. -/
structure PhysicalMergeJoin (X : Externals) where
  JoinType : X.JoinType
  EqualConditions : List X.Expression
  LeftConditions : List X.Expression
  RightConditions : List X.Expression
  OtherConditions : List X.Expression
  DefaultValues : List X.Datum
  Desc : Bool
  leftKeys : List X.Expression
  rightKeys : List X.Expression

/-- The text written for a default value (lines 342-346): the text of
`val.ToString()`, or `err.Error()` when it returns an error. -/
def defaultValueText (X : Externals) (val : X.Datum) : String :=
  let r := X.ToString val
  match r.2 with
  | some err => err
  | none => r.1

/-- The method `PhysicalMergeJoin.ExplainInfo`. -/
def PhysicalMergeJoin.ExplainInfo (X : Externals) (p : PhysicalMergeJoin X) : String :=
  let buffer := X.JoinTypeString p.JoinType
  let buffer := writeClause X.ExplainInfo ", equal:" p.EqualConditions buffer
  let buffer := writeClause X.ExplainInfo ", left cond:" p.LeftConditions buffer
  let buffer := writeClause X.ExplainInfo ", right cond:" p.RightConditions buffer
  let buffer := writeClause X.ExplainInfo ", other cond:" p.OtherConditions buffer
  let buffer := writeClause (defaultValueText X) "default vals:" p.DefaultValues buffer
  let buffer := if p.Desc then buffer ++ "desc" else buffer ++ "asc"
  let buffer := writeClause X.ExplainInfo "left key:" p.leftKeys buffer
  let buffer := writeClause X.ExplainInfo "right key:" p.rightKeys buffer
  buffer

/-! ## The description of a clause, in the words of the specification -/

/-- The descriptions of the elements joined with `", "`. -/
def joined {ε : Type} (explainInfo : ε → String) (l : List ε) : String :=
  ", ".intercalate (l.map explainInfo)

/-- A clause of a description: the label followed by the joined descriptions
when the list is non-empty, nothing when it is empty. -/
def clauseText {ε : Type} (explainInfo : ε → String) (label : String) : List ε → String
  | [] => ""
  | e :: es => label ++ joined explainInfo (e :: es)

/-- The clauses of a list of categories (label and item texts), concatenated:
a category whose list is empty contributes nothing. -/
def clausesText : List (String × List String) → String
  | [] => ""
  | (_, []) :: cats => clausesText cats
  | (label, d :: ds) :: cats => label ++ ", ".intercalate (d :: ds) ++ clausesText cats

/-- Every text of the list is non-empty and does not end with `", "`. -/
def SafeTexts {ε : Type} (explainInfo : ε → String) (l : List ε) : Prop :=
  ∀ e ∈ l, explainInfo e ≠ "" ∧ ¬ ", ".data <:+ (explainInfo e).data

/-- The string ends with the separator `", "`. -/
def EndsWithSeparator (s : String) : Prop :=
  ", ".data <:+ s.data

/-- The label occurs in the string. -/
def Occurs (label s : String) : Prop :=
  label.data <:+: s.data

instance decidableEndsWithSeparator (s : String) : Decidable (EndsWithSeparator s) := by
  unfold EndsWithSeparator; infer_instance

instance decidableOccurs (label s : String) : Decidable (Occurs label s) := by
  unfold Occurs; infer_instance

/-- Externals whose expressions, aggregate functions, join types and
aggregation types are their own texts; a datum is the result of its
`ToString`. -/
def textExternals : Externals where
  Expression := String
  AggregationFunction := String
  Datum := String × Option String
  JoinType := String
  AggregationType := String
  ExplainInfo := id
  ExplainAggFunc := id
  ToString := id
  JoinTypeString := id
  AggTypeString := id

/-- A plan whose only node has an id that ends with `", "`. -/
def oddIdPlan : Heap :=
  [⟨"x, ", .other, [], []⟩]

/-! ## Breadth-first order -/

/-- There is a path of `n` `Children()` edges from `root` to the node. -/
inductive PathLen (h : Heap) (root : Nat) : Nat → Nat → Prop where
  | zero : PathLen h root root 0
  | step {y x n : Nat} : PathLen h root y n → IsChild h y x → PathLen h root x (n + 1)

/-- The length of the shortest children-path from `root` to `x` is `d`. -/
def IsDist (h : Heap) (root x d : Nat) : Prop :=
  PathLen h root x d ∧ ∀ n, PathLen h root x n → d ≤ n

/-- The invariant of the first loop for the breadth-first order: `al` lists
the plans of `allPlans` with the level at which each was discovered; the root
is listed at level 0, levels do not decrease along the list, every plan has a
path of the length of its level, no level is more than one above the level of
a plan from index `pID` on, and every child of a plan before index `pID` is
listed at most one level below it. -/
structure Levelled (h : Heap) (root : Nat) (al : List (Nat × Nat)) (pID : Nat) : Prop where
  first : (root, 0) ∈ al
  sorted : al.Pairwise fun a b => a.2 ≤ b.2
  path : ∀ x ∈ al, PathLen h root x.1 x.2
  near : ∀ x ∈ al, ∀ q ∈ al.drop pID, x.2 ≤ q.2 + 1
  edges : ∀ q ∈ al.take pID, ∀ c ∈ childrenAt h q.1, ∃ n, (c, n) ∈ al ∧ n ≤ q.2 + 1

/-- The levels at the end of the first loop. -/
structure LevelledAll (h : Heap) (root : Nat) (al : List (Nat × Nat)) : Prop where
  first : (root, 0) ∈ al
  sorted : al.Pairwise fun a b => a.2 ≤ b.2
  path : ∀ x ∈ al, PathLen h root x.1 x.2
  edges : ∀ q ∈ al, ∀ c ∈ childrenAt h q.1, ∃ n, (c, n) ∈ al ∧ n ≤ q.2 + 1

/-- A plan with cycles through children: `A` has the child `B`, and `B` lists
the root `A` and itself. -/
def cyclicPlan : Heap :=
  [⟨"A", .other, [1], [1]⟩, ⟨"B", .other, [0, 1], []⟩]

/-- The plan `cyclicPlan` after `setParents4FinalPlan` on `A`. -/
def cyclicPlanLinked : Heap :=
  [⟨"A", .other, [1], [1]⟩, ⟨"B", .other, [0, 1], [0, 1]⟩]

/-! # Theorems -/

/-! ## Heaps of the same shape -/

theorem SameShape.refl (h : Heap) : SameShape h h := rfl

theorem SameShape.trans {h0 h1 h2 : Heap} (a : SameShape h0 h1) (b : SameShape h1 h2) :
    SameShape h0 h2 := by
  unfold SameShape at *; rw [b, a]

theorem SameShape.symm {h0 h1 : Heap} (a : SameShape h0 h1) : SameShape h1 h0 := by
  unfold SameShape at *; exact a.symm

theorem SameShape.length {h0 h : Heap} (a : SameShape h0 h) : h.length = h0.length := by
  have := congrArg List.length a
  simpa using this

theorem SameShape.get {h0 h : Heap} (a : SameShape h0 h) (p : Nat) :
    (h[p]?).map Node.shape = (h0[p]?).map Node.shape := by
  have := congrArg (fun l => l[p]?) a
  simpa [List.getElem?_map] using this

theorem SameShape.get_none {h0 h : Heap} (a : SameShape h0 h) {p : Nat} (hp : h0[p]? = none) :
    h[p]? = none := by
  have := a.get p
  rw [hp] at this
  simpa using this

theorem SameShape.get_some {h0 h : Heap} (a : SameShape h0 h) {p : Nat} {n0 : Node}
    (hp : h0[p]? = some n0) :
    ∃ n, h[p]? = some n ∧ n.id = n0.id ∧ n.kind = n0.kind ∧ n.children = n0.children := by
  have := a.get p
  rw [hp] at this
  cases hn : h[p]? with
  | none => rw [hn] at this; simp at this
  | some n =>
    rw [hn] at this
    simp [Node.shape] at this
    exact ⟨n, rfl, this.1, this.2.1, this.2.2⟩

theorem sameShape_set {h : Heap} {p : Nat} {n : Node} (hp : h[p]? = some n) (pars : List Nat) :
    SameShape h (h.set p { n with parents := pars }) := by
  unfold SameShape
  apply List.ext_getElem?
  intro i
  simp only [List.getElem?_map, List.getElem?_set]
  by_cases hi : p = i
  · subst hi
    have hlt : p < h.length := by
      rcases List.getElem?_eq_some_iff.mp hp with ⟨hlt, _⟩; exact hlt
    simp [hlt, hp, Node.shape]
  · simp [hi]

theorem SetParents_sameShape {h h' : Heap} {p : Nat} {pars : List Nat}
    (e : SetParents h p pars = some h') : SameShape h h' := by
  unfold SetParents at e
  cases hp : h[p]? with
  | none => rw [hp] at e; simp at e
  | some n =>
    rw [hp] at e
    simp at e
    subst e
    exact sameShape_set hp pars

theorem AddParent_sameShape {h h' : Heap} {p parent : Nat}
    (e : AddParent h p parent = some h') : SameShape h h' := by
  unfold AddParent at e
  cases hp : h[p]? with
  | none => rw [hp] at e; simp at e
  | some n =>
    rw [hp] at e
    simp at e
    subst e
    exact sameShape_set hp _

theorem Op.run_keeps_shape {h h' : Heap} {o : Op} (e : o.run h = some h') : SameShape h h' := by
  cases o with
  | clear p => exact SetParents_sameShape e
  | add p parent => exact AddParent_sameShape e

theorem runOps_sameShape {os : List Op} : ∀ {h h' : Heap}, runOps os h = some h' → SameShape h h' := by
  induction os with
  | nil => intro h h' e; simp [runOps] at e; subst e; exact SameShape.refl _
  | cons o os ih =>
    intro h h' e
    simp only [runOps] at e
    cases ho : o.run h with
    | none => rw [ho] at e; simp at e
    | some h1 =>
      rw [ho] at e
      simp at e
      exact (Op.run_keeps_shape ho).trans (ih e)

theorem runOps_append (os1 os2 : List Op) (h : Heap) :
    runOps (os1 ++ os2) h = (runOps os1 h).bind (runOps os2) := by
  induction os1 generalizing h with
  | nil => simp [runOps]
  | cons o os ih =>
    simp only [List.cons_append, runOps]
    cases ho : o.run h with
    | none => simp
    | some h1 => simp [ih]

theorem markChildren_sameShape {h0 h : Heap} (a : SameShape h0 h) (cs : List Nat) :
    ∀ (allPlans : List Nat) (planMark : PlanMark),
      markChildren h cs allPlans planMark = markChildren h0 cs allPlans planMark := by
  induction cs with
  | nil => intro _ _; rfl
  | cons c cs ih =>
    intro allPlans planMark
    simp only [markChildren]
    cases hc : h0[c]? with
    | none => rw [a.get_none hc]
    | some n0 =>
      obtain ⟨n, hn, hid, _, _⟩ := a.get_some hc
      rw [hn]
      simp only [hid, ih]

/-! ## A run is the sequence of its calls -/

theorem SetParents_none {h : Heap} {p : Nat} (hp : h[p]? = none) (pars : List Nat) :
    SetParents h p pars = none := by
  simp [SetParents, hp]

theorem AddParent_none {h : Heap} {p : Nat} (hp : h[p]? = none) (parent : Nat) :
    AddParent h p parent = none := by
  simp [AddParent, hp]

theorem SetParents_some {h : Heap} {p : Nat} {n : Node} (hp : h[p]? = some n) (pars : List Nat) :
    ∃ h1, SetParents h p pars = some h1 ∧ h1[p]? = some { n with parents := pars } := by
  have hlt : p < h.length := (List.getElem?_eq_some_iff.mp hp).1
  refine ⟨h.set p { n with parents := pars }, ?_, ?_⟩
  · simp [SetParents, hp]
  · simp [hlt]

theorem AddParent_some {h : Heap} {p : Nat} {n : Node} (hp : h[p]? = some n) (parent : Nat) :
    ∃ h1, AddParent h p parent = some h1 ∧
      h1[p]? = some { n with parents := n.parents ++ [parent] } := by
  have hlt : p < h.length := (List.getElem?_eq_some_iff.mp hp).1
  refine ⟨h.set p { n with parents := n.parents ++ [parent] }, ?_, ?_⟩
  · simp [AddParent, hp]
  · simp [hlt]

theorem linkChildren_eq {h0 : Heap} (parent : Nat) (cs : List Nat) :
    ∀ (h : Heap) (allPlans : List Nat) (planMark : PlanMark), SameShape h0 h →
      linkChildren parent cs h allPlans planMark
        = (unmarkChildren h0 cs allPlans planMark).bind fun r =>
            (runOps (cs.map fun c => Op.add c parent) h).map fun h' => (h', r.1, r.2) := by
  induction cs with
  | nil => intro h allPlans planMark _; simp [linkChildren, unmarkChildren, runOps]
  | cons c cs ih =>
    intro h allPlans planMark a
    simp only [linkChildren, unmarkChildren, List.map_cons, runOps, Op.run]
    cases hc : h0[c]? with
    | none => simp [AddParent_none (a.get_none hc)]
    | some n0 =>
      obtain ⟨n, hn, hid, _, _⟩ := a.get_some hc
      obtain ⟨h1, e1, hn1⟩ := AddParent_some hn parent
      have a1 : SameShape h0 h1 := a.trans (AddParent_sameShape e1)
      simp only [e1, hn1, Option.some_bind, hid]
      by_cases hm : planMark n0.id = true
      · simp only [hm, if_true]
        exact ih h1 _ _ a1
      · simp only [hm]
        exact ih h1 _ _ a1

theorem pass2_eq {h0 : Heap} :
    ∀ (fuel : Nat) (h : Heap) (allPlans : List Nat) (planMark : PlanMark) (pID : Nat),
      SameShape h0 h →
      pass2 fuel h allPlans planMark pID
        = (pass2Ops h0 fuel allPlans planMark pID).bind fun r =>
            (runOps r.1 h).map fun h' => (h', r.2.1, r.2.2) := by
  intro fuel
  induction fuel with
  | zero =>
    intro h allPlans planMark pID _
    simp only [pass2, pass2Ops]
    cases allPlans[pID]? <;> simp [runOps]
  | succ fuel ih =>
    intro h allPlans planMark pID a
    simp only [pass2, pass2Ops]
    cases hp : allPlans[pID]? with
    | none => simp [runOps]
    | some p =>
      simp only []
      cases hn0 : h0[p]? with
      | none => simp [a.get_none hn0]
      | some n0 =>
        obtain ⟨n, hn, _, _, hch⟩ := a.get_some hn0
        simp only [hn, Option.some_bind, hch]
        rw [linkChildren_eq p n0.children h allPlans planMark a]
        cases hu : unmarkChildren h0 n0.children allPlans planMark with
        | none => simp
        | some r =>
          simp only [Option.some_bind]
          cases hr : runOps (n0.children.map fun c => Op.add c p) h with
          | none =>
            simp only [Option.map_none', Option.none_bind]
            cases pass2Ops h0 fuel r.1 r.2 (pID + 1) <;> simp [runOps_append, hr]
          | some h1 =>
            have a1 : SameShape h0 h1 := a.trans (runOps_sameShape hr)
            simp only [Option.map_some', Option.some_bind]
            rw [ih h1 r.1 r.2 (pID + 1) a1]
            cases pass2Ops h0 fuel r.1 r.2 (pID + 1) <;> simp [runOps_append, hr]

theorem relinkEmbedded_eq {h0 : Heap} (self : Heap → Nat → Option Heap)
    (selfOps : Nat → Option (List Op))
    (hself : ∀ (h : Heap) (e : Nat), SameShape h0 h →
      self h e = (selfOps e).bind fun os => runOps os h)
    (k : Kind) (h : Heap) (a : SameShape h0 h) :
    relinkEmbedded self h k = (embeddedOps selfOps k).bind fun os => runOps os h := by
  cases k with
  | other => simp [relinkEmbedded, embeddedOps, runOps]
  | PhysicalTableReader t => simp [relinkEmbedded, embeddedOps, hself h t a]
  | PhysicalIndexReader i => simp [relinkEmbedded, embeddedOps, hself h i a]
  | PhysicalIndexLookUpReader i t =>
    simp only [relinkEmbedded, embeddedOps, hself h i a]
    cases hi : selfOps i with
    | none => simp
    | some os1 =>
      simp only [Option.some_bind]
      cases h1 : runOps os1 h with
      | none => cases selfOps t <;> simp [runOps_append, h1]
      | some h1' =>
        have a1 : SameShape h0 h1' := a.trans (runOps_sameShape h1)
        simp only [Option.some_bind, hself h1' t a1]
        cases selfOps t <;> simp [runOps_append, h1]

theorem pass1_eq {h0 : Heap} (self : Heap → Nat → Option Heap)
    (selfOps : Nat → Option (List Op))
    (hself : ∀ (h : Heap) (e : Nat), SameShape h0 h →
      self h e = (selfOps e).bind fun os => runOps os h) :
    ∀ (fuel : Nat) (h : Heap) (allPlans : List Nat) (planMark : PlanMark) (pID : Nat),
      SameShape h0 h →
      pass1 self fuel h allPlans planMark pID
        = (pass1Ops selfOps h0 fuel allPlans planMark pID).bind fun r =>
            (runOps r.1 h).map fun h' => (h', r.2.1, r.2.2) := by
  intro fuel
  induction fuel with
  | zero =>
    intro h allPlans planMark pID _
    simp only [pass1, pass1Ops]
    cases allPlans[pID]? <;> simp [runOps]
  | succ fuel ih =>
    intro h allPlans planMark pID a
    simp only [pass1, pass1Ops]
    cases hp : allPlans[pID]? with
    | none => simp [runOps]
    | some p =>
      simp only []
      cases hn0 : h0[p]? with
      | none => simp [SetParents_none (a.get_none hn0)]
      | some n0 =>
        obtain ⟨n, hn, _, hk, hch⟩ := a.get_some hn0
        obtain ⟨h1, e1, hn1⟩ := SetParents_some hn []
        have a1 : SameShape h0 h1 := a.trans (SetParents_sameShape e1)
        simp only [e1, hn1, Option.some_bind, hk]
        rw [relinkEmbedded_eq self selfOps hself n0.kind h1 a1]
        cases he : embeddedOps selfOps n0.kind with
        | none => simp
        | some es =>
          simp only [Option.some_bind]
          cases h2e : runOps es h1 with
          | none =>
            simp only [Option.none_bind]
            cases markChildren h0 n0.children allPlans planMark with
            | none => simp
            | some r =>
              simp only [Option.some_bind]
              cases pass1Ops selfOps h0 fuel r.1 r.2 (pID + 1) <;>
                simp [runOps, Op.run, e1, runOps_append, h2e]
          | some h2 =>
            have a2 : SameShape h0 h2 := a1.trans (runOps_sameShape h2e)
            obtain ⟨n2, hn2, _, _, hch2⟩ := a2.get_some hn0
            simp only [Option.some_bind, hn2, hch2, markChildren_sameShape a2]
            cases markChildren h0 n0.children allPlans planMark with
            | none => simp
            | some r =>
              simp only [Option.some_bind]
              rw [ih h2 r.1 r.2 (pID + 1) a2]
              cases pass1Ops selfOps h0 fuel r.1 r.2 (pID + 1) <;>
                simp [runOps, Op.run, e1, runOps_append, h2e]

theorem setParents4FinalPlan_eq {h0 : Heap} :
    ∀ (fuel : Nat) (h : Heap) (plan : Nat), SameShape h0 h →
      setParents4FinalPlan fuel h plan
        = (relinkOps fuel h0 plan).bind fun os => runOps os h := by
  intro fuel
  induction fuel with
  | zero => intro h plan _; simp [setParents4FinalPlan, relinkOps]
  | succ fuel ih =>
    intro h plan a
    simp only [setParents4FinalPlan, relinkOps, firstLoop, secondLoop]
    cases hn0 : h0[plan]? with
    | none => simp [a.get_none hn0]
    | some n0 =>
      obtain ⟨n, hn, hid, _, _⟩ := a.get_some hn0
      simp only [hn, Option.some_bind, hid]
      rw [pass1_eq (setParents4FinalPlan fuel) (relinkOps fuel h0)
        (fun h e a => ih h e a) fuel h _ _ 0 a]
      cases h1 : pass1Ops (relinkOps fuel h0) h0 fuel [plan]
          (PlanMark.set (fun _ => false) n0.id true) 0 with
      | none => simp
      | some r1 =>
        simp only [Option.some_bind]
        cases hr1 : runOps r1.1 h with
        | none =>
          simp only [Option.map_none', Option.none_bind]
          cases pass2Ops h0 fuel [plan] (r1.2.2.set n0.id false) 0 <;>
            simp [runOps_append, hr1]
        | some h1' =>
          have a1 : SameShape h0 h1' := a.trans (runOps_sameShape hr1)
          obtain ⟨n1, hn1, hid1, _, _⟩ := a1.get_some hn0
          simp only [Option.map_some', Option.some_bind, hn1, hid1]
          rw [pass2_eq fuel h1' _ _ 0 a1]
          cases hp2 : pass2Ops h0 fuel [plan] (r1.2.2.set n0.id false) 0 with
          | none => simp
          | some r2 =>
            simp only [Option.some_bind, Option.map_some', runOps_append, hr1]
            cases runOps r2.1 h1' <;> simp

/-! ## The bookkeeping of the first pass -/

theorem childrenAt_of_get {h : Heap} {p : Nat} {n : Node} (hp : h[p]? = some n) :
    childrenAt h p = n.children := by
  simp [childrenAt, hp]

theorem embeddedAt_of_get {h : Heap} {p : Nat} {n : Node} (hp : h[p]? = some n) :
    embeddedAt h p = n.kind.embedded := by
  simp [embeddedAt, hp]

theorem idOf_of_get {h : Heap} {p : Nat} {n : Node} (hp : h[p]? = some n) :
    idOf h p = some n.id := by
  simp [idOf, hp]

/-- Induction along a successful run of the inner loop of the first pass. -/
theorem markChildren_induction {h : Heap}
    (motive : List Nat → List Nat → PlanMark → List Nat → PlanMark → Prop)
    (nil : ∀ allPlans planMark, motive [] allPlans planMark allPlans planMark)
    (skip : ∀ c cs allPlans planMark n L M, h[c]? = some n → planMark n.id = true →
      markChildren h cs allPlans planMark = some (L, M) →
      motive cs allPlans planMark L M → motive (c :: cs) allPlans planMark L M)
    (push : ∀ c cs allPlans planMark n L M, h[c]? = some n → planMark n.id = false →
      markChildren h cs (allPlans ++ [c]) (planMark.set n.id true) = some (L, M) →
      motive cs (allPlans ++ [c]) (planMark.set n.id true) L M →
      motive (c :: cs) allPlans planMark L M) :
    ∀ (cs allPlans : List Nat) (planMark : PlanMark) (L : List Nat) (M : PlanMark),
      markChildren h cs allPlans planMark = some (L, M) → motive cs allPlans planMark L M := by
  intro cs
  induction cs with
  | nil =>
    intro allPlans planMark L M e
    simp [markChildren] at e
    obtain ⟨rfl, rfl⟩ := e
    exact nil _ _
  | cons c cs ih =>
    intro allPlans planMark L M e
    simp only [markChildren] at e
    cases hc : h[c]? with
    | none => rw [hc] at e; simp at e
    | some n =>
      rw [hc] at e
      simp only [] at e
      by_cases hm : planMark n.id = true
      · simp only [hm, if_true] at e
        exact skip c cs allPlans planMark n L M hc hm e (ih _ _ _ _ e)
      · simp only [hm] at e
        have hm' : planMark n.id = false := by simpa using hm
        exact push c cs allPlans planMark n L M hc hm' e (ih _ _ _ _ e)

theorem PlanMark.set_self (m : PlanMark) (k : String) (v : Bool) : m.set k v k = v := by
  simp [PlanMark.set]

theorem PlanMark.set_other (m : PlanMark) {k s : String} (v : Bool) (hne : s ≠ k) :
    m.set k v s = m s := by
  simp [PlanMark.set, hne]

theorem markChildren_append {h : Heap} (cs allPlans : List Nat) (planMark : PlanMark)
    (L : List Nat) (M : PlanMark) (e : markChildren h cs allPlans planMark = some (L, M)) :
    ∃ new, L = allPlans ++ new ∧ ∀ c ∈ new, c ∈ cs := by
  refine markChildren_induction
    (fun cs allPlans _ L _ => ∃ new, L = allPlans ++ new ∧ ∀ c ∈ new, c ∈ cs)
    ?_ ?_ ?_ cs allPlans planMark L M e
  · intro allPlans _; exact ⟨[], by simp, by simp⟩
  · intro c cs allPlans _ n L _ _ _ _ ih
    obtain ⟨new, h1, h2⟩ := ih
    exact ⟨new, h1, fun x hx => List.mem_cons_of_mem _ (h2 x hx)⟩
  · intro c cs allPlans _ n L _ _ _ _ ih
    obtain ⟨new, h1, h2⟩ := ih
    refine ⟨c :: new, by simp [h1], ?_⟩
    intro x hx
    rcases List.mem_cons.mp hx with rfl | hx
    · exact List.mem_cons_self _ _
    · exact List.mem_cons_of_mem _ (h2 x hx)

theorem markChildren_mono {h : Heap} (cs allPlans : List Nat) (planMark : PlanMark)
    (L : List Nat) (M : PlanMark) (e : markChildren h cs allPlans planMark = some (L, M)) :
    ∀ s, planMark s = true → M s = true := by
  refine markChildren_induction
    (fun _ _ planMark _ M => ∀ s, planMark s = true → M s = true)
    ?_ ?_ ?_ cs allPlans planMark L M e
  · intro _ _ s hs; exact hs
  · intro c cs allPlans _ n L _ _ _ _ ih; exact ih
  · intro c cs allPlans planMark n L M _ hm _ ih s hs
    apply ih
    by_cases hsn : s = n.id
    · subst hsn; exact PlanMark.set_self _ _ _
    · rw [PlanMark.set_other _ _ hsn]; exact hs

theorem markChildren_marked {h : Heap} (cs allPlans : List Nat) (planMark : PlanMark)
    (L : List Nat) (M : PlanMark) (e : markChildren h cs allPlans planMark = some (L, M)) :
    ∀ c ∈ cs, ∃ n, h[c]? = some n ∧ M n.id = true := by
  refine markChildren_induction
    (fun cs _ _ _ M => ∀ c ∈ cs, ∃ n, h[c]? = some n ∧ M n.id = true)
    ?_ ?_ ?_ cs allPlans planMark L M e
  · intro _ _ c hc; simp at hc
  · intro c cs allPlans planMark n L M hn hm e' ih x hx
    rcases List.mem_cons.mp hx with rfl | hx
    · exact ⟨n, hn, markChildren_mono _ _ _ _ _ e' _ hm⟩
    · exact ih x hx
  · intro c cs allPlans planMark n L M hn hm e' ih x hx
    rcases List.mem_cons.mp hx with rfl | hx
    · exact ⟨n, hn, markChildren_mono _ _ _ _ _ e' _ (PlanMark.set_self _ _ _)⟩
    · exact ih x hx

theorem markChildren_listed {h : Heap} (cs allPlans : List Nat) (planMark : PlanMark)
    (L : List Nat) (M : PlanMark) (e : markChildren h cs allPlans planMark = some (L, M)) :
    Listed h allPlans planMark → Listed h L M := by
  refine markChildren_induction
    (fun _ allPlans planMark L M => Listed h allPlans planMark → Listed h L M)
    ?_ ?_ ?_ cs allPlans planMark L M e
  · intro _ _ hl; exact hl
  · intro c cs allPlans planMark n L M _ _ _ ih; exact ih
  · intro c cs allPlans planMark n L M hn hm _ ih hl
    apply ih
    have hid : idOf h c = some n.id := idOf_of_get hn
    constructor
    · intro p hp
      rcases List.mem_append.mp hp with hp | hp
      · exact hl.valid p hp
      · simp at hp; subst hp
        exact (List.getElem?_eq_some_iff.mp hn).1
    · rw [List.map_append, List.nodup_append]
      refine ⟨hl.nodup, by simp, ?_⟩
      intro a ha hb
      simp at hb
      rw [hid] at hb
      subst hb
      have := (hl.marks n.id).mpr ha
      rw [hm] at this
      exact Bool.noConfusion this
    · intro s
      rw [List.map_append, List.mem_append]
      by_cases hs : s = n.id
      · subst hs
        simp [PlanMark.set_self, hid]
      · rw [PlanMark.set_other _ _ hs, hl.marks s]
        simp [hid]
        intro hh; exact absurd hh hs

theorem countP_lt_of_mem {α : Type} (p q : α → Bool) (l : List α)
    (hpq : ∀ x ∈ l, p x = true → q x = true) (a : α) (ha : a ∈ l) (hqa : q a = true)
    (hpa : p a = false) : l.countP p < l.countP q := by
  induction l with
  | nil => simp at ha
  | cons x xs ih =>
    have hmono : xs.countP p ≤ xs.countP q :=
      List.countP_mono_left fun y hy => hpq y (List.mem_cons_of_mem _ hy)
    rcases List.mem_cons.mp ha with rfl | ha
    · rw [List.countP_cons_of_pos _ _ hqa, List.countP_cons_of_neg _ _ (by simp [hpa])]
      omega
    · have := ih (fun y hy => hpq y (List.mem_cons_of_mem _ hy)) ha
      by_cases hpx : p x = true
      · rw [List.countP_cons_of_pos _ _ hpx,
          List.countP_cons_of_pos _ _ (hpq x (List.mem_cons_self _ _) hpx)]
        omega
      · rw [List.countP_cons_of_neg _ _ hpx]
        by_cases hqx : q x = true
        · rw [List.countP_cons_of_pos _ _ hqx]; omega
        · rw [List.countP_cons_of_neg _ _ hqx]; exact this

theorem unmarked_set_lt {h : Heap} {c : Nat} {n : Node} (planMark : PlanMark)
    (hn : h[c]? = some n) (hm : planMark n.id = false) :
    unmarked h (planMark.set n.id true) < unmarked h planMark := by
  unfold unmarked
  apply countP_lt_of_mem _ _ h _ n (List.mem_iff_getElem?.mpr ⟨c, hn⟩)
  · simp [hm]
  · simp [PlanMark.set_self]
  · intro x _ hx
    by_cases hxn : x.id = n.id
    · rw [hxn, PlanMark.set_self] at hx; simp at hx
    · rw [PlanMark.set_other _ _ hxn] at hx; exact hx

theorem markChildren_measure {h : Heap} (cs allPlans : List Nat) (planMark : PlanMark)
    (L : List Nat) (M : PlanMark) (e : markChildren h cs allPlans planMark = some (L, M)) :
    L.length + unmarked h M ≤ allPlans.length + unmarked h planMark := by
  refine markChildren_induction
    (fun _ allPlans planMark L M =>
      L.length + unmarked h M ≤ allPlans.length + unmarked h planMark)
    ?_ ?_ ?_ cs allPlans planMark L M e
  · intro _ _; exact Nat.le_refl _
  · intro c cs allPlans planMark n L M _ _ _ ih; exact ih
  · intro c cs allPlans planMark n L M hn hm _ ih
    have := unmarked_set_lt planMark hn hm
    simp at ih
    omega

theorem markChildren_succeeds {h : Heap} (cs : List Nat) (hcs : ∀ c ∈ cs, c < h.length) :
    ∀ (allPlans : List Nat) (planMark : PlanMark),
      ∃ r, markChildren h cs allPlans planMark = some r := by
  induction cs with
  | nil => intro allPlans planMark; exact ⟨_, rfl⟩
  | cons c cs ih =>
    intro allPlans planMark
    have hc : c < h.length := hcs c (List.mem_cons_self _ _)
    have ih' := ih fun x hx => hcs x (List.mem_cons_of_mem _ hx)
    simp only [markChildren, List.getElem?_eq_getElem hc]
    by_cases hm : planMark h[c].id = true
    · simp only [hm, if_true]; exact ih' _ _
    · simp only [hm]; exact ih' _ _

/-! ## The first loop -/

/-- Induction along a successful run of the first loop. -/
theorem pass1Ops_induction {self : Nat → Option (List Op)} {h : Heap}
    (motive : Nat → List Nat → PlanMark → Nat → List Op → List Nat → PlanMark → Prop)
    (done : ∀ fuel allPlans planMark pID, allPlans[pID]? = none →
      motive fuel allPlans planMark pID [] allPlans planMark)
    (step : ∀ fuel allPlans planMark pID p n es all1 m1 os L M,
      allPlans[pID]? = some p → h[p]? = some n → embeddedOps self n.kind = some es →
      markChildren h n.children allPlans planMark = some (all1, m1) →
      pass1Ops self h fuel all1 m1 (pID + 1) = some (os, L, M) →
      motive fuel all1 m1 (pID + 1) os L M →
      motive (fuel + 1) allPlans planMark pID (Op.clear p :: (es ++ os)) L M) :
    ∀ (fuel : Nat) (allPlans : List Nat) (planMark : PlanMark) (pID : Nat) (os : List Op)
      (L : List Nat) (M : PlanMark),
      pass1Ops self h fuel allPlans planMark pID = some (os, L, M) →
      motive fuel allPlans planMark pID os L M := by
  intro fuel
  induction fuel with
  | zero =>
    intro allPlans planMark pID os L M e
    simp only [pass1Ops] at e
    cases hp : allPlans[pID]? with
    | none =>
      rw [hp] at e; simp at e
      obtain ⟨rfl, rfl, rfl⟩ := e
      exact done _ _ _ _ hp
    | some p => rw [hp] at e; simp at e
  | succ fuel ih =>
    intro allPlans planMark pID os L M e
    simp only [pass1Ops] at e
    cases hp : allPlans[pID]? with
    | none =>
      rw [hp] at e; simp at e
      obtain ⟨rfl, rfl, rfl⟩ := e
      exact done _ _ _ _ hp
    | some p =>
      rw [hp] at e
      simp only [] at e
      cases hn : h[p]? with
      | none => rw [hn] at e; simp at e
      | some n =>
        rw [hn] at e
        simp only [Option.some_bind] at e
        cases he : embeddedOps self n.kind with
        | none => rw [he] at e; simp at e
        | some es =>
          rw [he] at e
          simp only [Option.some_bind] at e
          cases hm : markChildren h n.children allPlans planMark with
          | none => rw [hm] at e; simp at e
          | some r =>
            rw [hm] at e
            simp only [Option.some_bind] at e
            cases hr : pass1Ops self h fuel r.1 r.2 (pID + 1) with
            | none => rw [hr] at e; simp at e
            | some q =>
              rw [hr] at e
              simp at e
              obtain ⟨rfl, e2⟩ := e
              obtain ⟨all1, m1⟩ := r
              obtain ⟨os', L', M'⟩ := q
              simp at e2
              obtain ⟨rfl, rfl⟩ := e2
              exact step fuel allPlans planMark pID p n es all1 m1 os' L' M' hp hn he hm hr
                (ih _ _ _ _ _ _ hr)

theorem pass1Ops_append {self : Nat → Option (List Op)} {h : Heap}
    (fuel : Nat) (allPlans : List Nat) (planMark : PlanMark) (pID : Nat) (os : List Op)
    (L : List Nat) (M : PlanMark)
    (e : pass1Ops self h fuel allPlans planMark pID = some (os, L, M)) :
    ∃ new, L = allPlans ++ new := by
  refine pass1Ops_induction (fun _ allPlans _ _ _ L _ => ∃ new, L = allPlans ++ new)
    ?_ ?_ fuel allPlans planMark pID os L M e
  · intro _ allPlans _ _ _; exact ⟨[], by simp⟩
  · intro _ allPlans planMark _ p n _ all1 m1 _ L _ _ _ _ hm _ ih
    obtain ⟨new1, h1, _⟩ := markChildren_append _ _ _ _ _ hm
    obtain ⟨new2, h2⟩ := ih
    exact ⟨new1 ++ new2, by rw [h2, h1, List.append_assoc]⟩

theorem pass1Ops_mono {self : Nat → Option (List Op)} {h : Heap}
    (fuel : Nat) (allPlans : List Nat) (planMark : PlanMark) (pID : Nat) (os : List Op)
    (L : List Nat) (M : PlanMark)
    (e : pass1Ops self h fuel allPlans planMark pID = some (os, L, M)) :
    ∀ s, planMark s = true → M s = true := by
  refine pass1Ops_induction (fun _ _ planMark _ _ _ M => ∀ s, planMark s = true → M s = true)
    ?_ ?_ fuel allPlans planMark pID os L M e
  · intro _ _ _ _ _ s hs; exact hs
  · intro _ allPlans planMark _ p n _ all1 m1 _ L _ _ _ _ hm _ ih s hs
    exact ih s (markChildren_mono _ _ _ _ _ hm s hs)

theorem pass1Ops_listed {self : Nat → Option (List Op)} {h : Heap}
    (fuel : Nat) (allPlans : List Nat) (planMark : PlanMark) (pID : Nat) (os : List Op)
    (L : List Nat) (M : PlanMark)
    (e : pass1Ops self h fuel allPlans planMark pID = some (os, L, M)) :
    Listed h allPlans planMark → Listed h L M := by
  refine pass1Ops_induction
    (fun _ allPlans planMark _ _ L M => Listed h allPlans planMark → Listed h L M)
    ?_ ?_ fuel allPlans planMark pID os L M e
  · intro _ _ _ _ _ hl; exact hl
  · intro _ allPlans planMark _ p n _ all1 m1 _ L _ _ _ _ hm _ ih hl
    exact ih (markChildren_listed _ _ _ _ _ hm hl)

/-- Every listed plan comes from the initial list through `Children()` edges. -/
theorem pass1Ops_closed_under {self : Nat → Option (List Op)} {h : Heap} (Q : Nat → Prop)
    (hQ : ∀ p c, Q p → IsChild h p c → Q c)
    (fuel : Nat) (allPlans : List Nat) (planMark : PlanMark) (pID : Nat) (os : List Op)
    (L : List Nat) (M : PlanMark)
    (e : pass1Ops self h fuel allPlans planMark pID = some (os, L, M)) :
    (∀ p ∈ allPlans, Q p) → ∀ p ∈ L, Q p := by
  refine pass1Ops_induction
    (fun _ allPlans _ _ _ L _ => (∀ p ∈ allPlans, Q p) → ∀ p ∈ L, Q p)
    ?_ ?_ fuel allPlans planMark pID os L M e
  · intro _ _ _ _ _ hl; exact hl
  · intro _ allPlans planMark pID p n _ all1 m1 _ L _ hp hn _ hm _ ih hall
    apply ih
    obtain ⟨new1, h1, hsub⟩ := markChildren_append _ _ _ _ _ hm
    intro x hx
    rw [h1] at hx
    rcases List.mem_append.mp hx with hx | hx
    · exact hall x hx
    · have hpin : p ∈ allPlans := List.mem_iff_getElem?.mpr ⟨pID, hp⟩
      apply hQ p x (hall p hpin)
      unfold IsChild
      rw [childrenAt_of_get hn]
      exact hsub x hx

/-- At the end of the first loop the children of every plan processed from
index `pID` on are marked. -/
theorem pass1Ops_children_marked {self : Nat → Option (List Op)} {h : Heap}
    (fuel : Nat) (allPlans : List Nat) (planMark : PlanMark) (pID : Nat) (os : List Op)
    (L : List Nat) (M : PlanMark)
    (e : pass1Ops self h fuel allPlans planMark pID = some (os, L, M)) :
    ∀ p ∈ L.drop pID, ∀ c ∈ childrenAt h p, ∃ n, h[c]? = some n ∧ M n.id = true := by
  refine pass1Ops_induction
    (fun _ _ _ pID _ L M =>
      ∀ p ∈ L.drop pID, ∀ c ∈ childrenAt h p, ∃ n, h[c]? = some n ∧ M n.id = true)
    ?_ ?_ fuel allPlans planMark pID os L M e
  · intro _ allPlans _ pID hp p hpin
    have : allPlans.length ≤ pID := by
      simpa using hp
    rw [List.drop_eq_nil_of_le this] at hpin
    simp at hpin
  · intro fuel allPlans planMark pID p n _ all1 m1 os' L M hp hn _ hm hr ih q hq c hc
    obtain ⟨new1, h1, _⟩ := markChildren_append _ _ _ _ _ hm
    obtain ⟨new2, h2⟩ := pass1Ops_append _ _ _ _ _ _ _ hr
    have hlt : pID < allPlans.length := (List.getElem?_eq_some_iff.mp hp).1
    have hLp : L[pID]? = some p := by
      rw [h2, h1, List.append_assoc, List.getElem?_append_left hlt]; exact hp
    have hlt' : pID < L.length := (List.getElem?_eq_some_iff.mp hLp).1
    rw [List.drop_eq_getElem_cons hlt'] at hq
    have hLp' : L[pID] = p := by
      have := List.getElem?_eq_getElem hlt'
      rw [hLp] at this
      exact (Option.some.inj this).symm
    rw [hLp'] at hq
    rcases List.mem_cons.mp hq with rfl | hq
    · rw [childrenAt_of_get hn] at hc
      obtain ⟨nc, hnc, hmc⟩ := markChildren_marked _ _ _ _ _ hm c hc
      exact ⟨nc, hnc, pass1Ops_mono _ _ _ _ _ _ _ hr _ hmc⟩
    · exact ih q hq c hc

/-- The calls of the first loop, in closed form. -/
theorem pass1Ops_ops {self : Nat → Option (List Op)} {h : Heap}
    (fuel : Nat) (allPlans : List Nat) (planMark : PlanMark) (pID : Nat) (os : List Op)
    (L : List Nat) (M : PlanMark)
    (e : pass1Ops self h fuel allPlans planMark pID = some (os, L, M)) :
    os = clearOps self h (L.drop pID) ∧
      ∀ p ∈ L.drop pID, ∃ n es, h[p]? = some n ∧ embeddedOps self n.kind = some es := by
  refine pass1Ops_induction
    (fun _ _ _ pID os L _ => os = clearOps self h (L.drop pID) ∧
      ∀ p ∈ L.drop pID, ∃ n es, h[p]? = some n ∧ embeddedOps self n.kind = some es)
    ?_ ?_ fuel allPlans planMark pID os L M e
  · intro _ allPlans _ pID hp
    have : allPlans.length ≤ pID := by
      simpa using hp
    rw [List.drop_eq_nil_of_le this]
    simp [clearOps]
  · intro fuel allPlans planMark pID p n es all1 m1 os' L M hp hn he hm hr ih
    obtain ⟨new1, h1, _⟩ := markChildren_append _ _ _ _ _ hm
    obtain ⟨new2, h2⟩ := pass1Ops_append _ _ _ _ _ _ _ hr
    have hlt : pID < allPlans.length := (List.getElem?_eq_some_iff.mp hp).1
    have hLp : L[pID]? = some p := by
      rw [h2, h1, List.append_assoc, List.getElem?_append_left hlt]; exact hp
    have hlt' : pID < L.length := (List.getElem?_eq_some_iff.mp hLp).1
    have hLp' : L[pID] = p := by
      have := List.getElem?_eq_getElem hlt'
      rw [hLp] at this
      exact (Option.some.inj this).symm
    rw [List.drop_eq_getElem_cons hlt', hLp']
    constructor
    · rw [ih.1]
      simp [clearOps, embeddedOpsAt, hn, he]
    · intro q hq
      rcases List.mem_cons.mp hq with rfl | hq
      · exact ⟨n, es, hn, he⟩
      · exact ih.2 q hq

/-! ## The second loop rebuilds the list of the first -/

theorem unmarkChildren_of_markChildren {h : Heap} (Mf : PlanMark)
    (cs allPlans : List Nat) (planMark : PlanMark)
    (L : List Nat) (M : PlanMark) (e : markChildren h cs allPlans planMark = some (L, M)) :
    ∀ m2 : PlanMark, (∀ s, m2 s = (Mf s && !planMark s)) → (∀ s, M s = true → Mf s = true) →
      ∃ m2', unmarkChildren h cs allPlans m2 = some (L, m2') ∧
        ∀ s, m2' s = (Mf s && !M s) := by
  refine markChildren_induction
    (fun cs allPlans planMark L M =>
      ∀ m2 : PlanMark, (∀ s, m2 s = (Mf s && !planMark s)) → (∀ s, M s = true → Mf s = true) →
        ∃ m2', unmarkChildren h cs allPlans m2 = some (L, m2') ∧
          ∀ s, m2' s = (Mf s && !M s))
    ?_ ?_ ?_ cs allPlans planMark L M e
  · intro allPlans planMark m2 hm2 _
    exact ⟨m2, rfl, hm2⟩
  · intro c cs allPlans planMark n L M hn hm _ ih m2 hm2 hM
    have h2 : m2 n.id = false := by rw [hm2, hm]; simp
    obtain ⟨m2', e2, hm2'⟩ := ih m2 hm2 hM
    refine ⟨m2', ?_, hm2'⟩
    simp only [unmarkChildren, hn, Option.some_bind, h2]
    simpa using e2
  · intro c cs allPlans planMark n L M hn hm e' ih m2 hm2 hM
    have hMn : Mf n.id = true :=
      hM _ (markChildren_mono _ _ _ _ _ e' _ (PlanMark.set_self _ _ _))
    have h2 : m2 n.id = true := by rw [hm2, hm, hMn]; rfl
    have hinv : ∀ s, (m2.set n.id false) s = (Mf s && !(planMark.set n.id true) s) := by
      intro s
      by_cases hs : s = n.id
      · subst hs; simp [PlanMark.set_self]
      · rw [PlanMark.set_other _ _ hs, PlanMark.set_other _ _ hs]; exact hm2 s
    obtain ⟨m2', e2, hm2'⟩ := ih (m2.set n.id false) hinv hM
    refine ⟨m2', ?_, hm2'⟩
    simp only [unmarkChildren, hn, Option.some_bind, h2, if_true]
    exact e2

theorem drop_of_getElem? {α : Type} {l : List α} {i : Nat} {a : α} (hi : l[i]? = some a) :
    l.drop i = a :: l.drop (i + 1) := by
  have hlt : i < l.length := (List.getElem?_eq_some_iff.mp hi).1
  have : l[i] = a := by
    have := List.getElem?_eq_getElem hlt
    rw [hi] at this
    exact (Option.some.inj this).symm
  rw [List.drop_eq_getElem_cons hlt, this]

theorem pass2Ops_of_pass1Ops {self : Nat → Option (List Op)} {h : Heap}
    (fuel : Nat) (allPlans : List Nat) (planMark : PlanMark) (pID : Nat) (os : List Op)
    (L : List Nat) (M : PlanMark)
    (e : pass1Ops self h fuel allPlans planMark pID = some (os, L, M)) :
    ∀ m2 : PlanMark, (∀ s, m2 s = (M s && !planMark s)) →
      ∃ m2', pass2Ops h fuel allPlans m2 pID = some (addOps h (L.drop pID), L, m2') := by
  refine pass1Ops_induction
    (fun fuel allPlans planMark pID _ L M =>
      ∀ m2 : PlanMark, (∀ s, m2 s = (M s && !planMark s)) →
        ∃ m2', pass2Ops h fuel allPlans m2 pID = some (addOps h (L.drop pID), L, m2'))
    ?_ ?_ fuel allPlans planMark pID os L M e
  · intro fuel allPlans planMark pID hp m2 _
    have hle : allPlans.length ≤ pID := by simpa using hp
    refine ⟨m2, ?_⟩
    rw [List.drop_eq_nil_of_le hle]
    cases fuel <;> simp [pass2Ops, hp, addOps]
  · intro fuel allPlans planMark pID p n es all1 m1 os' L M hp hn _ hm hr ih m2 hm2
    obtain ⟨new1, h1, _⟩ := markChildren_append _ _ _ _ _ hm
    obtain ⟨new2, h2⟩ := pass1Ops_append _ _ _ _ _ _ _ hr
    have hlt : pID < allPlans.length := (List.getElem?_eq_some_iff.mp hp).1
    have hLp : L[pID]? = some p := by
      rw [h2, h1, List.append_assoc, List.getElem?_append_left hlt]; exact hp
    obtain ⟨m2', e2, hm2'⟩ := unmarkChildren_of_markChildren M _ _ _ _ _ hm m2 hm2
      (pass1Ops_mono _ _ _ _ _ _ _ hr)
    obtain ⟨m2'', e3⟩ := ih m2' hm2'
    refine ⟨m2'', ?_⟩
    simp only [pass2Ops, hp, hn, Option.some_bind, e2, e3, Option.map_some']
    rw [drop_of_getElem? hLp]
    simp [addOps, childrenAt_of_get hn]

/-! ## Termination -/

theorem embeddedOps_succeeds (self : Nat → Option (List Op)) (k : Kind)
    (hk : ∀ e ∈ k.embedded, ∃ os, self e = some os) : ∃ es, embeddedOps self k = some es := by
  cases k with
  | other => exact ⟨[], rfl⟩
  | PhysicalTableReader t => exact hk t (by simp [Kind.embedded])
  | PhysicalIndexReader i => exact hk i (by simp [Kind.embedded])
  | PhysicalIndexLookUpReader i t =>
    obtain ⟨a, ha⟩ := hk i (by simp [Kind.embedded])
    obtain ⟨b, hb⟩ := hk t (by simp [Kind.embedded])
    exact ⟨a ++ b, by simp [embeddedOps, ha, hb]⟩

theorem pass1Ops_succeeds {self : Nat → Option (List Op)} {h : Heap} (hc : Closed h)
    (Q : Nat → Prop) (hQ : ∀ p c, Q p → IsChild h p c → Q c)
    (hself : ∀ p n, Q p → h[p]? = some n → ∃ es, embeddedOps self n.kind = some es) :
    ∀ (fuel : Nat) (allPlans : List Nat) (planMark : PlanMark) (pID : Nat),
      (∀ p ∈ allPlans, p < h.length ∧ Q p) →
      allPlans.length + unmarked h planMark ≤ fuel + pID →
      ∃ r, pass1Ops self h fuel allPlans planMark pID = some r := by
  intro fuel
  induction fuel with
  | zero =>
    intro allPlans planMark pID _ hle
    have : allPlans[pID]? = none := by
      rw [List.getElem?_eq_none_iff]; omega
    simp [pass1Ops, this]
  | succ fuel ih =>
    intro allPlans planMark pID hall hle
    simp only [pass1Ops]
    cases hp : allPlans[pID]? with
    | none => exact ⟨_, rfl⟩
    | some p =>
      have hpin : p ∈ allPlans := List.mem_iff_getElem?.mpr ⟨pID, hp⟩
      obtain ⟨hpv, hpQ⟩ := hall p hpin
      have hn : h[p]? = some h[p] := List.getElem?_eq_getElem hpv
      obtain ⟨es, he⟩ := hself p _ hpQ hn
      have hcv : ∀ c ∈ h[p].children, c < h.length :=
        (hc _ (List.getElem_mem hpv)).1
      obtain ⟨⟨all1, m1⟩, hm⟩ := markChildren_succeeds h[p].children hcv allPlans planMark
      obtain ⟨new1, h1, hsub⟩ := markChildren_append _ _ _ _ _ hm
      have hmeas := markChildren_measure _ _ _ _ _ hm
      have hall1 : ∀ q ∈ all1, q < h.length ∧ Q q := by
        intro q hq
        rw [h1] at hq
        rcases List.mem_append.mp hq with hq | hq
        · exact hall q hq
        · refine ⟨hcv q (hsub q hq), hQ p q hpQ ?_⟩
          unfold IsChild
          rw [childrenAt_of_get hn]
          exact hsub q hq
      obtain ⟨r, hr⟩ := ih all1 m1 (pID + 1) hall1 (by omega)
      simp [hn, he, hm, hr]

theorem unmarked_none (h : Heap) : unmarked h (fun _ => false) = h.length := by
  simp [unmarked]

theorem ranked_child {h : Heap} {rank : Nat → Nat} (hr : Ranked h rank) {p c : Nat}
    (hpc : IsChild h p c) : rank c ≤ rank p := by
  unfold IsChild childrenAt at hpc
  cases hn : h[p]? with
  | none => rw [hn] at hpc; simp at hpc
  | some n =>
    rw [hn] at hpc
    have := hr (p, n) (List.mk_mem_enum_iff_getElem?.mpr hn)
    exact this.1 c (by simpa using hpc)

theorem ranked_embedded {h : Heap} {rank : Nat → Nat} (hr : Ranked h rank) {p e : Nat}
    (hpe : IsEmbedded h p e) : rank e < rank p := by
  unfold IsEmbedded embeddedAt at hpe
  cases hn : h[p]? with
  | none => rw [hn] at hpe; simp at hpe
  | some n =>
    rw [hn] at hpe
    have := hr (p, n) (List.mk_mem_enum_iff_getElem?.mpr hn)
    exact this.2 e (by simpa using hpe)

theorem closed_child {h : Heap} (hc : Closed h) {p c : Nat} (hpc : IsChild h p c) :
    c < h.length := by
  unfold IsChild childrenAt at hpc
  cases hn : h[p]? with
  | none => rw [hn] at hpc; simp at hpc
  | some n =>
    rw [hn] at hpc
    exact (hc n (List.mem_iff_getElem?.mpr ⟨p, hn⟩)).1 c (by simpa using hpc)

theorem closed_embedded {h : Heap} (hc : Closed h) {p e : Nat} (hpe : IsEmbedded h p e) :
    e < h.length := by
  unfold IsEmbedded embeddedAt at hpe
  cases hn : h[p]? with
  | none => rw [hn] at hpe; simp at hpe
  | some n =>
    rw [hn] at hpe
    exact (hc n (List.mem_iff_getElem?.mpr ⟨p, hn⟩)).2 e (by simpa using hpe)

theorem initial_mark_inv (M : PlanMark) (k : String) :
    ∀ s, (M.set k false) s = (M s && !(PlanMark.set (fun _ => false) k true) s) := by
  intro s
  by_cases hs : s = k
  · subst hs; simp [PlanMark.set_self]
  · rw [PlanMark.set_other _ _ hs, PlanMark.set_other _ _ hs]; simp

theorem relinkOps_succeeds {h : Heap} (hc : Closed h) (rank : Nat → Nat)
    (hr : Ranked h rank) :
    ∀ (r fuel root : Nat), rank root ≤ r → root < h.length → r + h.length + 1 ≤ fuel →
      ∃ os, relinkOps fuel h root = some os := by
  intro r
  induction r with
  | zero =>
    intro fuel root hrank hroot hfuel
    obtain ⟨fuel, rfl⟩ : ∃ f, fuel = f + 1 := ⟨fuel - 1, by omega⟩
    have hn : h[root]? = some h[root] := List.getElem?_eq_getElem hroot
    have h1 := @pass1Ops_succeeds (relinkOps fuel h) h hc (fun p => rank p ≤ 0)
      (fun p c hp hpc => Nat.le_trans (ranked_child hr hpc) hp)
      (fun p n hp hpn => embeddedOps_succeeds _ _ (fun e he => by
        have : IsEmbedded h p e := by
          unfold IsEmbedded; rw [embeddedAt_of_get hpn]; exact he
        have := ranked_embedded hr this
        omega))
      fuel [root] (PlanMark.set (fun _ => false) h[root].id true) 0
      (by intro p hp; simp at hp; subst hp; exact ⟨hroot, hrank⟩)
      (by
        have := unmarked_set_lt (fun _ => false) hn rfl
        rw [unmarked_none] at this
        simp; omega)
    obtain ⟨⟨os1, L, M⟩, h1⟩ := h1
    obtain ⟨m2', h2⟩ := pass2Ops_of_pass1Ops _ _ _ _ _ _ _ h1
      (M.set h[root].id false) (initial_mark_inv M _)
    simp [relinkOps, hn, h1, h2]
  | succ r ih =>
    intro fuel root hrank hroot hfuel
    obtain ⟨fuel, rfl⟩ : ∃ f, fuel = f + 1 := ⟨fuel - 1, by omega⟩
    have hn : h[root]? = some h[root] := List.getElem?_eq_getElem hroot
    have h1 := @pass1Ops_succeeds (relinkOps fuel h) h hc (fun p => rank p ≤ r + 1)
      (fun p c hp hpc => Nat.le_trans (ranked_child hr hpc) hp)
      (fun p n hp hpn => embeddedOps_succeeds _ _ (fun e he => by
        have hpe : IsEmbedded h p e := by
          unfold IsEmbedded; rw [embeddedAt_of_get hpn]; exact he
        have := ranked_embedded hr hpe
        exact ih fuel e (by omega) (closed_embedded hc hpe) (by omega)))
      fuel [root] (PlanMark.set (fun _ => false) h[root].id true) 0
      (by intro p hp; simp at hp; subst hp; exact ⟨hroot, hrank⟩)
      (by
        have := unmarked_set_lt (fun _ => false) hn rfl
        rw [unmarked_none] at this
        simp; omega)
    obtain ⟨⟨os1, L, M⟩, h1⟩ := h1
    obtain ⟨m2', h2⟩ := pass2Ops_of_pass1Ops _ _ _ _ _ _ _ h1
      (M.set h[root].id false) (initial_mark_inv M _)
    simp [relinkOps, hn, h1, h2]

/-! ## The parents lists after a sequence of calls -/

theorem parentsAt_set {h : Heap} {p : Nat} {n : Node} (hp : h[p]? = some n) (pars : List Nat)
    (x : Nat) :
    parentsAt (h.set p { n with parents := pars }) x = if p = x then pars else parentsAt h x := by
  have hlt : p < h.length := (List.getElem?_eq_some_iff.mp hp).1
  unfold parentsAt
  by_cases hx : p = x
  · subst hx; simp [hlt]
  · simp [hx, List.getElem?_set]

theorem SetParents_parentsAt {h h' : Heap} {p : Nat} {pars : List Nat}
    (e : SetParents h p pars = some h') (x : Nat) :
    parentsAt h' x = if p = x then pars else parentsAt h x := by
  unfold SetParents at e
  cases hp : h[p]? with
  | none => rw [hp] at e; simp at e
  | some n =>
    rw [hp] at e
    simp at e
    subst e
    exact parentsAt_set hp pars x

theorem AddParent_parentsAt {h h' : Heap} {p parent : Nat}
    (e : AddParent h p parent = some h') (x : Nat) :
    parentsAt h' x = if p = x then parentsAt h x ++ [parent] else parentsAt h x := by
  unfold AddParent at e
  cases hp : h[p]? with
  | none => rw [hp] at e; simp at e
  | some n =>
    rw [hp] at e
    simp at e
    subst e
    rw [parentsAt_set hp _ x]
    by_cases hx : p = x
    · subst hx; simp [parentsAt, hp]
    · simp [hx]

theorem runOps_parentsAt {os : List Op} :
    ∀ {h h' : Heap}, runOps os h = some h' →
      ∀ x, parentsAt h' x = parentsAfter x os (parentsAt h x) := by
  induction os with
  | nil => intro h h' e x; simp [runOps] at e; subst e; rfl
  | cons o os ih =>
    intro h h' e x
    simp only [runOps] at e
    cases ho : o.run h with
    | none => rw [ho] at e; simp at e
    | some h1 =>
      rw [ho] at e
      simp at e
      rw [ih e x]
      cases o with
      | clear p => simp only [parentsAfter]; rw [SetParents_parentsAt ho x]
      | add p parent => simp only [parentsAfter]; rw [AddParent_parentsAt ho x]

theorem runOps_succeeds {os : List Op} :
    ∀ {h : Heap}, (∀ o ∈ os, o.target < h.length) → ∃ h', runOps os h = some h' := by
  induction os with
  | nil => intro h _; exact ⟨h, rfl⟩
  | cons o os ih =>
    intro h ht
    have hlt : o.target < h.length := ht o (List.mem_cons_self _ _)
    have hn : h[o.target]? = some h[o.target] := List.getElem?_eq_getElem hlt
    have ho : ∃ h1, o.run h = some h1 := by
      cases o with
      | clear p =>
        obtain ⟨h1, e1, _⟩ := SetParents_some hn []
        exact ⟨h1, e1⟩
      | add p parent =>
        obtain ⟨h1, e1, _⟩ := AddParent_some hn parent
        exact ⟨h1, e1⟩
    obtain ⟨h1, e1⟩ := ho
    have hlen : h1.length = h.length := (Op.run_keeps_shape e1).length
    obtain ⟨h', e'⟩ := @ih h1 (by
      intro o' ho'
      rw [hlen]
      exact ht o' (List.mem_cons_of_mem _ ho'))
    exact ⟨h', by simp [runOps, e1, e']⟩

theorem parentsAfter_append (x : Nat) (a b : List Op) (init : List Nat) :
    parentsAfter x (a ++ b) init = parentsAfter x b (parentsAfter x a init) := by
  induction a generalizing init with
  | nil => rfl
  | cons o os ih =>
    cases o with
    | clear p => rw [List.cons_append]; simp only [parentsAfter]; exact ih _
    | add p parent => rw [List.cons_append]; simp only [parentsAfter]; exact ih _

theorem parentsAfter_untouched (x : Nat) (os : List Op) (init : List Nat)
    (hos : ∀ o ∈ os, o.target ≠ x) : parentsAfter x os init = init := by
  induction os generalizing init with
  | nil => rfl
  | cons o os ih =>
    have h1 := hos o (List.mem_cons_self _ _)
    have h2 := fun o' ho' => hos o' (List.mem_cons_of_mem _ ho')
    cases o with
    | clear p =>
      simp only [Op.target] at h1
      simp only [parentsAfter, h1, if_false]
      exact ih _ h2
    | add p parent =>
      simp only [Op.target] at h1
      simp only [parentsAfter, h1, if_false]
      exact ih _ h2

/-- A node that is cleared ends with a parents list that does not depend on
the list it had before. -/
theorem parentsAfter_of_clear (x : Nat) (os : List Op) (init init' : List Nat)
    (hx : Op.clear x ∈ os) : parentsAfter x os init = parentsAfter x os init' := by
  induction os generalizing init init' with
  | nil => simp at hx
  | cons o os ih =>
    cases o with
    | clear p =>
      simp only [parentsAfter]
      by_cases hp : p = x
      · simp [hp]
      · simp only [hp, if_false]
        apply ih
        rcases List.mem_cons.mp hx with hx | hx
        · injection hx with hx; exact absurd hx.symm hp
        · exact hx
    | add p parent =>
      simp only [parentsAfter]
      have hx' : Op.clear x ∈ os := by
        rcases List.mem_cons.mp hx with hx | hx
        · injection hx
        · exact hx
      exact ih _ _ hx'

/-- Every entry of the final parents list comes from the initial list or from
a call of `AddParent`. -/
theorem mem_parentsAfter (x q : Nat) (os : List Op) (init : List Nat)
    (hq : q ∈ parentsAfter x os init) : q ∈ init ∨ Op.add x q ∈ os := by
  induction os generalizing init with
  | nil => exact Or.inl hq
  | cons o os ih =>
    cases o with
    | clear p =>
      simp only [parentsAfter] at hq
      rcases ih _ hq with h1 | h1
      · by_cases hp : p = x
        · simp [hp] at h1
        · simp only [hp, if_false] at h1; exact Or.inl h1
      · exact Or.inr (List.mem_cons_of_mem _ h1)
    | add p parent =>
      simp only [parentsAfter] at hq
      rcases ih _ hq with h1 | h1
      · by_cases hp : p = x
        · simp only [hp, if_true, List.mem_append, List.mem_singleton] at h1
          rcases h1 with h1 | h1
          · exact Or.inl h1
          · subst h1; subst hp; exact Or.inr (List.mem_cons_self _ _)
        · simp only [hp, if_false] at h1; exact Or.inl h1
      · exact Or.inr (List.mem_cons_of_mem _ h1)

/-- Every entry of the final parents list of a cleared node comes from a call
of `AddParent`. -/
theorem mem_parentsAfter_of_clear (x q : Nat) (os : List Op) (init : List Nat)
    (hx : Op.clear x ∈ os) (hq : q ∈ parentsAfter x os init) : Op.add x q ∈ os := by
  rw [parentsAfter_of_clear x os init [] hx] at hq
  rcases mem_parentsAfter x q os [] hq with h1 | h1
  · simp at h1
  · exact h1

/-- The parents added by calls of `AddParent` to the node `x`. -/
theorem parentsAfter_adds (x : Nat) (os : List Op) (init : List Nat)
    (hos : ∀ p, Op.clear p ∉ os) :
    parentsAfter x os init = init ++ os.filterMap (addedTo x) := by
  induction os generalizing init with
  | nil => simp [parentsAfter]
  | cons o os ih =>
    have h2 : ∀ p, Op.clear p ∉ os := fun p hp => hos p (List.mem_cons_of_mem _ hp)
    cases o with
    | clear p => exact absurd (List.mem_cons_self _ _) (hos p)
    | add c p =>
      simp only [parentsAfter]
      rw [ih _ h2]
      by_cases hc : c = x
      · simp [hc, List.filterMap_cons, addedTo]
      · simp [hc, List.filterMap_cons, addedTo]

theorem mem_parentsAfter_of_add (x q : Nat) (os : List Op) (init : List Nat)
    (hos : ∀ p, Op.clear p ∉ os) (hq : Op.add x q ∈ os) : q ∈ parentsAfter x os init := by
  rw [parentsAfter_adds x os init hos]
  apply List.mem_append_right
  rw [List.mem_filterMap]
  exact ⟨Op.add x q, hq, by simp [addedTo]⟩

/-! ## The list of discovered plans -/

theorem idOf_inj {h : Heap} (hu : UniqueIds h) {a b : Nat} (hb : b < h.length)
    (hab : idOf h a = idOf h b) : a = b := by
  unfold idOf at hab
  rw [List.getElem?_eq_getElem hb] at hab
  cases ha : h[a]? with
  | none => rw [ha] at hab; simp at hab
  | some n =>
    have hlt : a < h.length := (List.getElem?_eq_some_iff.mp ha).1
    rw [List.getElem?_eq_getElem hlt] at hab
    simp at hab
    unfold UniqueIds at hu
    have ha' : a < (h.map Node.id).length := by simpa using hlt
    have hb' : b < (h.map Node.id).length := by simpa using hb
    have : (h.map Node.id)[a] = (h.map Node.id)[b] := by simpa using hab
    exact (List.Nodup.getElem_inj_iff hu).mp this

theorem pass1Ops_discovered {self : Nat → Option (List Op)} {h : Heap} {fuel root : Nat}
    {n : Node} {os : List Op} {L : List Nat} {M : PlanMark} (hn : h[root]? = some n)
    (e : pass1Ops self h fuel [root] (PlanMark.set (fun _ => false) n.id true) 0
      = some (os, L, M)) :
    Discovered h root L ∧ Listed h L M := by
  have hid : idOf h root = some n.id := idOf_of_get hn
  have hl0 : Listed h [root] (PlanMark.set (fun _ => false) n.id true) := by
    constructor
    · intro p hp; simp at hp; subst hp
      exact (List.getElem?_eq_some_iff.mp hn).1
    · simp
    · intro s
      by_cases hs : s = n.id
      · subst hs; simp [PlanMark.set_self, hid]
      · rw [PlanMark.set_other _ _ hs]
        simp [hid]
        intro hh; exact absurd hh hs
  have hl := pass1Ops_listed _ _ _ _ _ _ _ e hl0
  obtain ⟨new, hnew⟩ := pass1Ops_append _ _ _ _ _ _ _ e
  refine ⟨⟨?_, hl.valid, hl.nodup, ?_, ?_⟩, hl⟩
  · rw [hnew]; rfl
  · refine pass1Ops_closed_under (Reach h root) ?_ _ _ _ _ _ _ _ e ?_
    · intro p c hp hpc
      exact Relation.ReflTransGen.tail hp hpc
    · intro p hp; simp at hp; subst hp
      exact Relation.ReflTransGen.refl
  · intro p hp c hc
    obtain ⟨nc, hnc, hmc⟩ := pass1Ops_children_marked _ _ _ _ _ _ _ e p (by simpa using hp) c hc
    refine ⟨(List.getElem?_eq_some_iff.mp hnc).1, ?_⟩
    rw [idOf_of_get hnc]
    exact (hl.marks _).mp hmc

theorem Discovered.root_mem {h : Heap} {root : Nat} {L : List Nat} (d : Discovered h root L) :
    root ∈ L := by
  have := d.head
  cases L with
  | nil => simp at this
  | cons a l => simp at this; subst this; exact List.mem_cons_self _ _

/-- With unique ids the first loop lists every plan reachable from the root. -/
theorem Discovered.complete {h : Heap} {root : Nat} {L : List Nat} (d : Discovered h root L)
    (hu : UniqueIds h) {x : Nat} (hx : Reach h root x) : x ∈ L := by
  induction hx with
  | refl => exact d.root_mem
  | tail _ hbc ih =>
    obtain ⟨hv, hmem⟩ := d.closed _ ih _ hbc
    obtain ⟨q, hq, hqc⟩ := List.mem_map.mp hmem
    have := idOf_inj hu hv hqc
    subst this
    exact hq

theorem Discovered.nodup_list {h : Heap} {root : Nat} {L : List Nat}
    (d : Discovered h root L) : L.Nodup :=
  List.Nodup.of_map _ d.nodup

/-! ## The calls of a run -/

theorem relinkOps_structure {h : Heap} {fuel root : Nat} {os : List Op}
    (e : relinkOps (fuel + 1) h root = some os) :
    ∃ L, Discovered h root L ∧
      os = clearOps (relinkOps fuel h) h L ++ addOps h L ∧
      ∀ p ∈ L, ∃ n es, h[p]? = some n ∧ embeddedOps (relinkOps fuel h) n.kind = some es := by
  simp only [relinkOps] at e
  cases hn : h[root]? with
  | none => rw [hn] at e; simp at e
  | some n =>
    rw [hn] at e
    simp only [Option.some_bind] at e
    cases h1 : pass1Ops (relinkOps fuel h) h fuel [root]
        (PlanMark.set (fun _ => false) n.id true) 0 with
    | none => rw [h1] at e; simp at e
    | some r1 =>
      obtain ⟨os1, L, M⟩ := r1
      rw [h1] at e
      simp only [Option.some_bind] at e
      obtain ⟨m2', h2⟩ := pass2Ops_of_pass1Ops _ _ _ _ _ _ _ h1
        (M.set n.id false) (initial_mark_inv M _)
      rw [h2] at e
      simp at e
      obtain ⟨hops, hemb⟩ := pass1Ops_ops _ _ _ _ _ _ _ h1
      simp only [List.drop_zero] at hops hemb
      refine ⟨L, (pass1Ops_discovered hn h1).1, ?_, hemb⟩
      rw [← e, hops]

theorem embeddedOps_mem {self : Nat → Option (List Op)} {k : Kind} {es : List Op}
    (e : embeddedOps self k = some es) {o : Op} (ho : o ∈ es) :
    ∃ r ∈ k.embedded, ∃ os, self r = some os ∧ o ∈ os := by
  cases k with
  | other => simp [embeddedOps] at e; subst e; simp at ho
  | PhysicalTableReader t => exact ⟨t, by simp [Kind.embedded], es, e, ho⟩
  | PhysicalIndexReader i => exact ⟨i, by simp [Kind.embedded], es, e, ho⟩
  | PhysicalIndexLookUpReader i t =>
    simp only [embeddedOps] at e
    cases hi : self i with
    | none => rw [hi] at e; simp at e
    | some a =>
      rw [hi] at e
      cases ht : self t with
      | none => rw [ht] at e; simp at e
      | some b =>
        rw [ht] at e
        simp at e
        subst e
        rcases List.mem_append.mp ho with ho | ho
        · exact ⟨i, by simp [Kind.embedded], a, hi, ho⟩
        · exact ⟨t, by simp [Kind.embedded], b, ht, ho⟩

theorem embeddedOps_sub {self : Nat → Option (List Op)} {k : Kind} {es : List Op}
    (e : embeddedOps self k = some es) {r : Nat} (hr : r ∈ k.embedded) :
    ∃ os, self r = some os ∧ ∀ o ∈ os, o ∈ es := by
  cases k with
  | other => simp [Kind.embedded] at hr
  | PhysicalTableReader t =>
    simp [Kind.embedded] at hr; subst hr; exact ⟨es, e, fun _ ho => ho⟩
  | PhysicalIndexReader i =>
    simp [Kind.embedded] at hr; subst hr; exact ⟨es, e, fun _ ho => ho⟩
  | PhysicalIndexLookUpReader i t =>
    simp only [embeddedOps] at e
    cases hi : self i with
    | none => rw [hi] at e; simp at e
    | some a =>
      rw [hi] at e
      cases ht : self t with
      | none => rw [ht] at e; simp at e
      | some b =>
        rw [ht] at e
        simp at e
        subst e
        simp [Kind.embedded] at hr
        rcases hr with rfl | rfl
        · exact ⟨a, hi, fun _ ho => List.mem_append_left _ ho⟩
        · exact ⟨b, ht, fun _ ho => List.mem_append_right _ ho⟩

theorem mem_clearOps {self : Nat → Option (List Op)} {h : Heap} {L : List Nat} {o : Op} :
    o ∈ clearOps self h L ↔ ∃ p ∈ L, o = Op.clear p ∨ o ∈ embeddedOpsAt self h p := by
  simp [clearOps, List.mem_flatMap]

theorem mem_addOps {h : Heap} {L : List Nat} {o : Op} :
    o ∈ addOps h L ↔ ∃ p ∈ L, ∃ c ∈ childrenAt h p, o = Op.add c p := by
  simp only [addOps, List.mem_flatMap, List.mem_map]
  constructor
  · rintro ⟨p, hp, c, hc, rfl⟩; exact ⟨p, hp, c, hc, rfl⟩
  · rintro ⟨p, hp, c, hc, rfl⟩; exact ⟨p, hp, c, hc, rfl⟩

theorem Reach.toAll {h : Heap} {a b : Nat} (hab : Reach h a b) : ReachAll h a b :=
  Relation.ReflTransGen.mono (fun _ _ hc => Or.inl hc) hab

theorem mem_embeddedOpsAt {self : Nat → Option (List Op)} {h : Heap} {p : Nat} {o : Op}
    (ho : o ∈ embeddedOpsAt self h p) :
    ∃ r, IsEmbedded h p r ∧ ∃ os, self r = some os ∧ o ∈ os := by
  unfold embeddedOpsAt at ho
  cases hn : h[p]? with
  | none => rw [hn] at ho; simp at ho
  | some n =>
    rw [hn] at ho
    simp only [Option.some_bind] at ho
    cases he : embeddedOps self n.kind with
    | none => rw [he] at ho; simp at ho
    | some es =>
      rw [he] at ho
      simp at ho
      obtain ⟨r, hr, os, hos, hmem⟩ := embeddedOps_mem he ho
      refine ⟨r, ?_, os, hos, hmem⟩
      unfold IsEmbedded
      rw [embeddedAt_of_get hn]
      exact hr

/-- Every call of a run writes a node reachable from the root, and every call
of `AddParent` is for a `Children()` edge. -/
theorem relinkOps_sound {h : Heap} :
    ∀ (fuel root : Nat) (os : List Op), relinkOps fuel h root = some os →
      ∀ o ∈ os, ReachAll h root o.target ∧
        ∀ c p, o = Op.add c p → IsChild h p c ∧ ReachAll h root p := by
  intro fuel
  induction fuel with
  | zero => intro root os e; simp [relinkOps] at e
  | succ fuel ih =>
    intro root os e o ho
    obtain ⟨L, d, rfl, _⟩ := relinkOps_structure e
    rcases List.mem_append.mp ho with ho | ho
    · obtain ⟨p, hp, ho⟩ := mem_clearOps.mp ho
      rcases ho with rfl | ho
      · exact ⟨(d.reach p hp).toAll, fun c q hcq => by injection hcq⟩
      · obtain ⟨r, hr, os', hos', hmem⟩ := mem_embeddedOpsAt ho
        have hpr : ReachAll h root r :=
          Relation.ReflTransGen.tail (d.reach p hp).toAll (Or.inr hr)
        obtain ⟨h1, h2⟩ := ih r os' hos' o hmem
        exact ⟨hpr.trans h1, fun c q hcq => ⟨(h2 c q hcq).1, hpr.trans (h2 c q hcq).2⟩⟩
    · obtain ⟨p, hp, c, hc, rfl⟩ := mem_addOps.mp ho
      refine ⟨Relation.ReflTransGen.tail (d.reach p hp).toAll (Or.inl hc), ?_⟩
      intro c' p' hcp
      injection hcp with h1 h2
      subst h1; subst h2
      exact ⟨hc, (d.reach p hp).toAll⟩

theorem reachAll_cases {h : Heap} {r x : Nat} (hx : ReachAll h r x) :
    Reach h r x ∨ ∃ p e, Reach h r p ∧ IsEmbedded h p e ∧ ReachAll h e x := by
  induction hx using Relation.ReflTransGen.head_induction_on with
  | refl => exact Or.inl Relation.ReflTransGen.refl
  | head hac _ ih =>
    rcases hac with hac | hac
    · rcases ih with ih | ⟨p, e, h1, h2, h3⟩
      · exact Or.inl (Relation.ReflTransGen.head hac ih)
      · exact Or.inr ⟨p, e, Relation.ReflTransGen.head hac h1, h2, h3⟩
    · exact Or.inr ⟨_, _, Relation.ReflTransGen.refl, hac, by assumption⟩

theorem embeddedOpsAt_sub {self : Nat → Option (List Op)} {h : Heap} {p r : Nat} {n : Node}
    {es : List Op} (hn : h[p]? = some n) (he : embeddedOps self n.kind = some es)
    (hr : IsEmbedded h p r) :
    ∃ os, self r = some os ∧ ∀ o ∈ os, o ∈ embeddedOpsAt self h p := by
  unfold IsEmbedded at hr
  rw [embeddedAt_of_get hn] at hr
  obtain ⟨os, hos, hsub⟩ := embeddedOps_sub he hr
  refine ⟨os, hos, ?_⟩
  intro o ho
  simp only [embeddedOpsAt, hn, Option.some_bind, he, Option.getD_some]
  exact hsub o ho

/-- With unique ids a run clears every node reachable from the root through
children and embedded sub-plans. -/
theorem relinkOps_clears {h : Heap} (hu : UniqueIds h) :
    ∀ (fuel root : Nat) (os : List Op), relinkOps fuel h root = some os →
      ∀ x, ReachAll h root x → Op.clear x ∈ os := by
  intro fuel
  induction fuel with
  | zero => intro root os e; simp [relinkOps] at e
  | succ fuel ih =>
    intro root os e x hx
    obtain ⟨L, d, rfl, hemb⟩ := relinkOps_structure e
    apply List.mem_append_left
    rcases reachAll_cases hx with hx | ⟨p, r, hp, hr, hx⟩
    · exact mem_clearOps.mpr ⟨x, d.complete hu hx, Or.inl rfl⟩
    · have hpL : p ∈ L := d.complete hu hp
      obtain ⟨n, es, hn, he⟩ := hemb p hpL
      obtain ⟨os', hos', hsub⟩ := embeddedOpsAt_sub hn he hr
      exact mem_clearOps.mpr ⟨p, hpL, Or.inr (hsub _ (ih r os' hos' x hx))⟩

theorem reachAll_valid {h : Heap} (hc : Closed h) {root x : Nat} (hroot : root < h.length)
    (hx : ReachAll h root x) : x < h.length := by
  induction hx with
  | refl => exact hroot
  | tail _ hbc _ =>
    rcases hbc with hbc | hbc
    · exact closed_child hc hbc
    · exact closed_embedded hc hbc

/-! ## Runs of `setParents4FinalPlan` -/

/-- A run that returns is the sequence of its calls. -/
theorem run_calls {h h' : Heap} {fuel root : Nat}
    (e : setParents4FinalPlan fuel h root = some h') :
    ∃ os, relinkOps fuel h root = some os ∧ runOps os h = some h' := by
  rw [setParents4FinalPlan_eq fuel h root (SameShape.refl h)] at e
  cases hos : relinkOps fuel h root with
  | none => rw [hos] at e; simp at e
  | some os => rw [hos] at e; exact ⟨os, rfl, by simpa using e⟩

/-- On a closed heap whose embedded sub-plans are well-founded the function
returns, given enough fuel. -/
theorem run_returns {h : Heap} {rank : Nat → Nat} {root : Nat} (hc : Closed h)
    (hr : Ranked h rank) (hroot : root < h.length) :
    ∃ h', setParents4FinalPlan (rank root + h.length + 1) h root = some h' := by
  obtain ⟨os, hos⟩ := relinkOps_succeeds hc rank hr (rank root) _ root (Nat.le_refl _) hroot
    (Nat.le_refl _)
  have hsound := relinkOps_sound _ _ _ hos
  obtain ⟨h', hrun⟩ := @runOps_succeeds os h
    (fun o ho => reachAll_valid hc hroot (hsound o ho).1)
  refine ⟨h', ?_⟩
  rw [setParents4FinalPlan_eq _ h root (SameShape.refl h), hos]
  simpa using hrun

/-! ## The result does not depend on the fuel -/

theorem embeddedOps_mono_self {self self' : Nat → Option (List Op)}
    (hs : ∀ e os, self e = some os → self' e = some os) {k : Kind} {es : List Op}
    (e : embeddedOps self k = some es) : embeddedOps self' k = some es := by
  cases k with
  | other => exact e
  | PhysicalTableReader t => exact hs _ _ e
  | PhysicalIndexReader i => exact hs _ _ e
  | PhysicalIndexLookUpReader i t =>
    simp only [embeddedOps] at e ⊢
    cases hi : self i with
    | none => rw [hi] at e; simp at e
    | some a =>
      rw [hi] at e
      cases ht : self t with
      | none => rw [ht] at e; simp at e
      | some b =>
        rw [ht] at e
        rw [hs _ _ hi, hs _ _ ht]
        exact e

theorem pass1Ops_mono_fuel {self self' : Nat → Option (List Op)} {h : Heap}
    (hs : ∀ e os, self e = some os → self' e = some os)
    (fuel : Nat) (allPlans : List Nat) (planMark : PlanMark) (pID : Nat) (os : List Op)
    (L : List Nat) (M : PlanMark)
    (e : pass1Ops self h fuel allPlans planMark pID = some (os, L, M)) :
    ∀ fuel', fuel ≤ fuel' → pass1Ops self' h fuel' allPlans planMark pID = some (os, L, M) := by
  refine pass1Ops_induction
    (fun fuel allPlans planMark pID os L M =>
      ∀ fuel', fuel ≤ fuel' →
        pass1Ops self' h fuel' allPlans planMark pID = some (os, L, M))
    ?_ ?_ fuel allPlans planMark pID os L M e
  · intro fuel allPlans planMark pID hp fuel' _
    cases fuel' <;> simp [pass1Ops, hp]
  · intro fuel allPlans planMark pID p n es all1 m1 os' L M hp hn he hm _ ih fuel' hle
    obtain ⟨f, rfl⟩ : ∃ f, fuel' = f + 1 := ⟨fuel' - 1, by omega⟩
    simp [pass1Ops, hp, hn, embeddedOps_mono_self hs he, hm, ih f (by omega)]

theorem relinkOps_mono_fuel {h : Heap} :
    ∀ (fuel root : Nat) (os : List Op), relinkOps fuel h root = some os →
      ∀ fuel', fuel ≤ fuel' → relinkOps fuel' h root = some os := by
  intro fuel
  induction fuel with
  | zero => intro root os e; simp [relinkOps] at e
  | succ fuel ih =>
    intro root os e fuel' hle
    obtain ⟨f, rfl⟩ : ∃ f, fuel' = f + 1 := ⟨fuel' - 1, by omega⟩
    simp only [relinkOps] at e ⊢
    cases hn : h[root]? with
    | none => rw [hn] at e; simp at e
    | some n =>
      rw [hn] at e
      simp only [Option.some_bind] at e ⊢
      cases h1 : pass1Ops (relinkOps fuel h) h fuel [root]
          (PlanMark.set (fun _ => false) n.id true) 0 with
      | none => rw [h1] at e; simp at e
      | some r1 =>
        obtain ⟨os1, L, M⟩ := r1
        rw [h1] at e
        simp only [Option.some_bind] at e
        obtain ⟨m2, h2⟩ := pass2Ops_of_pass1Ops _ _ _ _ _ _ _ h1
          (M.set n.id false) (initial_mark_inv M _)
        rw [h2] at e
        have h1' := @pass1Ops_mono_fuel (relinkOps fuel h) (relinkOps f h) h
          (fun e os he => ih e os he f (by omega)) _ _ _ _ _ _ _ h1 f (by omega)
        obtain ⟨m2', h2'⟩ := pass2Ops_of_pass1Ops _ _ _ _ _ _ _ h1'
          (M.set n.id false) (initial_mark_inv M _)
        rw [h1']
        simp only [Option.some_bind]
        rw [h2']
        exact e

/-- Two runs that return make the same calls, whatever fuel they were given. -/
theorem relinkOps_fuel_irrelevant {h : Heap} {f1 f2 root : Nat} {os1 os2 : List Op}
    (e1 : relinkOps f1 h root = some os1) (e2 : relinkOps f2 h root = some os2) :
    os1 = os2 := by
  have a := relinkOps_mono_fuel f1 root os1 e1 (max f1 f2) (Nat.le_max_left _ _)
  have b := relinkOps_mono_fuel f2 root os2 e2 (max f1 f2) (Nat.le_max_right _ _)
  rw [a] at b
  exact Option.some.inj b

/-- A run on a heap of the same shape makes the same calls. -/
theorem run_calls_of_sameShape {h0 h h' : Heap} {fuel root : Nat} (a : SameShape h0 h)
    (e : setParents4FinalPlan fuel h root = some h') :
    ∃ os, relinkOps fuel h0 root = some os ∧ runOps os h = some h' := by
  rw [setParents4FinalPlan_eq fuel h root a] at e
  cases hos : relinkOps fuel h0 root with
  | none => rw [hos] at e; simp at e
  | some os => rw [hos] at e; exact ⟨os, rfl, by simpa using e⟩

theorem run_sameShape {h h' : Heap} {fuel root : Nat}
    (e : setParents4FinalPlan fuel h root = some h') : SameShape h h' := by
  obtain ⟨os, _, hrun⟩ := run_calls e
  exact runOps_sameShape hrun

theorem SameShape.idOf_eq {h0 h : Heap} (a : SameShape h0 h) (p : Nat) :
    idOf h p = idOf h0 p := by
  have := a.get p
  unfold idOf
  cases h1 : h[p]? <;> cases h2 : h0[p]? <;> simp [h1, h2, Node.shape] at this ⊢
  exact this.1

theorem SameShape.childrenAt_eq {h0 h : Heap} (a : SameShape h0 h) (p : Nat) :
    childrenAt h p = childrenAt h0 p := by
  have := a.get p
  unfold childrenAt
  cases h1 : h[p]? <;> cases h2 : h0[p]? <;> simp [h1, h2, Node.shape] at this ⊢
  exact this.2.2

theorem SameShape.embeddedAt_eq {h0 h : Heap} (a : SameShape h0 h) (p : Nat) :
    embeddedAt h p = embeddedAt h0 p := by
  have := a.get p
  unfold embeddedAt
  cases h1 : h[p]? <;> cases h2 : h0[p]? <;> simp [h1, h2, Node.shape] at this ⊢
  rw [this.2.1]

/-- A run on a heap of the same shape returns as well. -/
theorem run_returns_of_sameShape {h0 h : Heap} {rank : Nat → Nat} {root : Nat} (hc : Closed h0)
    (hr : Ranked h0 rank) (hroot : root < h0.length) (a : SameShape h0 h) :
    ∃ h', setParents4FinalPlan (rank root + h0.length + 1) h root = some h' := by
  obtain ⟨os, hos⟩ := relinkOps_succeeds hc rank hr (rank root) _ root (Nat.le_refl _) hroot
    (Nat.le_refl _)
  have hsound := relinkOps_sound _ _ _ hos
  obtain ⟨h', hrun⟩ := @runOps_succeeds os h
    (fun o ho => by
      rw [a.length]
      exact reachAll_valid hc hroot (hsound o ho).1)
  refine ⟨h', ?_⟩
  rw [setParents4FinalPlan_eq _ h root a, hos]
  simpa using hrun

/-! ## Properties of `setParents4FinalPlan` -/

theorem run_parentsAt {h h' : Heap} {fuel root : Nat}
    (e : setParents4FinalPlan fuel h root = some h') :
    ∃ os, relinkOps fuel h root = some os ∧
      ∀ x, parentsAt h' x = parentsAfter x os (parentsAt h x) := by
  obtain ⟨os, hos, hrun⟩ := run_calls e
  exact ⟨os, hos, runOps_parentsAt hrun⟩

theorem relinkOps_fuel_pos {h : Heap} {fuel root : Nat} {os : List Op}
    (e : relinkOps fuel h root = some os) : ∃ f, fuel = f + 1 := by
  cases fuel with
  | zero => simp [relinkOps] at e
  | succ f => exact ⟨f, rfl⟩

theorem addOps_no_clear (h : Heap) (L : List Nat) (p : Nat) : Op.clear p ∉ addOps h L := by
  intro hp
  obtain ⟨_, _, _, _, hq⟩ := mem_addOps.mp hp
  injection hq

/-- After a run every `Children()` edge from a node reachable from the root
is recorded in the parents of the child. -/
theorem run_links {h h' : Heap} {fuel root : Nat} (hu : UniqueIds h)
    (e : setParents4FinalPlan fuel h root = some h') {P C : Nat} (hP : Reach h root P)
    (hC : IsChild h P C) : P ∈ parentsAt h' C := by
  obtain ⟨os, hos, hpar⟩ := run_parentsAt e
  obtain ⟨f, rfl⟩ := relinkOps_fuel_pos hos
  obtain ⟨L, d, rfl, _⟩ := relinkOps_structure hos
  rw [hpar C, parentsAfter_append]
  apply mem_parentsAfter_of_add _ _ _ _ (addOps_no_clear h L)
  exact mem_addOps.mpr ⟨P, d.complete hu hP, C, hC, rfl⟩

theorem isChild_valid {h : Heap} {p c : Nat} (hpc : IsChild h p c) : p < h.length := by
  unfold IsChild childrenAt at hpc
  cases hn : h[p]? with
  | none => rw [hn] at hpc; simp at hpc
  | some n => exact (List.getElem?_eq_some_iff.mp hn).1

theorem idOf_some {h : Heap} {p : Nat} (hp : p < h.length) : idOf h p = some h[p].id := by
  simp [idOf, List.getElem?_eq_getElem hp]

/-- C1 (edge completeness).  On a plan graph with unique node ids (no nil
plan, embedded sub-plans nested to depth `rank`) `setParents4FinalPlan(root)`
returns, and after it, for every node `P` reachable from `root` through
`Children()` (root included) and every `C` listed in `P.Children()`, the
parents list of `C` has an entry whose id is the id of `P`. -/
theorem edge_completeness (h : Heap) (rank : Nat → Nat) (root : Nat)
    (hclosed : Closed h) (hids : UniqueIds h) (hrank : Ranked h rank)
    (hroot : root < h.length) :
    (∃ fuel h', setParents4FinalPlan fuel h root = some h') ∧
    ∀ fuel h', setParents4FinalPlan fuel h root = some h' →
      ∀ P C, Reach h root P → IsChild h P C →
        ∃ q ∈ parentsAt h' C, ∃ s, idOf h' q = some s ∧ idOf h P = some s := by
  refine ⟨⟨_, run_returns hclosed hrank hroot⟩, ?_⟩
  intro fuel h' e P C hP hC
  have hPv := isChild_valid hC
  refine ⟨P, run_links hids e hP hC, h[P].id, ?_, idOf_some hPv⟩
  rw [(run_sameShape e).idOf_eq]
  exact idOf_some hPv

/-- Witness of C1 on the shared-node plan: after the run on `A` the parents of
`B` hold an entry with the id of its parent `C`. -/
theorem edge_completeness_witness :
    (Closed sharedPlan ∧ UniqueIds sharedPlan ∧ Ranked sharedPlan (fun _ => 0)) ∧
    setParents4FinalPlan 4 sharedPlan 0 = some sharedPlanLinked ∧
    ∃ q ∈ parentsAt sharedPlanLinked 1, ∃ s,
      idOf sharedPlanLinked q = some s ∧ idOf sharedPlan 2 = some s :=
  ⟨by decide, by decide,
    (edge_completeness sharedPlan (fun _ => 0) 0 (by decide) (by decide) (by decide)
      (by decide)).2 4 sharedPlanLinked (by decide) 2 1
      (Relation.ReflTransGen.single (by decide)) (by decide)⟩

/-- C8 (frame of relinking).  A call of `setParents4FinalPlan(root)` that
returns leaves the id, the dynamic type with its embedded sub-plan roots and
the children list of every node as they were, and leaves the parents list of
every node that is reachable from `root` neither through children nor through
embedded sub-plans unchanged; and the call returns on a heap without nil plans
whose embedded sub-plans are well-founded. -/
theorem relink_frame (h : Heap) (root : Nat) :
    (∀ fuel h', setParents4FinalPlan fuel h root = some h' →
      h'.map Node.shape = h.map Node.shape ∧
      (∀ p, idOf h' p = idOf h p ∧ childrenAt h' p = childrenAt h p ∧
        embeddedAt h' p = embeddedAt h p) ∧
      (∀ x, ¬ ReachAll h root x → parentsAt h' x = parentsAt h x)) ∧
    (∀ rank, Closed h → Ranked h rank → root < h.length →
      ∃ fuel h', setParents4FinalPlan fuel h root = some h') := by
  refine ⟨?_, fun rank hc hr hroot => ⟨_, run_returns hc hr hroot⟩⟩
  intro fuel h' e
  have a := run_sameShape e
  refine ⟨a, fun p => ⟨a.idOf_eq p, a.childrenAt_eq p, a.embeddedAt_eq p⟩, ?_⟩
  intro x hx
  obtain ⟨os, hos, hpar⟩ := run_parentsAt e
  rw [hpar x]
  apply parentsAfter_untouched
  intro o ho hox
  apply hx
  rw [← hox]
  exact (relinkOps_sound _ _ _ hos o ho).1

/-- Witness of C8 on the reader plan: the call returns, the shape of the heap
is kept and the stale parents of the unreachable `Orphan` stay. -/
theorem relink_frame_witness :
    setParents4FinalPlan 7 readerPlan 0 = some readerPlanLinked ∧
    readerPlanLinked.map Node.shape = readerPlan.map Node.shape ∧
    parentsAt readerPlanLinked 5 = [0, 3] ∧
    ∃ fuel h', setParents4FinalPlan fuel readerPlan 0 = some h' :=
  ⟨by decide,
    ((relink_frame readerPlan 0).1 7 readerPlanLinked (by decide)).1,
    by decide,
    (relink_frame readerPlan 0).2 readerRank (by decide) (by decide) (by decide)⟩

/-- C4 (full reset).  For two heaps with unique ids that differ only in
parents fields both runs of `setParents4FinalPlan(root)` return, and they leave
every node reachable from `root` (through children or embedded sub-plans) with
the same parents list: no entry held before the call survives. -/
theorem full_reset (h1 h2 : Heap) (rank : Nat → Nat) (root : Nat)
    (hshape : h2.map Node.shape = h1.map Node.shape)
    (hclosed : Closed h1) (hids : UniqueIds h1) (hrank : Ranked h1 rank)
    (hroot : root < h1.length) :
    (∃ fuel h1', setParents4FinalPlan fuel h1 root = some h1') ∧
    (∃ fuel h2', setParents4FinalPlan fuel h2 root = some h2') ∧
    ∀ f1 f2 h1' h2', setParents4FinalPlan f1 h1 root = some h1' →
      setParents4FinalPlan f2 h2 root = some h2' →
      ∀ x, ReachAll h1 root x → parentsAt h1' x = parentsAt h2' x := by
  have a : SameShape h1 h2 := hshape
  refine ⟨⟨_, run_returns hclosed hrank hroot⟩,
    ⟨_, run_returns_of_sameShape hclosed hrank hroot a⟩, ?_⟩
  intro f1 f2 h1' h2' e1 e2 x hx
  obtain ⟨os1, hos1, hrun1⟩ := run_calls e1
  obtain ⟨os2, hos2, hrun2⟩ := run_calls_of_sameShape a e2
  have := relinkOps_fuel_irrelevant hos1 hos2
  subst this
  rw [runOps_parentsAt hrun1 x, runOps_parentsAt hrun2 x]
  exact parentsAfter_of_clear x os1 _ _ (relinkOps_clears hids _ _ _ hos1 x hx)

/-- Witness of C4: the reader plan and the plan that is already linked differ
only in parents fields, and the runs on both leave `TblScan`, a node of an
embedded sub-plan, with the same parents. -/
theorem full_reset_witness :
    readerPlanLinked.map Node.shape = readerPlan.map Node.shape ∧
    setParents4FinalPlan 7 readerPlan 0 = some readerPlanLinked ∧
    setParents4FinalPlan 9 readerPlanLinked 0 = some readerPlanLinked ∧
    parentsAt readerPlanLinked 4 = parentsAt readerPlanLinked 4 :=
  ⟨by decide, by decide, by decide,
    (full_reset readerPlan readerPlanLinked readerRank 0
      (by decide) (by decide) (by decide) (by decide) (by decide)).2.2
      7 9 readerPlanLinked readerPlanLinked (by decide) (by decide) 4
      (Relation.ReflTransGen.tail
        (Relation.ReflTransGen.single (Or.inr (by decide : IsEmbedded readerPlan 0 3)))
        (Or.inl (by decide : IsChild readerPlan 3 4)))⟩

/-- C3 (idempotence).  On a plan with unique ids (no nil plan, embedded
sub-plans well-founded) `setParents4FinalPlan(root)` can be run twice in
succession, and the second run leaves every node reachable from `root`
(through children or embedded sub-plans) with the parents list the first run
gave it: the same entries, hence the same ids with the same multiplicities. -/
theorem relink_idempotent (h : Heap) (rank : Nat → Nat) (root : Nat)
    (hclosed : Closed h) (hids : UniqueIds h) (hrank : Ranked h rank)
    (hroot : root < h.length) :
    (∃ f1 f2 h' h'', setParents4FinalPlan f1 h root = some h' ∧
      setParents4FinalPlan f2 h' root = some h'') ∧
    ∀ f1 f2 h' h'', setParents4FinalPlan f1 h root = some h' →
      setParents4FinalPlan f2 h' root = some h'' →
      ∀ x, ReachAll h root x →
        parentsAt h'' x = parentsAt h' x ∧
        (parentsAt h'' x).map (idOf h'') = (parentsAt h' x).map (idOf h') := by
  constructor
  · obtain ⟨h', e1⟩ := run_returns hclosed hrank hroot
    obtain ⟨h'', e2⟩ := run_returns_of_sameShape hclosed hrank hroot (run_sameShape e1)
    exact ⟨_, _, h', h'', e1, e2⟩
  · intro f1 f2 h' h'' e1 e2 x hx
    have a := run_sameShape e1
    have heq : parentsAt h'' x = parentsAt h' x := by
      obtain ⟨os1, hos1, hrun1⟩ := run_calls e1
      obtain ⟨os2, hos2, hrun2⟩ := run_calls_of_sameShape a e2
      have := relinkOps_fuel_irrelevant hos1 hos2
      subst this
      rw [runOps_parentsAt hrun1 x, runOps_parentsAt hrun2 x]
      exact parentsAfter_of_clear x os1 _ _ (relinkOps_clears hids _ _ _ hos1 x hx)
    refine ⟨heq, ?_⟩
    rw [heq]
    apply List.map_congr_left
    intro q _
    exact (run_sameShape e2).idOf_eq q

/-- Witness of C3 on the reader plan: a second run leaves the parents of
`TblScan` as the first run set them. -/
theorem relink_idempotent_witness :
    setParents4FinalPlan 7 readerPlan 0 = some readerPlanLinked ∧
    setParents4FinalPlan 7 readerPlanLinked 0 = some readerPlanLinked ∧
    parentsAt readerPlanLinked 4 = parentsAt readerPlanLinked 4 ∧
    (parentsAt readerPlanLinked 4).map (idOf readerPlanLinked)
      = (parentsAt readerPlanLinked 4).map (idOf readerPlanLinked) :=
  ⟨by decide, by decide,
    (relink_idempotent readerPlan readerRank 0 (by decide) (by decide) (by decide)
      (by decide)).2 7 7 readerPlanLinked readerPlanLinked (by decide) (by decide) 4
      (Relation.ReflTransGen.tail
        (Relation.ReflTransGen.single (Or.inr (by decide : IsEmbedded readerPlan 0 3)))
        (Or.inl (by decide : IsChild readerPlan 3 4)))⟩

/-! ## Discovery -/

theorem firstLoop_calls {h h1 : Heap} {fuel root : Nat} {allPlans : List Nat}
    {planMark : PlanMark}
    (e : firstLoop (setParents4FinalPlan fuel) fuel h root = some (h1, allPlans, planMark)) :
    ∃ n os, h[root]? = some n ∧
      pass1Ops (relinkOps fuel h) h fuel [root] (PlanMark.set (fun _ => false) n.id true) 0
        = some (os, allPlans, planMark) := by
  unfold firstLoop at e
  cases hn : h[root]? with
  | none => rw [hn] at e; simp at e
  | some n =>
    rw [hn] at e
    simp only [Option.some_bind] at e
    rw [pass1_eq (setParents4FinalPlan fuel) (relinkOps fuel h)
      (fun h' r a => setParents4FinalPlan_eq fuel h' r a) fuel h _ _ 0 (SameShape.refl h)] at e
    cases h1e : pass1Ops (relinkOps fuel h) h fuel [root]
        (PlanMark.set (fun _ => false) n.id true) 0 with
    | none => rw [h1e] at e; simp at e
    | some r =>
      obtain ⟨os, L, M⟩ := r
      rw [h1e] at e
      simp only [Option.some_bind] at e
      cases hr : runOps os h with
      | none => rw [hr] at e; simp at e
      | some h2 =>
        rw [hr] at e
        simp at e
        obtain ⟨_, rfl, rfl⟩ := e
        exact ⟨n, os, rfl, h1e⟩

theorem firstLoop_returns {h : Heap} {rank : Nat → Nat} {root : Nat} (hc : Closed h)
    (hr : Ranked h rank) (hroot : root < h.length) :
    ∃ r, firstLoop (setParents4FinalPlan (rank root + h.length))
      (rank root + h.length) h root = some r := by
  obtain ⟨h', e⟩ := run_returns hc hr hroot
  simp only [setParents4FinalPlan] at e
  cases h1 : firstLoop (setParents4FinalPlan (rank root + h.length))
      (rank root + h.length) h root with
  | none => rw [h1] at e; simp at e
  | some r => exact ⟨r, rfl⟩

theorem reach_of_no_children {h : Heap} {root p : Nat} (hch : childrenAt h root = [])
    (hp : Reach h root p) : p = root := by
  rcases Relation.ReflTransGen.cases_head hp with h1 | ⟨c, hc, _⟩
  · exact h1.symm
  · unfold IsChild at hc
    rw [hch] at hc
    simp at hc

/-- C5 (discovery completeness and dedup).  On a plan graph (unique ids, no
nil plan, embedded sub-plans well-founded) the first loop of
`setParents4FinalPlan(root)` ends, and the list `allPlans` it leaves holds no
two entries with the same id, and an id occurs in it if and only if it is the
id of a node reachable from `root` through zero or more `Children()` edges; the
listed plans are exactly the reachable nodes, and for a root without children
the list is `[root]`. -/
theorem discovery_complete (h : Heap) (rank : Nat → Nat) (root : Nat)
    (hclosed : Closed h) (hids : UniqueIds h) (hrank : Ranked h rank)
    (hroot : root < h.length) :
    (∃ fuel r, firstLoop (setParents4FinalPlan fuel) fuel h root = some r) ∧
    ∀ fuel allPlans,
      (firstLoop (setParents4FinalPlan fuel) fuel h root).map (fun r => r.2.1)
        = some allPlans →
      (allPlans.map (idOf h)).Nodup ∧
      (∀ p ∈ allPlans, p < h.length) ∧
      (∀ s, some s ∈ allPlans.map (idOf h) ↔ ∃ x, Reach h root x ∧ idOf h x = some s) ∧
      (∀ x, x ∈ allPlans ↔ Reach h root x) ∧
      (childrenAt h root = [] → allPlans = [root]) := by
  refine ⟨⟨_, firstLoop_returns hclosed hrank hroot⟩, ?_⟩
  intro fuel allPlans e
  obtain ⟨⟨h1, L, planMark⟩, e1, e2⟩ := Option.map_eq_some'.mp e
  have e2' : L = allPlans := e2
  rw [← e2']
  clear e2' e2 e
  obtain ⟨n, os, hn, hp⟩ := firstLoop_calls e1
  obtain ⟨d, _⟩ := pass1Ops_discovered hn hp
  have hmem : ∀ x, x ∈ L ↔ Reach h root x :=
    fun x => ⟨d.reach x, fun hx => d.complete hids hx⟩
  refine ⟨d.nodup, d.valid, ?_, hmem, ?_⟩
  · intro s
    constructor
    · intro hs
      obtain ⟨x, hx, hxs⟩ := List.mem_map.mp hs
      exact ⟨x, d.reach x hx, hxs⟩
    · rintro ⟨x, hx, hxs⟩
      exact List.mem_map.mpr ⟨x, (hmem x).mpr hx, hxs⟩
  · intro hch
    have hall : ∀ p ∈ L, p = root :=
      fun p hp => reach_of_no_children hch (d.reach p hp)
    have hnd := d.nodup_list
    have hhead := d.head
    cases L with
    | nil => simp at hhead
    | cons a l =>
      simp at hhead
      subst hhead
      cases l with
      | nil => rfl
      | cons b l' =>
        have hb : b = a := hall b (by simp)
        subst hb
        simp at hnd

/-- Witness of C5 on the shared-node plan: the first loop lists `A`, `B` and
`C` once each, although `B` is reached along two paths. -/
theorem discovery_complete_witness :
    (firstLoop (setParents4FinalPlan 3) 3 sharedPlan 0).map (fun r => r.2.1) = some [0, 1, 2] ∧
    ([0, 1, 2].map (idOf sharedPlan)).Nodup ∧
    (∀ x, x ∈ [0, 1, 2] ↔ Reach sharedPlan 0 x) :=
  ⟨by decide, by decide,
    ((discovery_complete sharedPlan (fun _ => 0) 0 (by decide) (by decide) (by decide)
      (by decide)).2 3 [0, 1, 2] (by decide)).2.2.2.1⟩

/-! ## Embedded sub-plans and shared nodes -/

/-- After a run every parents entry of a node reachable from the root comes
from a `Children()` edge. -/
theorem run_parents_genuine {h h' : Heap} {fuel root : Nat} (hu : UniqueIds h)
    (e : setParents4FinalPlan fuel h root = some h') {x q : Nat} (hx : ReachAll h root x)
    (hq : q ∈ parentsAt h' x) : IsChild h q x := by
  obtain ⟨os, hos, hpar⟩ := run_parentsAt e
  rw [hpar x] at hq
  have hadd := mem_parentsAfter_of_clear x q os _ (relinkOps_clears hu _ _ _ hos x hx) hq
  exact ((relinkOps_sound _ _ _ hos _ hadd).2 x q rfl).1

/-- C6 (embedded independence).  On a plan with unique ids (no nil plan,
embedded sub-plans well-founded) `setParents4FinalPlan(root)` returns, and
after it, for every reader `R` reachable from `root` (through children or
embedded sub-plans) and every embedded sub-plan root `E` of `R` that is not
listed in `R.Children()`, no entry of the parents of `E` has the id of `R`. -/
theorem embedded_independence (h : Heap) (rank : Nat → Nat) (root : Nat)
    (hclosed : Closed h) (hids : UniqueIds h) (hrank : Ranked h rank)
    (hroot : root < h.length) :
    (∃ fuel h', setParents4FinalPlan fuel h root = some h') ∧
    ∀ fuel h', setParents4FinalPlan fuel h root = some h' →
      ∀ R E, ReachAll h root R → IsEmbedded h R E → ¬ IsChild h R E →
        ∀ q ∈ parentsAt h' E, idOf h' q ≠ idOf h R := by
  refine ⟨⟨_, run_returns hclosed hrank hroot⟩, ?_⟩
  intro fuel h' e R E hR hE hnot q hq hid
  have hEr : ReachAll h root E := Relation.ReflTransGen.tail hR (Or.inr hE)
  have hqE : IsChild h q E := run_parents_genuine hids e hEr hq
  rw [(run_sameShape e).idOf_eq] at hid
  have : R = q := idOf_inj hids (isChild_valid hqE) hid.symm
  subst this
  exact hnot hqE

/-- Witness of C6 on the reader plan: `TblSel`, the table plan of `Lookup`,
starts with a stale entry for `Lookup` and ends without one. -/
theorem embedded_independence_witness :
    parentsAt readerPlan 3 = [0] ∧
    setParents4FinalPlan 7 readerPlan 0 = some readerPlanLinked ∧
    ∀ q ∈ parentsAt readerPlanLinked 3, idOf readerPlanLinked q ≠ idOf readerPlan 0 :=
  ⟨by decide, by decide,
    (embedded_independence readerPlan readerRank 0 (by decide) (by decide) (by decide)
      (by decide)).2 7 readerPlanLinked (by decide) 0 3 Relation.ReflTransGen.refl
      (by decide) (by decide)⟩

theorem parentsAfter_nil_of_clear {x : Nat} {os : List Op} (init : List Nat)
    (hx : Op.clear x ∈ os) (hadd : ∀ p, Op.add x p ∉ os) : parentsAfter x os init = [] := by
  rw [List.eq_nil_iff_forall_not_mem]
  intro q hq
  exact hadd q (mem_parentsAfter_of_clear x q os init hx hq)

theorem count_added_children (C P p : Nat) (cs : List Nat) :
    List.count P (cs.filterMap fun c => if c = C then some p else none)
      = if p = P then List.count C cs else 0 := by
  induction cs with
  | nil => simp
  | cons c cs ih =>
    simp only [List.filterMap_cons]
    by_cases hc : c = C
    · simp only [hc, if_true, List.count_cons, ih]
      by_cases hp : p = P <;> simp [hp]
    · simp only [hc, if_false, ih, List.count_cons]
      by_cases hp : p = P <;> simp [hp, hc]

theorem addOps_cons (h : Heap) (p : Nat) (L : List Nat) :
    addOps h (p :: L) = ((childrenAt h p).map fun c => Op.add c p) ++ addOps h L := by
  simp [addOps]

theorem count_addedTo_addOps (h : Heap) (C P : Nat) (L : List Nat) (hL : L.Nodup) :
    List.count P ((addOps h L).filterMap (addedTo C))
      = if P ∈ L then List.count C (childrenAt h P) else 0 := by
  induction L with
  | nil => simp [addOps]
  | cons p L ih =>
    have hp : p ∉ L := (List.nodup_cons.mp hL).1
    have hL' : L.Nodup := (List.nodup_cons.mp hL).2
    rw [addOps_cons, List.filterMap_append, List.count_append, ih hL', List.filterMap_map]
    have hfun : (addedTo C ∘ fun c => Op.add c p) = fun c => if c = C then some p else none := by
      funext c; simp [addedTo]
    rw [hfun, count_added_children]
    by_cases hpP : p = P
    · subst hpP; simp [hp]
    · have : ¬ P = p := fun hh => hpP hh.symm
      simp [hpP, this]

/-- With no node shared between the outer graph and an embedded sub-plan, a
node of the outer graph ends with exactly the parents added by the second
loop. -/
theorem run_outer_parents {h h' : Heap} {fuel root : Nat} (hu : UniqueIds h)
    (hshare : NoSharing h root) (e : setParents4FinalPlan fuel h root = some h') {C : Nat}
    (hC : Reach h root C) :
    ∃ L, L.Nodup ∧ (∀ x, x ∈ L ↔ Reach h root x) ∧
      parentsAt h' C = (addOps h L).filterMap (addedTo C) := by
  obtain ⟨os, hos, hpar⟩ := run_parentsAt e
  obtain ⟨f, rfl⟩ := relinkOps_fuel_pos hos
  obtain ⟨L, d, rfl, _⟩ := relinkOps_structure hos
  refine ⟨L, d.nodup_list, fun x => ⟨d.reach x, fun hx => d.complete hu hx⟩, ?_⟩
  rw [hpar C, parentsAfter_append, parentsAfter_adds C _ _ (addOps_no_clear h L)]
  have hnil : parentsAfter C (clearOps (relinkOps f h) h L) (parentsAt h C) = [] := by
    apply parentsAfter_nil_of_clear
    · exact mem_clearOps.mpr ⟨C, d.complete hu hC, Or.inl rfl⟩
    · intro p hp
      obtain ⟨q, hq, ho⟩ := mem_clearOps.mp hp
      rcases ho with ho | ho
      · injection ho
      · obtain ⟨r, hr, os', hos', hmem⟩ := mem_embeddedOpsAt ho
        exact hshare q r C (d.reach q hq) hr (relinkOps_sound _ _ _ hos' _ hmem).1 hC
  rw [hnil, List.nil_append]

theorem countP_id_eq_count {h h' : Heap} (hu : UniqueIds h) (a : SameShape h h') (P : Nat)
    (l : List Nat) (hl : ∀ q ∈ l, q < h.length) :
    l.countP (fun q => decide (idOf h' q = idOf h P)) = l.count P := by
  rw [List.count_eq_countP]
  apply List.countP_congr
  intro q hq
  simp only [decide_eq_true_eq, beq_iff_eq]
  rw [a.idOf_eq]
  constructor
  · intro hid
    exact (idOf_inj hu (hl q hq) hid.symm).symm
  · intro hqP; rw [hqP]

/-- C2 (shared-node multiplicity).  On a plan with unique ids (no nil plan,
embedded sub-plans well-founded) whose outer graph shares no node with an
embedded sub-plan, `setParents4FinalPlan(root)` returns, and after it, for
every node `C` reachable from `root` through `Children()`, the number of
entries of the parents of `C` with the id of `P` is the number of occurrences
of `C` in `P.Children()` when `P` is reachable from `root`, and 0 for every
other `P`; when children lists have no duplicates and `C` is a child of
exactly the two distinct reachable nodes `P1` and `P2`, the parents of `C` are
one entry for `P1` and one for `P2`; and a root that no reachable node lists as
a child ends with empty parents. -/
theorem shared_multiplicity (h : Heap) (rank : Nat → Nat) (root : Nat)
    (hclosed : Closed h) (hids : UniqueIds h) (hrank : Ranked h rank)
    (hroot : root < h.length) (hshare : NoSharing h root) :
    (∃ fuel h', setParents4FinalPlan fuel h root = some h') ∧
    ∀ fuel h', setParents4FinalPlan fuel h root = some h' →
      (∀ C, Reach h root C →
        (∀ P, Reach h root P →
          (parentsAt h' C).countP (fun q => decide (idOf h' q = idOf h P))
            = (childrenAt h P).count C) ∧
        (∀ P, ¬ Reach h root P →
          (parentsAt h' C).countP (fun q => decide (idOf h' q = idOf h P)) = 0) ∧
        (∀ P1 P2, P1 ≠ P2 → Reach h root P1 → Reach h root P2 →
          IsChild h P1 C → IsChild h P2 C →
          (∀ P, Reach h root P → IsChild h P C → P = P1 ∨ P = P2) →
          (∀ P, Reach h root P → (childrenAt h P).Nodup) →
          (parentsAt h' C).Perm [P1, P2])) ∧
      ((∀ P, Reach h root P → ¬ IsChild h P root) → parentsAt h' root = []) := by
  refine ⟨⟨_, run_returns hclosed hrank hroot⟩, ?_⟩
  intro fuel h' e
  have a := run_sameShape e
  have hcount : ∀ C, Reach h root C → ∀ P,
      (Reach h root P → (parentsAt h' C).count P = (childrenAt h P).count C) ∧
      (¬ Reach h root P → (parentsAt h' C).count P = 0) := by
    intro C hC P
    obtain ⟨L, hnd, hL, hpar⟩ := run_outer_parents hids hshare e hC
    rw [hpar, count_addedTo_addOps h C P L hnd]
    constructor
    · intro hP; simp [(hL P).mpr hP]
    · intro hP
      have : P ∉ L := fun hh => hP ((hL P).mp hh)
      simp [this]
  have hvalid : ∀ C, Reach h root C → ∀ q ∈ parentsAt h' C, q < h.length := by
    intro C hC q hq
    exact isChild_valid (run_parents_genuine hids e hC.toAll hq)
  constructor
  · intro C hC
    refine ⟨?_, ?_, ?_⟩
    · intro P hP
      rw [countP_id_eq_count hids a P _ (hvalid C hC)]
      exact (hcount C hC P).1 hP
    · intro P hP
      rw [countP_id_eq_count hids a P _ (hvalid C hC)]
      exact (hcount C hC P).2 hP
    · intro P1 P2 hne h1 h2 hc1 hc2 honly hnd
      rw [List.perm_iff_count]
      intro P
      by_cases hP : Reach h root P
      · rw [(hcount C hC P).1 hP]
        by_cases hPC : IsChild h P C
        · rw [List.count_eq_one_of_mem (hnd P hP) hPC]
          rcases honly P hP hPC with hh | hh
          · subst hh; simp [List.count_cons, hne.symm]
          · subst hh; simp [List.count_cons, hne]
        · have hP1 : P1 ≠ P := fun hh => hPC (hh ▸ hc1)
          have hP2 : P2 ≠ P := fun hh => hPC (hh ▸ hc2)
          rw [List.count_eq_zero.mpr hPC]
          simp [List.count_cons, hP1, hP2]
      · rw [(hcount C hC P).2 hP]
        have hP1 : P1 ≠ P := fun hh => hP (hh ▸ h1)
        have hP2 : P2 ≠ P := fun hh => hP (hh ▸ h2)
        simp [List.count_cons, hP1, hP2]
  · intro hno
    rw [List.eq_nil_iff_forall_not_mem]
    intro q hq
    have hqc : IsChild h q root :=
      run_parents_genuine hids e Relation.ReflTransGen.refl hq
    have hcnt := hcount root Relation.ReflTransGen.refl q
    by_cases hqr : Reach h root q
    · exact hno q hqr hqc
    · have := hcnt.2 hqr
      rw [List.count_eq_zero] at this
      exact this hq

theorem noSharing_of_no_reader {h : Heap} (root : Nat)
    (hk : ∀ n ∈ h, n.kind.embedded = []) : NoSharing h root := by
  intro R E x _ hE
  exfalso
  unfold IsEmbedded embeddedAt at hE
  cases hn : h[R]? with
  | none => rw [hn] at hE; simp at hE
  | some n =>
    rw [hn] at hE
    simp [hk n (List.mem_iff_getElem?.mpr ⟨R, hn⟩)] at hE

/-- Witness of C2 on the shared-node plan: `B` ends with the parents `[A, C]`,
and its entries with the id of `C` are as many as `B` occurs in the children
of `C`. -/
theorem shared_multiplicity_witness :
    setParents4FinalPlan 4 sharedPlan 0 = some sharedPlanLinked ∧
    parentsAt sharedPlanLinked 1 = [0, 2] ∧
    (parentsAt sharedPlanLinked 1).countP
        (fun q => decide (idOf sharedPlanLinked q = idOf sharedPlan 2))
      = (childrenAt sharedPlan 2).count 1 :=
  ⟨by decide, by decide,
    (((shared_multiplicity sharedPlan (fun _ => 0) 0 (by decide) (by decide) (by decide)
      (by decide) (noSharing_of_no_reader 0 (by decide))).2 4 sharedPlanLinked (by decide)).1 1
      (Relation.ReflTransGen.single (by decide : IsChild sharedPlan 0 1))).1 2
      (Relation.ReflTransGen.single (by decide : IsChild sharedPlan 0 2))⟩

/-! ## Relinking of embedded sub-plans -/

/-- C7 as stated fails when an embedded sub-plan shares a node with the outer
graph.  In `sharingPlan` (unique ids, no duplicate children, no cycle) the
reader `R` is the root, `T` is its table plan and `X` is listed in
`T.Children()`, but after `setParents4FinalPlan(R)` the parents of `X` hold no
entry with the id of `T`: the first loop clears `X` again after the embedded
sub-plan has been relinked. -/
theorem embedded_relinking_counterexample :
    Closed sharingPlan ∧ UniqueIds sharingPlan ∧ NoDuplicateChildren sharingPlan ∧
    Acyclic sharingPlan sharingLevel ∧
    IsEmbedded sharingPlan 0 1 ∧ IsChild sharingPlan 1 2 ∧
    setParents4FinalPlan 5 sharingPlan 0 = some sharingPlanLinked ∧
    ¬ ∃ q ∈ parentsAt sharingPlanLinked 2, idOf sharingPlanLinked q = idOf sharingPlan 1 := by
  decide

theorem mem_parentsAfter_of_mem {x q : Nat} {os : List Op} {init : List Nat}
    (hq : q ∈ init) (hx : Op.clear x ∉ os) : q ∈ parentsAfter x os init := by
  induction os generalizing init with
  | nil => exact hq
  | cons o os ih =>
    have hx' : Op.clear x ∉ os := fun hh => hx (List.mem_cons_of_mem _ hh)
    cases o with
    | clear p =>
      simp only [parentsAfter]
      have hp : p ≠ x := fun hh => hx (by rw [hh]; exact List.mem_cons_self _ _)
      simp only [hp, if_false]
      exact ih hq hx'
    | add p parent =>
      simp only [parentsAfter]
      apply ih _ hx'
      by_cases hp : p = x
      · simp only [hp, if_true]; exact List.mem_append_left _ hq
      · simp only [hp, if_false]; exact hq

theorem tame_append {h : Heap} {E : Nat} {a b : List Op}
    (ha : LinksRegion h E a ∨ SparesRegion h E a)
    (hb : LinksRegion h E b ∨ SparesRegion h E b) :
    LinksRegion h E (a ++ b) ∨ SparesRegion h E (a ++ b) := by
  rcases hb with hb | hb
  · left
    intro P C hP hC init
    rw [parentsAfter_append]
    exact hb P C hP hC _
  · rcases ha with ha | ha
    · left
      intro P C hP hC init
      rw [parentsAfter_append]
      exact mem_parentsAfter_of_mem (ha P C hP hC init)
        (hb C (Relation.ReflTransGen.tail hP hC))
    · right
      intro x hx hmem
      rcases List.mem_append.mp hmem with hmem | hmem
      · exact ha x hx hmem
      · exact hb x hx hmem

theorem tame_nil (h : Heap) (E : Nat) : LinksRegion h E [] ∨ SparesRegion h E [] :=
  Or.inr fun _ _ hmem => by simp at hmem

theorem tame_flatMap {h : Heap} {E : Nat} (f : Nat → List Op) (L : List Nat)
    (hf : ∀ p ∈ L, LinksRegion h E (f p) ∨ SparesRegion h E (f p)) :
    LinksRegion h E (L.flatMap f) ∨ SparesRegion h E (L.flatMap f) := by
  induction L with
  | nil => exact tame_nil h E
  | cons p L ih =>
    rw [List.flatMap_cons]
    exact tame_append (hf p (List.mem_cons_self _ _))
      (ih fun q hq => hf q (List.mem_cons_of_mem _ hq))

theorem tame_embeddedOps {h : Heap} {E : Nat} {self : Nat → Option (List Op)} {k : Kind}
    {es : List Op} (e : embeddedOps self k = some es)
    (hself : ∀ r ∈ k.embedded, ∀ os, self r = some os →
      LinksRegion h E os ∨ SparesRegion h E os) :
    LinksRegion h E es ∨ SparesRegion h E es := by
  cases k with
  | other => simp [embeddedOps] at e; subst e; exact tame_nil h E
  | PhysicalTableReader t => exact hself t (by simp [Kind.embedded]) es e
  | PhysicalIndexReader i => exact hself i (by simp [Kind.embedded]) es e
  | PhysicalIndexLookUpReader i t =>
    simp only [embeddedOps] at e
    cases hi : self i with
    | none => rw [hi] at e; simp at e
    | some a =>
      rw [hi] at e
      cases ht : self t with
      | none => rw [ht] at e; simp at e
      | some b =>
        rw [ht] at e
        simp at e
        subst e
        exact tame_append (hself i (by simp [Kind.embedded]) a hi)
          (hself t (by simp [Kind.embedded]) b ht)

theorem privateSubPlan_embedded {h : Heap} {r p e E : Nat} (hs : PrivateSubPlan h r E)
    (hp : Reach h r p) (he : IsEmbedded h p e) : PrivateSubPlan h e E := by
  intro r' hr' hne x hx
  apply hs r' _ hne x hx
  right
  rcases hr' with rfl | ⟨R, hR, hRr⟩
  · exact ⟨p, hp.toAll, he⟩
  · exact ⟨R, (Relation.ReflTransGen.tail hp.toAll (Or.inr he)).trans hR, hRr⟩

/-- The calls of a run either leave the private sub-plan under `E` linked or
do not clear any of its nodes; the run on `E` itself leaves it linked. -/
theorem relinkOps_tame {h : Heap} (hu : UniqueIds h) (E : Nat) :
    ∀ (fuel r : Nat) (os : List Op), relinkOps fuel h r = some os → PrivateSubPlan h r E →
      LinksRegion h E os ∨ SparesRegion h E os := by
  intro fuel
  induction fuel with
  | zero => intro r os e; simp [relinkOps] at e
  | succ fuel ih =>
    intro r os e hs
    obtain ⟨L, d, rfl, hemb⟩ := relinkOps_structure e
    by_cases hrE : r = E
    · subst hrE
      left
      intro P C hP hC init
      rw [parentsAfter_append]
      apply mem_parentsAfter_of_add _ _ _ _ (addOps_no_clear h L)
      exact mem_addOps.mpr ⟨P, d.complete hu hP, C, hC, rfl⟩
    · apply tame_append
      · unfold clearOps
        apply tame_flatMap
        intro p hp
        have hsplit : Op.clear p :: embeddedOpsAt (relinkOps fuel h) h p
            = [Op.clear p] ++ embeddedOpsAt (relinkOps fuel h) h p := rfl
        rw [hsplit]
        apply tame_append
        · right
          intro x hx hmem
          simp at hmem
          subst hmem
          exact hs r (Or.inl rfl) hrE x hx (d.reach x hp)
        · obtain ⟨n, es, hn, he⟩ := hemb p hp
          have : embeddedOpsAt (relinkOps fuel h) h p = es := by
            simp [embeddedOpsAt, hn, he]
          rw [this]
          apply tame_embeddedOps he
          intro e' he' os' hos'
          apply ih e' os' hos'
          apply privateSubPlan_embedded hs (d.reach p hp)
          unfold IsEmbedded
          rw [embeddedAt_of_get hn]
          exact he'
      · right
        intro x _ hmem
        exact addOps_no_clear h L x hmem

/-- C7, amended (recursive relinking of embedded sub-plans).  On a plan with
unique ids (no nil plan, embedded sub-plans well-founded)
`setParents4FinalPlan(root)` returns, and after it every embedded sub-plan
root `E` of a reader `R` reachable from `root`, at any nesting depth, is
linked, provided the sub-plan under `E` is private (none of its nodes is
reachable through children from `root` or from another embedded sub-plan
root): for every `P` reachable from `E` through children and every `C` in
`P.Children()` the parents of `C` hold an entry with the id of `P`. -/
theorem embedded_relinking (h : Heap) (rank : Nat → Nat) (root : Nat)
    (hclosed : Closed h) (hids : UniqueIds h) (hrank : Ranked h rank)
    (hroot : root < h.length) :
    (∃ fuel h', setParents4FinalPlan fuel h root = some h') ∧
    ∀ fuel h', setParents4FinalPlan fuel h root = some h' →
      ∀ R E, ReachAll h root R → IsEmbedded h R E → PrivateSubPlan h root E →
        ∀ P C, Reach h E P → IsChild h P C →
          ∃ q ∈ parentsAt h' C, ∃ s, idOf h' q = some s ∧ idOf h P = some s := by
  refine ⟨⟨_, run_returns hclosed hrank hroot⟩, ?_⟩
  intro fuel h' e R E hR hE hpriv P C hP hC
  obtain ⟨os, hos, hpar⟩ := run_parentsAt e
  have hclear : Op.clear E ∈ os :=
    relinkOps_clears hids _ _ _ hos E (Relation.ReflTransGen.tail hR (Or.inr hE))
  have hlinks : LinksRegion h E os := by
    rcases relinkOps_tame hids E _ _ _ hos hpriv with hl | hsp
    · exact hl
    · exact absurd hclear (hsp E Relation.ReflTransGen.refl)
  have hPv := isChild_valid hC
  refine ⟨P, ?_, h[P].id, ?_, idOf_some hPv⟩
  · rw [hpar C]
    exact hlinks P C hP hC _
  · rw [(run_sameShape e).idOf_eq]
    exact idOf_some hPv

theorem reach_subset {h : Heap} {r x : Nat} (S : List Nat) (hr : r ∈ S)
    (hS : ∀ a ∈ S, ∀ c ∈ childrenAt h a, c ∈ S) (hx : Reach h r x) : x ∈ S := by
  induction hx with
  | refl => exact hr
  | tail _ hbc ih => exact hS _ ih _ hbc

theorem isEmbedded_mem {h : Heap} {p e : Nat} (he : IsEmbedded h p e) :
    e ∈ h.flatMap fun n => n.kind.embedded := by
  unfold IsEmbedded embeddedAt at he
  cases hn : h[p]? with
  | none => rw [hn] at he; simp at he
  | some n =>
    rw [hn] at he
    exact List.mem_flatMap.mpr ⟨n, List.mem_iff_getElem?.mpr ⟨p, hn⟩, by simpa using he⟩

/-- In the reader plan the table plan under `TblSel` is private. -/
theorem readerPlan_private : PrivateSubPlan readerPlan 0 3 := by
  intro r hr hne x hx3 hxr
  have h3 : x ∈ [3, 4] := reach_subset [3, 4] (by decide) (by decide) hx3
  rcases hr with rfl | ⟨R, _, hRr⟩
  · have h0 : x ∈ [0, 1] := reach_subset [0, 1] (by decide) (by decide) hxr
    simp at h3 h0
    omega
  · have hr' : r ∈ [2, 3] := isEmbedded_mem hRr
    have hr2 : r = 2 := by
      simp at hr'
      omega
    subst hr2
    have h2 : x ∈ [2] := reach_subset [2] (by decide) (by decide) hxr
    simp at h3 h2
    omega

/-- Witness of the amended C7 on the reader plan: after the run on `Lookup`
the edge from `TblSel` to `TblScan` of the embedded table plan is recorded. -/
theorem embedded_relinking_witness :
    setParents4FinalPlan 7 readerPlan 0 = some readerPlanLinked ∧
    ∃ q ∈ parentsAt readerPlanLinked 4, ∃ s,
      idOf readerPlanLinked q = some s ∧ idOf readerPlan 3 = some s :=
  ⟨by decide,
    (embedded_relinking readerPlan readerRank 0 (by decide) (by decide) (by decide)
      (by decide)).2 7 readerPlanLinked (by decide) 0 3 Relation.ReflTransGen.refl
      (by decide) readerPlan_private 3 4 Relation.ReflTransGen.refl (by decide)⟩

/-! ## `ExplainInfo` of `Selection`, `Projection` and `Sort` -/

theorem intercalate_go_append (s x acc : String) (l : List String) :
    String.intercalate.go (x ++ acc) s l = x ++ String.intercalate.go acc s l := by
  induction l generalizing acc with
  | nil => simp [String.intercalate.go]
  | cons a as ih =>
    simp only [String.intercalate.go]
    rw [String.append_assoc, String.append_assoc, ih, String.append_assoc]

theorem intercalate_cons_cons (s a b : String) (l : List String) :
    s.intercalate (a :: b :: l) = a ++ s ++ s.intercalate (b :: l) := by
  simp only [String.intercalate, String.intercalate.go]
  rw [intercalate_go_append]

theorem writeExprs_eq {ε : Type} (explainInfo : ε → String) (len : Nat) :
    ∀ (es : List ε) (i : Nat) (buffer : String), i + es.length = len →
      writeExprs explainInfo len i es buffer
        = buffer ++ ", ".intercalate (es.map explainInfo) := by
  intro es
  induction es with
  | nil => intro i buffer _; simp [writeExprs, String.intercalate]
  | cons e es ih =>
    intro i buffer hlen
    cases es with
    | nil =>
      have : ¬ (i + 1 < len) := by simp at hlen; omega
      simp [writeExprs, this, String.intercalate, String.intercalate.go]
    | cons e2 es =>
      have hlt : i + 1 < len := by simp at hlen; omega
      have h2 : (i + 1) + (e2 :: es).length = len := by simp at hlen ⊢; omega
      rw [writeExprs]
      simp only [hlt, if_true]
      rw [ih (i + 1) _ h2]
      simp only [List.map_cons]
      rw [intercalate_cons_cons]
      simp only [String.append_assoc]

/-- The text of one sort key: the description of the expression, then `:desc`
or `:asc`. -/
theorem byItem_text {ε : Type} (explainInfo : ε → String) (e : ByItems ε) :
    explainInfo e.Expr ++ ":" ++ (if e.Desc then "desc" else "asc")
      = explainInfo e.Expr ++ (if e.Desc then ":desc" else ":asc") := by
  cases e.Desc <;> simp [String.append_assoc]

theorem writeByItems_eq {ε : Type} (explainInfo : ε → String) (len : Nat) :
    ∀ (items : List (ByItems ε)) (i : Nat) (buffer : String), i + items.length = len →
      writeByItems explainInfo len i items buffer
        = buffer ++ ", ".intercalate
            (items.map fun it => explainInfo it.Expr ++ (if it.Desc then ":desc" else ":asc")) := by
  intro items
  induction items with
  | nil => intro i buffer _; simp [writeByItems, String.intercalate]
  | cons e es ih =>
    intro i buffer hlen
    have hitem := byItem_text explainInfo e
    cases es with
    | nil =>
      have : ¬ (i + 1 < len) := by simp at hlen; omega
      simp only [writeByItems, this, if_false, hitem]
      simp [String.intercalate, String.intercalate.go]
    | cons e2 es =>
      have hlt : i + 1 < len := by simp at hlen; omega
      have h2 : (i + 1) + (e2 :: es).length = len := by simp at hlen ⊢; omega
      rw [writeByItems]
      simp only [hlt, if_true, hitem]
      rw [ih (i + 1) _ h2]
      simp only [List.map_cons]
      rw [intercalate_cons_cons]
      simp only [String.append_assoc]

/-- C9 (sort description).  `Sort.ExplainInfo` is the texts
`<ExplainInfo of e>:desc` (when `Desc` is true) or `<ExplainInfo of e>:asc` of
the items, in item order and joined with `", "`: a single item gives its text
with nothing after it, a further item follows after `", "`, and an empty
`ByItems` gives the empty string; the keys `(colA, desc)`, `(colB, asc)` give
`"colA:desc, colB:asc"`. -/
theorem sort_explainInfo {ε : Type} (explainInfo : ε → String) (items : List (ByItems ε))
    (a b : ByItems ε) :
    Sort.ExplainInfo explainInfo items
      = ", ".intercalate
          (items.map fun it => explainInfo it.Expr ++ (if it.Desc then ":desc" else ":asc")) ∧
    Sort.ExplainInfo explainInfo ([] : List (ByItems ε)) = "" ∧
    Sort.ExplainInfo explainInfo [a]
      = explainInfo a.Expr ++ (if a.Desc then ":desc" else ":asc") ∧
    Sort.ExplainInfo explainInfo (a :: b :: items)
      = explainInfo a.Expr ++ (if a.Desc then ":desc" else ":asc") ++ ", "
          ++ Sort.ExplainInfo explainInfo (b :: items) ∧
    Sort.ExplainInfo id [⟨"colA", true⟩, ⟨"colB", false⟩] = "colA:desc, colB:asc" := by
  have key : ∀ l : List (ByItems ε), Sort.ExplainInfo explainInfo l
      = ", ".intercalate
          (l.map fun it => explainInfo it.Expr ++ (if it.Desc then ":desc" else ":asc")) := by
    intro l
    unfold Sort.ExplainInfo
    rw [writeByItems_eq explainInfo l.length l 0 "" (by simp), String.empty_append]
  refine ⟨key items, ?_, ?_, ?_, by decide⟩
  · rw [key]; rfl
  · rw [key]; rfl
  · rw [key, key, List.map_cons, List.map_cons, intercalate_cons_cons]

/-- C10 (filter and projection description).  `Selection.ExplainInfo` and
`Projection.ExplainInfo` are the `ExplainInfo` strings of the elements in list
order joined with `", "`, with no label and no separator before the first or
after the last element: the empty list gives `""`, a single element gives its
description unchanged, and a further element follows after `", "`. -/
theorem selection_projection_explainInfo {ε : Type} (explainInfo : ε → String)
    (l : List ε) (a b : ε) :
    Selection.ExplainInfo explainInfo l = ", ".intercalate (l.map explainInfo) ∧
    Projection.ExplainInfo explainInfo l = ", ".intercalate (l.map explainInfo) ∧
    Selection.ExplainInfo explainInfo ([] : List ε) = "" ∧
    Projection.ExplainInfo explainInfo ([] : List ε) = "" ∧
    Selection.ExplainInfo explainInfo [a] = explainInfo a ∧
    Projection.ExplainInfo explainInfo [a] = explainInfo a ∧
    Selection.ExplainInfo explainInfo (a :: b :: l)
      = explainInfo a ++ ", " ++ Selection.ExplainInfo explainInfo (b :: l) ∧
    Projection.ExplainInfo explainInfo (a :: b :: l)
      = explainInfo a ++ ", " ++ Projection.ExplainInfo explainInfo (b :: l) := by
  have keyS : ∀ l : List ε,
      Selection.ExplainInfo explainInfo l = ", ".intercalate (l.map explainInfo) := by
    intro l
    unfold Selection.ExplainInfo
    rw [writeExprs_eq explainInfo l.length l 0 "" (by simp), String.empty_append]
  have keyP : ∀ l : List ε,
      Projection.ExplainInfo explainInfo l = ", ".intercalate (l.map explainInfo) := by
    intro l
    unfold Projection.ExplainInfo
    rw [writeExprs_eq explainInfo l.length l 0 "" (by simp), String.empty_append]
  refine ⟨keyS l, keyP l, ?_, ?_, ?_, ?_, ?_, ?_⟩
  · rw [keyS]; rfl
  · rw [keyP]; rfl
  · rw [keyS]; rfl
  · rw [keyP]; rfl
  · rw [keyS, keyS, List.map_cons, List.map_cons, intercalate_cons_cons]
  · rw [keyP, keyP, List.map_cons, List.map_cons, intercalate_cons_cons]

/-! ## The descriptions as joined clauses -/

theorem writeExprs_joined {ε : Type} (explainInfo : ε → String) (l : List ε) (buffer : String) :
    writeExprs explainInfo l.length 0 l buffer = buffer ++ joined explainInfo l := by
  rw [writeExprs_eq explainInfo l.length l 0 buffer (by simp)]
  rfl

theorem writeClause_eq {ε : Type} (explainInfo : ε → String) (label : String) (l : List ε)
    (buffer : String) :
    writeClause explainInfo label l buffer = buffer ++ clauseText explainInfo label l := by
  unfold writeClause
  cases l with
  | nil => simp [clauseText]
  | cons e es =>
    simp only [List.length_cons, Nat.succ_pos, gt_iff_lt, if_true, Nat.zero_lt_succ]
    rw [← List.length_cons e es, writeExprs_joined, String.append_assoc]
    rfl

theorem joined_nil {ε : Type} (explainInfo : ε → String) : joined explainInfo ([] : List ε) = "" :=
  rfl

theorem joined_singleton {ε : Type} (explainInfo : ε → String) (e : ε) :
    joined explainInfo [e] = explainInfo e :=
  rfl

theorem joined_cons_cons {ε : Type} (explainInfo : ε → String) (a b : ε) (l : List ε) :
    joined explainInfo (a :: b :: l)
      = explainInfo a ++ ", " ++ joined explainInfo (b :: l) := by
  unfold joined
  rw [List.map_cons, List.map_cons, intercalate_cons_cons]

theorem sprintf_type (a : String) : Sprintf "type:%s" [a] = "type:" ++ a := by
  apply String.ext
  simp [Sprintf, sprintfChars]

theorem sprintf_right (a : String) : Sprintf ", right:%s" [a] = ", right:" ++ a := by
  apply String.ext
  simp [Sprintf, sprintfChars]

theorem sprintf_outer (a : String) : Sprintf "outer:%s" [a] = "outer:" ++ a := by
  apply String.ext
  simp [Sprintf, sprintfChars]

theorem sprintf_small (a : String) : Sprintf ", small:%s" [a] = ", small:" ++ a := by
  apply String.ext
  simp [Sprintf, sprintfChars]

theorem sprintf_semi_right (a : String) : Sprintf "right:%s" [a] = "right:" ++ a := by
  apply String.ext
  simp [Sprintf, sprintfChars]

theorem sprintf_rows (a : String) : Sprintf "rows:%v" [a] = "rows:" ++ a := by
  apply String.ext
  simp [Sprintf, sprintfChars]

theorem sprintf_offset_count (a b : String) :
    Sprintf "offset:%v, count:%v" [a, b] = "offset:" ++ a ++ ", count:" ++ b := by
  apply String.ext
  simp [Sprintf, sprintfChars]

theorem aggregation_eq (X : Externals) (p : PhysicalAggregation X) :
    PhysicalAggregation.ExplainInfo X p
      = "type:" ++ X.AggTypeString p.AggType
          ++ (if p.HasGby then ", group by:" ++ joined X.ExplainInfo p.GroupByItems else "")
          ++ ", funcs:" ++ joined X.ExplainAggFunc p.AggFuncs := by
  unfold PhysicalAggregation.ExplainInfo
  simp only [sprintf_type, writeExprs_joined]
  cases p.HasGby <;> simp [String.append_assoc]

theorem indexJoin_eq (X : Externals) (h : Heap) (p : PhysicalIndexJoin X) :
    PhysicalIndexJoin.ExplainInfo X h p
      = (childID h p.Children p.outerIndex).map fun id =>
          "outer:" ++ id
            ++ clauseText X.ExplainInfo ", outer key:" p.OuterJoinKeys
            ++ clauseText X.ExplainInfo ", inner key:" p.InnerJoinKeys
            ++ clauseText X.ExplainInfo ", left cond:" p.LeftConditions
            ++ clauseText X.ExplainInfo ", right cond:" p.RightConditions
            ++ clauseText X.ExplainInfo ", other cond:" p.OtherConditions := by
  unfold PhysicalIndexJoin.ExplainInfo
  cases childID h p.Children p.outerIndex with
  | none => rfl
  | some id => simp only [Option.some_bind, Option.map_some', writeClause_eq, sprintf_outer]

theorem hashJoin_eq (X : Externals) (h : Heap) (p : PhysicalHashJoin X) :
    PhysicalHashJoin.ExplainInfo X h p
      = (childID h p.Children p.SmallTable).map fun id =>
          X.JoinTypeString p.JoinType ++ ", small:" ++ id
            ++ clauseText X.ExplainInfo ", equal:" p.EqualConditions
            ++ clauseText X.ExplainInfo ", left cond:" p.LeftConditions
            ++ clauseText X.ExplainInfo ", right cond:" p.RightConditions
            ++ clauseText X.ExplainInfo ", other cond:" p.OtherConditions := by
  unfold PhysicalHashJoin.ExplainInfo
  cases childID h p.Children p.SmallTable with
  | none => rfl
  | some id =>
    simp only [Option.some_bind, Option.map_some', writeClause_eq, sprintf_small,
      String.append_assoc]

theorem hashSemiJoin_eq (X : Externals) (h : Heap) (p : PhysicalHashSemiJoin X) :
    PhysicalHashSemiJoin.ExplainInfo X h p
      = (childID h p.Children p.rightChOffset).map fun id =>
          "right:" ++ id
            ++ (if p.WithAux then ", aux" else "")
            ++ (if p.Anti then ", anti" else "")
            ++ clauseText X.ExplainInfo ", equal:" p.EqualConditions
            ++ clauseText X.ExplainInfo ", left cond:" p.LeftConditions
            ++ clauseText X.ExplainInfo ", right cond:" p.RightConditions
            ++ clauseText X.ExplainInfo ", other cond:" p.OtherConditions := by
  unfold PhysicalHashSemiJoin.ExplainInfo
  cases childID h p.Children p.rightChOffset with
  | none => rfl
  | some id =>
    simp only [Option.some_bind, Option.map_some', writeClause_eq, sprintf_semi_right]
    cases p.WithAux <;> cases p.Anti <;> simp [String.append_assoc]

theorem mergeJoin_eq (X : Externals) (p : PhysicalMergeJoin X) :
    PhysicalMergeJoin.ExplainInfo X p
      = X.JoinTypeString p.JoinType
          ++ clauseText X.ExplainInfo ", equal:" p.EqualConditions
          ++ clauseText X.ExplainInfo ", left cond:" p.LeftConditions
          ++ clauseText X.ExplainInfo ", right cond:" p.RightConditions
          ++ clauseText X.ExplainInfo ", other cond:" p.OtherConditions
          ++ clauseText (defaultValueText X) "default vals:" p.DefaultValues
          ++ (if p.Desc then "desc" else "asc")
          ++ clauseText X.ExplainInfo "left key:" p.leftKeys
          ++ clauseText X.ExplainInfo "right key:" p.rightKeys := by
  unfold PhysicalMergeJoin.ExplainInfo
  simp only [writeClause_eq]
  cases p.Desc <;> simp

theorem apply_eq (h : Heap) (p : PhysicalApply) :
    PhysicalApply.ExplainInfo h p
      = (p.PhysicalJoin h).bind fun join =>
          (childID h p.Children p.rightChOffset).map fun id => join ++ ", right:" ++ id := by
  unfold PhysicalApply.ExplainInfo
  cases p.PhysicalJoin h with
  | none => rfl
  | some join =>
    cases childID h p.Children p.rightChOffset with
    | none => rfl
    | some id => simp [sprintf_right, String.append_assoc]

/-! ## The descriptions of the aggregation, the joins and the limit -/

/-- C11 as stated fails: the group-by clause is written when `HasGby` is set,
not when `GroupByItems` is non-empty.  With `HasGby` set and no grouping key
the output has an empty `, group by:` clause, and with `HasGby` unset and a
grouping key `b` it has none; in both cases it differs from the text that the
claim describes. -/
theorem aggregation_explainInfo_counterexample :
    PhysicalAggregation.ExplainInfo textExternals ⟨true, "hash", ["sum(a)"], []⟩
      = "type:hash, group by:, funcs:sum(a)" ∧
    PhysicalAggregation.ExplainInfo textExternals ⟨true, "hash", ["sum(a)"], []⟩
      ≠ "type:hash" ++ clauseText (fun s : String => s) ", group by:" [] ++ ", funcs:sum(a)" ∧
    PhysicalAggregation.ExplainInfo textExternals ⟨false, "hash", ["sum(a)"], ["b"]⟩
      = "type:hash, funcs:sum(a)" ∧
    PhysicalAggregation.ExplainInfo textExternals ⟨false, "hash", ["sum(a)"], ["b"]⟩
      ≠ "type:hash" ++ clauseText (fun s : String => s) ", group by:" ["b"]
          ++ ", funcs:sum(a)" := by
  decide

/-- C11, amended (aggregation description).  `PhysicalAggregation.ExplainInfo`
is `type:<AggType>`, followed by `, group by:<group expressions joined with
", ">` exactly when `HasGby` is set (also for an empty `GroupByItems`) and by
nothing otherwise, followed always by `, funcs:<aggregate functions joined
with ", ">`; when `HasGby` is set exactly for a non-empty `GroupByItems`, the
group-by clause is present exactly when grouping keys exist. -/
theorem aggregation_explainInfo (X : Externals) (p : PhysicalAggregation X) :
    PhysicalAggregation.ExplainInfo X p
      = "type:" ++ X.AggTypeString p.AggType
          ++ (if p.HasGby then
                ", group by:" ++ ", ".intercalate (p.GroupByItems.map X.ExplainInfo)
              else "")
          ++ ", funcs:" ++ ", ".intercalate (p.AggFuncs.map X.ExplainAggFunc) ∧
    ((p.HasGby = true ↔ p.GroupByItems ≠ []) →
      PhysicalAggregation.ExplainInfo X p
        = "type:" ++ X.AggTypeString p.AggType
            ++ clauseText X.ExplainInfo ", group by:" p.GroupByItems
            ++ ", funcs:" ++ ", ".intercalate (p.AggFuncs.map X.ExplainAggFunc)) := by
  refine ⟨aggregation_eq X p, ?_⟩
  intro hgby
  rw [aggregation_eq X p]
  cases hl : p.GroupByItems with
  | nil =>
    have : p.HasGby = false := by
      cases hb : p.HasGby
      · rfl
      · exact absurd hl (hgby.mp hb)
    simp [this, clauseText, joined]
  | cons e es =>
    have : p.HasGby = true := hgby.mpr (by simp [hl])
    simp [this, clauseText, joined]

/-- C14 (merge join description).  `PhysicalMergeJoin.ExplainInfo` is the
concatenation, in this order, of the join-type label, the clauses `, equal:`,
`, left cond:`, `, right cond:`, `, other cond:`, the clause `default vals:`,
then `desc` when `Desc` is true and `asc` otherwise, then the clauses
`left key:` and `right key:`; a clause is its label followed by the items
joined with `", "` when its list is non-empty and nothing otherwise; a join
with no condition, no default value, no key and `Desc` false yields the label
followed directly by `asc`. -/
theorem merge_join_explainInfo (X : Externals) (p : PhysicalMergeJoin X) :
    PhysicalMergeJoin.ExplainInfo X p
      = X.JoinTypeString p.JoinType
          ++ clauseText X.ExplainInfo ", equal:" p.EqualConditions
          ++ clauseText X.ExplainInfo ", left cond:" p.LeftConditions
          ++ clauseText X.ExplainInfo ", right cond:" p.RightConditions
          ++ clauseText X.ExplainInfo ", other cond:" p.OtherConditions
          ++ clauseText (defaultValueText X) "default vals:" p.DefaultValues
          ++ (if p.Desc then "desc" else "asc")
          ++ clauseText X.ExplainInfo "left key:" p.leftKeys
          ++ clauseText X.ExplainInfo "right key:" p.rightKeys ∧
    (∀ (ε : Type) (f : ε → String) (label : String), clauseText f label [] = "") ∧
    (∀ (ε : Type) (f : ε → String) (label : String) (e : ε) (es : List ε),
      clauseText f label (e :: es) = label ++ ", ".intercalate ((e :: es).map f)) ∧
    (∀ jt : X.JoinType,
      PhysicalMergeJoin.ExplainInfo X ⟨jt, [], [], [], [], [], false, [], []⟩
        = X.JoinTypeString jt ++ "asc") ∧
    PhysicalMergeJoin.ExplainInfo textExternals
        ⟨"left outer join", ["eq(a, b)"], [], [], ["gt(a, 1)", "lt(b, 2)"], [("1", none)],
          true, ["a"], ["b"]⟩
      = "left outer join, equal:eq(a, b), other cond:gt(a, 1), lt(b, 2)default vals:1desc"
          ++ "left key:aright key:b" := by
  refine ⟨mergeJoin_eq X p, fun _ _ _ => rfl, fun _ _ _ _ _ => rfl, ?_, by decide⟩
  intro jt
  rw [mergeJoin_eq]
  simp [clauseText]

/-- C15 (default-value rendering fallback).  `PhysicalMergeJoin.ExplainInfo`
is a total function of the node, also when `ToString` fails for some default
values.  The text of the i-th item of the `default vals:` clause is the text
of `ToString` when it succeeds and the message of the error when it fails;
the clause has one item for every value, joined with `", "`; the text before
and after the clause does not depend on the default values, and the output is
the same as for values that render to the same texts without a failure. -/
theorem default_value_fallback (X : Externals) (p : PhysicalMergeJoin X) :
    (∀ v, (X.ToString v).2 = none → defaultValueText X v = (X.ToString v).1) ∧
    (∀ v err, (X.ToString v).2 = some err → defaultValueText X v = err) ∧
    (∃ before after : String, ∀ vals : List X.Datum,
      PhysicalMergeJoin.ExplainInfo X { p with DefaultValues := vals }
        = before ++ clauseText (defaultValueText X) "default vals:" vals ++ after) ∧
    (∀ (v : X.Datum) (vals : List X.Datum),
      clauseText (defaultValueText X) "default vals:" (v :: vals)
        = "default vals:" ++ ", ".intercalate ((v :: vals).map (defaultValueText X)) ∧
      ((v :: vals).map (defaultValueText X)).length = (v :: vals).length) ∧
    (∀ vals vals' : List X.Datum,
      vals.map (defaultValueText X) = vals'.map (defaultValueText X) →
      PhysicalMergeJoin.ExplainInfo X { p with DefaultValues := vals }
        = PhysicalMergeJoin.ExplainInfo X { p with DefaultValues := vals' }) ∧
    PhysicalMergeJoin.ExplainInfo textExternals
        ⟨"inner join", [], [], [], [], [("1", none), ("", some "bad datum"), ("3", none)],
          false, ["a"], []⟩
      = "inner joindefault vals:1, bad datum, 3ascleft key:a" := by
  refine ⟨?_, ?_, ?_, ?_, ?_, by decide⟩
  · intro v hv
    simp [defaultValueText, hv]
  · intro v err hv
    simp [defaultValueText, hv]
  · refine ⟨X.JoinTypeString p.JoinType
        ++ clauseText X.ExplainInfo ", equal:" p.EqualConditions
        ++ clauseText X.ExplainInfo ", left cond:" p.LeftConditions
        ++ clauseText X.ExplainInfo ", right cond:" p.RightConditions
        ++ clauseText X.ExplainInfo ", other cond:" p.OtherConditions,
      (if p.Desc then "desc" else "asc")
        ++ clauseText X.ExplainInfo "left key:" p.leftKeys
        ++ clauseText X.ExplainInfo "right key:" p.rightKeys, ?_⟩
    intro vals
    rw [mergeJoin_eq]
    simp only [String.append_assoc]
  · intro v vals
    exact ⟨rfl, by simp⟩
  · intro vals vals' hv
    rw [mergeJoin_eq, mergeJoin_eq]
    have : clauseText (defaultValueText X) "default vals:" vals
        = clauseText (defaultValueText X) "default vals:" vals' := by
      cases vals with
      | nil =>
        cases vals' with
        | nil => rfl
        | cons b bs => simp at hv
      | cons a as =>
        cases vals' with
        | nil => simp at hv
        | cons b bs =>
          simp only [clauseText, joined]
          rw [hv]
    simp only [this]

/-- C16 (hash semi-join description).  For a `PhysicalHashSemiJoin` whose
`rightChOffset` is a valid index into `Children()`, `ExplainInfo` returns
`right:<id of that child>`, then `, aux` exactly when `WithAux` is true, then
`, anti` exactly when `Anti` is true, then the clauses `, equal:`,
`, left cond:`, `, right cond:`, `, other cond:` in that order, each present
exactly when its list is non-empty, with the items joined by `", "`. -/
theorem hash_semi_join_explainInfo (X : Externals) (h : Heap) (p : PhysicalHashSemiJoin X)
    (c : Nat) (id : String) (hindex : 0 ≤ p.rightChOffset)
    (hchild : p.Children[p.rightChOffset.toNat]? = some c) (hid : idOf h c = some id) :
    PhysicalHashSemiJoin.ExplainInfo X h p
      = some ("right:" ++ id
          ++ (if p.WithAux then ", aux" else "")
          ++ (if p.Anti then ", anti" else "")
          ++ clauseText X.ExplainInfo ", equal:" p.EqualConditions
          ++ clauseText X.ExplainInfo ", left cond:" p.LeftConditions
          ++ clauseText X.ExplainInfo ", right cond:" p.RightConditions
          ++ clauseText X.ExplainInfo ", other cond:" p.OtherConditions) ∧
    (∀ (label : String), clauseText X.ExplainInfo label [] = "") ∧
    (∀ (label : String) (e : X.Expression) (es : List X.Expression),
      clauseText X.ExplainInfo label (e :: es)
        = label ++ ", ".intercalate ((e :: es).map X.ExplainInfo)) := by
  refine ⟨?_, fun _ => rfl, fun _ _ _ => rfl⟩
  have hc : childID h p.Children p.rightChOffset = some id := by
    unfold childID
    simp [Int.not_lt.mpr hindex, hchild, hid]
  rw [hashSemiJoin_eq, hc]
  rfl

/-- Witness of C16: a semi-join of two nodes of the reader plan, with the
auxiliary column and negated. -/
theorem hash_semi_join_explainInfo_witness :
    PhysicalHashSemiJoin.ExplainInfo textExternals readerPlan
        ⟨[1, 2], 1, true, true, ["e"], [], ["r1", "r2"], []⟩
      = some ("right:" ++ "IdxScan" ++ ", aux" ++ ", anti"
          ++ clauseText (fun s : String => s) ", equal:" ["e"]
          ++ clauseText (fun s : String => s) ", left cond:" []
          ++ clauseText (fun s : String => s) ", right cond:" ["r1", "r2"]
          ++ clauseText (fun s : String => s) ", other cond:" []) ∧
    PhysicalHashSemiJoin.ExplainInfo textExternals readerPlan
        ⟨[1, 2], 1, true, true, ["e"], [], ["r1", "r2"], []⟩
      = some "right:IdxScan, aux, anti, equal:e, right cond:r1, r2" :=
  ⟨(hash_semi_join_explainInfo textExternals readerPlan
      ⟨[1, 2], 1, true, true, ["e"], [], ["r1", "r2"], []⟩ 2 "IdxScan"
      (by decide) (by decide) (by decide)).1,
    by decide⟩

/-- C17 (index join description).  For a `PhysicalIndexJoin` whose
`outerIndex` is a valid index into `Children()`, `ExplainInfo` returns
`outer:<id of that child>` followed by the clauses `, outer key:`,
`, inner key:`, `, left cond:`, `, right cond:`, `, other cond:` in that fixed
order, each present if and only if its list is non-empty, with the items joined
by `", "`; with all five lists empty the output is exactly `outer:<id>`. -/
theorem index_join_explainInfo (X : Externals) (h : Heap) (p : PhysicalIndexJoin X)
    (c : Nat) (id : String) (hindex : 0 ≤ p.outerIndex)
    (hchild : p.Children[p.outerIndex.toNat]? = some c) (hid : idOf h c = some id) :
    PhysicalIndexJoin.ExplainInfo X h p
      = some ("outer:" ++ id
          ++ clauseText X.ExplainInfo ", outer key:" p.OuterJoinKeys
          ++ clauseText X.ExplainInfo ", inner key:" p.InnerJoinKeys
          ++ clauseText X.ExplainInfo ", left cond:" p.LeftConditions
          ++ clauseText X.ExplainInfo ", right cond:" p.RightConditions
          ++ clauseText X.ExplainInfo ", other cond:" p.OtherConditions) ∧
    (∀ (label : String), clauseText X.ExplainInfo label [] = "") ∧
    (∀ (label : String) (e : X.Expression) (es : List X.Expression),
      clauseText X.ExplainInfo label (e :: es)
        = label ++ ", ".intercalate ((e :: es).map X.ExplainInfo)) ∧
    PhysicalIndexJoin.ExplainInfo X h ⟨p.Children, p.outerIndex, [], [], [], [], []⟩
      = some ("outer:" ++ id) := by
  have hc : childID h p.Children p.outerIndex = some id := by
    unfold childID
    simp [Int.not_lt.mpr hindex, hchild, hid]
  refine ⟨?_, fun _ => rfl, fun _ _ _ => rfl, ?_⟩
  · rw [indexJoin_eq, hc]
    rfl
  · rw [indexJoin_eq, hc]
    simp [clauseText]

/-- Witness of C17: an index join of two nodes of the reader plan with inner
keys and two other conditions. -/
theorem index_join_explainInfo_witness :
    PhysicalIndexJoin.ExplainInfo textExternals readerPlan
        ⟨[1, 2], 1, [], ["k"], [], [], ["c1", "c2"]⟩
      = some "outer:IdxScan, inner key:k, other cond:c1, c2" ∧
    PhysicalIndexJoin.ExplainInfo textExternals readerPlan ⟨[1, 2], 1, [], [], [], [], []⟩
      = some ("outer:" ++ "IdxScan") :=
  ⟨by decide,
    (index_join_explainInfo textExternals readerPlan
      ⟨[1, 2], 1, [], ["k"], [], [], ["c1", "c2"]⟩ 2 "IdxScan"
      (by decide) (by decide) (by decide)).2.2.2⟩

/-- C18 (limit description).  `Limit.ExplainInfo` is `offset:` followed by
the decimal rendering of `Offset`, then `, count:` followed by the decimal
rendering of `Count`; offset 10 and count 20 give `"offset:10, count:20"`. -/
theorem limit_explainInfo (p : Limit) :
    Limit.ExplainInfo p = "offset:" ++ Nat.repr p.Offset ++ ", count:" ++ Nat.repr p.Count ∧
    Limit.ExplainInfo ⟨10, 20⟩ = "offset:10, count:20" ∧
    Limit.ExplainInfo ⟨0, 18446744073709551615⟩ = "offset:0, count:18446744073709551615" := by
  refine ⟨?_, by decide, by decide⟩
  unfold Limit.ExplainInfo
  rw [sprintf_offset_count]
  rfl

/-! ## Elided categories -/

theorem clauseText_append_clausesText {ε : Type} (f : ε → String) (label : String)
    (l : List ε) (cats : List (String × List String)) :
    clauseText f label l ++ clausesText cats = clausesText ((label, l.map f) :: cats) := by
  cases l with
  | nil => simp [clauseText, clausesText]
  | cons e es => simp [clauseText, clausesText, joined]

theorem clauseText_eq_clausesText {ε : Type} (f : ε → String) (label : String) (l : List ε) :
    clauseText f label l = clausesText [(label, l.map f)] := by
  rw [← clauseText_append_clausesText]
  simp [clausesText]

/-- C12 as stated fails for the aggregation: with an empty `AggFuncs` the
label `funcs:` is written all the same, and with `HasGby` set and an empty
`GroupByItems` the label `group by:` is written.  In a join the label of an
empty category is not written, but its text can still occur in the output
inside the description of an expression of another category: a merge join
with no equal condition and the other condition `eq(a, equal:)`. -/
theorem no_empty_label_counterexample :
    PhysicalAggregation.ExplainInfo textExternals ⟨false, "hash", [], []⟩
      = "type:hash, funcs:" ∧
    Occurs "funcs:" (PhysicalAggregation.ExplainInfo textExternals ⟨false, "hash", [], []⟩) ∧
    PhysicalAggregation.ExplainInfo textExternals ⟨true, "hash", ["sum(a)"], []⟩
      = "type:hash, group by:, funcs:sum(a)" ∧
    Occurs "group by:"
      (PhysicalAggregation.ExplainInfo textExternals ⟨true, "hash", ["sum(a)"], []⟩) ∧
    PhysicalMergeJoin.ExplainInfo textExternals
        ⟨"inner join", [], [], [], ["eq(a, equal:)"], [], false, [], []⟩
      = "inner join, other cond:eq(a, equal:)asc" ∧
    Occurs "equal:" (PhysicalMergeJoin.ExplainInfo textExternals
        ⟨"inner join", [], [], [], ["eq(a, equal:)"], [], false, [], []⟩) := by
  decide

/-- C12, amended (no empty label fragments in the joins).  For the index join,
the hash join, the hash semi-join and the merge join a category whose list is
empty is elided: `ExplainInfo` is the head followed by the clauses of the
categories with a non-empty list only (`clausesText` skips a category whose
list is empty), so nothing is written for an empty category, neither its label
nor a separator.  The aggregation writes `, funcs:` also for an empty
`AggFuncs` and `, group by:` whenever `HasGby` is set. -/
theorem no_empty_label (X : Externals) (h : Heap) :
    (∀ p : PhysicalIndexJoin X,
      PhysicalIndexJoin.ExplainInfo X h p
        = (childID h p.Children p.outerIndex).map fun id =>
            "outer:" ++ id ++ clausesText
              [(", outer key:", p.OuterJoinKeys.map X.ExplainInfo),
               (", inner key:", p.InnerJoinKeys.map X.ExplainInfo),
               (", left cond:", p.LeftConditions.map X.ExplainInfo),
               (", right cond:", p.RightConditions.map X.ExplainInfo),
               (", other cond:", p.OtherConditions.map X.ExplainInfo)]) ∧
    (∀ p : PhysicalHashJoin X,
      PhysicalHashJoin.ExplainInfo X h p
        = (childID h p.Children p.SmallTable).map fun id =>
            X.JoinTypeString p.JoinType ++ ", small:" ++ id ++ clausesText
              [(", equal:", p.EqualConditions.map X.ExplainInfo),
               (", left cond:", p.LeftConditions.map X.ExplainInfo),
               (", right cond:", p.RightConditions.map X.ExplainInfo),
               (", other cond:", p.OtherConditions.map X.ExplainInfo)]) ∧
    (∀ p : PhysicalHashSemiJoin X,
      PhysicalHashSemiJoin.ExplainInfo X h p
        = (childID h p.Children p.rightChOffset).map fun id =>
            "right:" ++ id ++ (if p.WithAux then ", aux" else "")
              ++ (if p.Anti then ", anti" else "") ++ clausesText
              [(", equal:", p.EqualConditions.map X.ExplainInfo),
               (", left cond:", p.LeftConditions.map X.ExplainInfo),
               (", right cond:", p.RightConditions.map X.ExplainInfo),
               (", other cond:", p.OtherConditions.map X.ExplainInfo)]) ∧
    (∀ p : PhysicalMergeJoin X,
      PhysicalMergeJoin.ExplainInfo X p
        = X.JoinTypeString p.JoinType ++ clausesText
            [(", equal:", p.EqualConditions.map X.ExplainInfo),
             (", left cond:", p.LeftConditions.map X.ExplainInfo),
             (", right cond:", p.RightConditions.map X.ExplainInfo),
             (", other cond:", p.OtherConditions.map X.ExplainInfo),
             ("default vals:", p.DefaultValues.map (defaultValueText X))]
          ++ (if p.Desc then "desc" else "asc") ++ clausesText
            [("left key:", p.leftKeys.map X.ExplainInfo),
             ("right key:", p.rightKeys.map X.ExplainInfo)]) ∧
    (∀ (label : String) (cats : List (String × List String)),
      clausesText ((label, []) :: cats) = clausesText cats) ∧
    (∀ (label d : String) (ds : List String) (cats : List (String × List String)),
      clausesText ((label, d :: ds) :: cats)
        = label ++ ", ".intercalate (d :: ds) ++ clausesText cats) ∧
    clausesText [] = "" ∧
    (∀ p : PhysicalAggregation X, p.AggFuncs = [] →
      PhysicalAggregation.ExplainInfo X p
        = "type:" ++ X.AggTypeString p.AggType
            ++ (if p.HasGby then
                  ", group by:" ++ ", ".intercalate (p.GroupByItems.map X.ExplainInfo)
                else "")
            ++ ", funcs:") ∧
    (∀ p : PhysicalAggregation X, p.HasGby = true → p.GroupByItems = [] →
      PhysicalAggregation.ExplainInfo X p
        = "type:" ++ X.AggTypeString p.AggType ++ ", group by:" ++ ", funcs:"
            ++ ", ".intercalate (p.AggFuncs.map X.ExplainAggFunc)) := by
  refine ⟨?_, ?_, ?_, ?_, fun _ _ => rfl, fun _ _ _ _ => rfl, rfl, ?_, ?_⟩
  · intro p
    rw [indexJoin_eq]
    congr 1
    funext id
    simp only [String.append_assoc, clauseText_append_clausesText, clauseText_eq_clausesText
      X.ExplainInfo ", other cond:"]
  · intro p
    rw [hashJoin_eq]
    congr 1
    funext id
    simp only [String.append_assoc, clauseText_append_clausesText, clauseText_eq_clausesText
      X.ExplainInfo ", other cond:"]
  · intro p
    rw [hashSemiJoin_eq]
    congr 1
    funext id
    simp only [String.append_assoc, clauseText_append_clausesText, clauseText_eq_clausesText
      X.ExplainInfo ", other cond:"]
  · intro p
    rw [mergeJoin_eq]
    simp only [String.append_assoc, clauseText_append_clausesText, clauseText_eq_clausesText
      X.ExplainInfo "right key:", clauseText_eq_clausesText (defaultValueText X)]
  · intro p hp
    have e : ", ".intercalate ([] : List String) = "" := rfl
    rw [aggregation_eq, hp]
    simp only [joined, List.map_nil, e, String.append_empty]
  · intro p hg hl
    have e : ", ".intercalate ([] : List String) = "" := rfl
    rw [aggregation_eq, hg, hl]
    simp only [joined, List.map_nil, e, String.append_empty, if_true]

/-! ## No trailing separator -/

theorem endsWithSeparator_iff (s : String) :
    EndsWithSeparator s ↔ ∃ t, s.data.reverse = ' ' :: ',' :: t := by
  unfold EndsWithSeparator
  have hsep : ", ".data = [',', ' '] := rfl
  rw [hsep]
  constructor
  · rintro ⟨t, ht⟩
    exact ⟨t.reverse, by rw [← ht]; simp⟩
  · rintro ⟨t, ht⟩
    refine ⟨t.reverse, ?_⟩
    have := congrArg List.reverse ht
    simp at this
    rw [this]

theorem not_ends_of_last {s : String} {c : Char} (hs : s.data.getLast? = some c)
    (hc : c ≠ ' ') : ¬ EndsWithSeparator s := by
  rw [endsWithSeparator_iff]
  rintro ⟨t, ht⟩
  rw [List.getLast?_eq_head?_reverse, ht] at hs
  simp at hs
  exact hc hs.symm

theorem not_ends_append {a d : String} (hd : d ≠ "") (hnd : ¬ EndsWithSeparator d)
    (ha : a.data.getLast? ≠ some ',') : ¬ EndsWithSeparator (a ++ d) := by
  rw [endsWithSeparator_iff] at hnd ⊢
  rintro ⟨t, ht⟩
  rw [String.data_append, List.reverse_append] at ht
  cases hr : d.data.reverse with
  | nil =>
    apply hd
    apply String.ext
    have := congrArg List.reverse hr
    simpa using this
  | cons x rest =>
    rw [hr] at ht
    cases rest with
    | nil =>
      simp at ht
      apply ha
      rw [List.getLast?_eq_head?_reverse, ht.2]
      simp
    | cons y rest' =>
      simp at ht
      apply hnd
      exact ⟨rest', by rw [hr, ht.1, ht.2.1]⟩

theorem last_append_of_last {a b : String} {c : Char} (hb : b.data.getLast? = some c) :
    (a ++ b).data.getLast? = some c := by
  rw [String.data_append, List.getLast?_append, hb]
  rfl

theorem joined_not_ends {ε : Type} (f : ε → String) :
    ∀ (l : List ε), l ≠ [] → SafeTexts f l → ∀ a : String, a.data.getLast? ≠ some ',' →
      ¬ EndsWithSeparator (a ++ joined f l) := by
  intro l
  induction l with
  | nil => intro hl; exact absurd rfl hl
  | cons e es ih =>
    intro _ hsafe a ha
    have he := hsafe e (List.mem_cons_self _ _)
    cases es with
    | nil =>
      rw [joined_singleton]
      exact not_ends_append he.1 he.2 ha
    | cons e2 es' =>
      rw [joined_cons_cons, ← String.append_assoc, ← String.append_assoc]
      apply ih (by simp) (fun x hx => hsafe x (List.mem_cons_of_mem _ hx))
      rw [last_append_of_last (by rfl : ", ".data.getLast? = some ' ')]
      simp

theorem clauseText_not_ends {ε : Type} (f : ε → String) (label : String) (l : List ε)
    (hlabel : label.data.getLast? = some ':') (hsafe : SafeTexts f l) (buffer : String)
    (hb : ¬ EndsWithSeparator buffer) :
    ¬ EndsWithSeparator (buffer ++ clauseText f label l) := by
  cases l with
  | nil => simpa [clauseText] using hb
  | cons e es =>
    simp only [clauseText]
    rw [← String.append_assoc]
    apply joined_not_ends f (e :: es) (by simp) hsafe
    rw [last_append_of_last hlabel]
    simp

/-- The text `<prefix ending with ':'><id>` does not end with the separator
when the id does not. -/
theorem id_not_ends {a id : String} (ha : a.data.getLast? = some ':')
    (hid : ¬ EndsWithSeparator id) : ¬ EndsWithSeparator (a ++ id) := by
  by_cases he : id = ""
  · subst he
    rw [String.append_empty]
    exact not_ends_of_last ha (by decide)
  · exact not_ends_append he hid (by rw [ha]; simp)

theorem digitChar_ne_space (n : Nat) : Nat.digitChar (n % 10) ≠ ' ' := by
  have h : ∀ k, k < 10 → Nat.digitChar k ≠ ' ' := by decide
  exact h _ (Nat.mod_lt _ (by decide))

theorem toDigitsCore_append (b : Nat) :
    ∀ (f n : Nat) (ds : List Char), ∃ pre, Nat.toDigitsCore b f n ds = pre ++ ds := by
  intro f
  induction f with
  | zero => intro n ds; exact ⟨[], by simp [Nat.toDigitsCore]⟩
  | succ f ih =>
    intro n ds
    simp only [Nat.toDigitsCore]
    split
    · exact ⟨[Nat.digitChar (n % b)], rfl⟩
    · obtain ⟨pre, hpre⟩ := ih (n / b) (Nat.digitChar (n % b) :: ds)
      exact ⟨pre ++ [Nat.digitChar (n % b)], by rw [hpre]; simp⟩

theorem repr_last (n : Nat) : (Nat.repr n).data.getLast? = some (Nat.digitChar (n % 10)) := by
  unfold Nat.repr Nat.toDigits
  simp only [Nat.toDigitsCore, List.asString]
  split
  · rfl
  · obtain ⟨pre, hpre⟩ := toDigitsCore_append 10 n (n / 10) [Nat.digitChar (n % 10)]
    rw [hpre, List.getLast?_append]
    rfl

theorem int_repr_last (i : Int) : ∃ c, (toString i).data.getLast? = some c ∧ c ≠ ' ' := by
  cases i with
  | ofNat m => exact ⟨_, repr_last m, digitChar_ne_space _⟩
  | negSucc m =>
    refine ⟨Nat.digitChar (m.succ % 10), ?_, digitChar_ne_space _⟩
    show ("-" ++ Nat.repr m.succ).data.getLast? = _
    exact last_append_of_last (repr_last m.succ)

theorem selection_not_ends {ε : Type} (f : ε → String) (l : List ε) (hsafe : SafeTexts f l) :
    ¬ EndsWithSeparator (joined f l) := by
  cases l with
  | nil =>
    rw [joined_nil]
    decide
  | cons e es =>
    have := joined_not_ends f (e :: es) (by simp) hsafe "" (by simp)
    rwa [String.empty_append] at this

theorem exprs_eq_joined {ε : Type} (f : ε → String) (l : List ε) :
    writeExprs f l.length 0 l "" = joined f l := by
  rw [writeExprs_joined, String.empty_append]

theorem sort_eq_joined {ε : Type} (f : ε → String) (items : List (ByItems ε)) :
    Sort.ExplainInfo f items
      = joined (fun it : ByItems ε => f it.Expr ++ (if it.Desc then ":desc" else ":asc"))
          items := by
  unfold Sort.ExplainInfo
  rw [writeByItems_eq f items.length items 0 "" (by simp), String.empty_append]
  rfl

theorem byItems_safe {ε : Type} (f : ε → String) (items : List (ByItems ε)) :
    SafeTexts (fun it : ByItems ε => f it.Expr ++ (if it.Desc then ":desc" else ":asc"))
      items := by
  intro it _
  have hlast : (f it.Expr ++ (if it.Desc then ":desc" else ":asc")).data.getLast? = some 'c' := by
    apply last_append_of_last
    cases it.Desc <;> rfl
  constructor
  · intro he
    have he' : f it.Expr ++ (if it.Desc then ":desc" else ":asc") = "" := he
    rw [he'] at hlast
    simp at hlast
  · exact not_ends_of_last (c := 'c') hlast (by decide)

/-- C13 as stated fails when the id of the designated child ends with
`", "`: the index join of the single node of `oddIdPlan`, with no key and no
condition, is described as `outer:x, `, and the correlated apply ends with the
same id. -/
theorem no_trailing_separator_counterexample :
    PhysicalIndexJoin.ExplainInfo textExternals oddIdPlan ⟨[0], 0, [], [], [], [], []⟩
      = some "outer:x, " ∧
    PhysicalApply.ExplainInfo oddIdPlan ⟨fun _ => some "inner join", [0], 0⟩
      = some "inner join, right:x, " ∧
    EndsWithSeparator "outer:x, " ∧ EndsWithSeparator "inner join, right:x, " := by
  decide

/-- C13, amended (no trailing separator).  The output of `ExplainInfo` does
not end with `", "` for `Selection`, `Projection`, `TableDual`, `Sort`,
`Limit`, `PhysicalAggregation`, `PhysicalApply`, `PhysicalIndexJoin`,
`PhysicalHashJoin`, `PhysicalHashSemiJoin` and `PhysicalMergeJoin`, when every
description written from a list is a non-empty string that does not end with
`", "`, the child index is in range, and the id of the designated child does
not end with `", "`. -/
theorem no_trailing_separator (X : Externals) (h : Heap) :
    (∀ conds : List X.Expression, SafeTexts X.ExplainInfo conds →
      ¬ EndsWithSeparator (Selection.ExplainInfo X.ExplainInfo conds)) ∧
    (∀ exprs : List X.Expression, SafeTexts X.ExplainInfo exprs →
      ¬ EndsWithSeparator (Projection.ExplainInfo X.ExplainInfo exprs)) ∧
    (∀ p : TableDual, ¬ EndsWithSeparator (TableDual.ExplainInfo p)) ∧
    (∀ items : List (ByItems X.Expression),
      ¬ EndsWithSeparator (Sort.ExplainInfo X.ExplainInfo items)) ∧
    (∀ p : Limit, ¬ EndsWithSeparator (Limit.ExplainInfo p)) ∧
    (∀ p : PhysicalAggregation X, SafeTexts X.ExplainAggFunc p.AggFuncs →
      ¬ EndsWithSeparator (PhysicalAggregation.ExplainInfo X p)) ∧
    (∀ (p : PhysicalApply) (join id : String), p.PhysicalJoin h = some join →
      childID h p.Children p.rightChOffset = some id → ¬ EndsWithSeparator id →
      ∃ out, PhysicalApply.ExplainInfo h p = some out ∧ ¬ EndsWithSeparator out) ∧
    (∀ (p : PhysicalIndexJoin X) (id : String),
      childID h p.Children p.outerIndex = some id → ¬ EndsWithSeparator id →
      SafeTexts X.ExplainInfo p.OuterJoinKeys → SafeTexts X.ExplainInfo p.InnerJoinKeys →
      SafeTexts X.ExplainInfo p.LeftConditions → SafeTexts X.ExplainInfo p.RightConditions →
      SafeTexts X.ExplainInfo p.OtherConditions →
      ∃ out, PhysicalIndexJoin.ExplainInfo X h p = some out ∧ ¬ EndsWithSeparator out) ∧
    (∀ (p : PhysicalHashJoin X) (id : String),
      childID h p.Children p.SmallTable = some id → ¬ EndsWithSeparator id →
      SafeTexts X.ExplainInfo p.EqualConditions →
      SafeTexts X.ExplainInfo p.LeftConditions → SafeTexts X.ExplainInfo p.RightConditions →
      SafeTexts X.ExplainInfo p.OtherConditions →
      ∃ out, PhysicalHashJoin.ExplainInfo X h p = some out ∧ ¬ EndsWithSeparator out) ∧
    (∀ (p : PhysicalHashSemiJoin X) (id : String),
      childID h p.Children p.rightChOffset = some id → ¬ EndsWithSeparator id →
      SafeTexts X.ExplainInfo p.EqualConditions →
      SafeTexts X.ExplainInfo p.LeftConditions → SafeTexts X.ExplainInfo p.RightConditions →
      SafeTexts X.ExplainInfo p.OtherConditions →
      ∃ out, PhysicalHashSemiJoin.ExplainInfo X h p = some out ∧ ¬ EndsWithSeparator out) ∧
    (∀ p : PhysicalMergeJoin X,
      SafeTexts X.ExplainInfo p.leftKeys → SafeTexts X.ExplainInfo p.rightKeys →
      ¬ EndsWithSeparator (PhysicalMergeJoin.ExplainInfo X p)) := by
  have hcolon : ∀ a b : String, b.data.getLast? = some ':' →
      (a ++ b).data.getLast? = some ':' := fun a b hb => last_append_of_last hb
  refine ⟨?_, ?_, ?_, ?_, ?_, ?_, ?_, ?_, ?_, ?_, ?_⟩
  · intro conds hs
    unfold Selection.ExplainInfo
    rw [exprs_eq_joined]
    exact selection_not_ends _ _ hs
  · intro exprs hs
    unfold Projection.ExplainInfo
    rw [exprs_eq_joined]
    exact selection_not_ends _ _ hs
  · intro p
    unfold TableDual.ExplainInfo
    rw [sprintf_rows]
    obtain ⟨c, hc, hne⟩ := int_repr_last p.RowCount
    exact not_ends_of_last (last_append_of_last hc) hne
  · intro items
    rw [sort_eq_joined]
    exact selection_not_ends _ _ (byItems_safe _ _)
  · intro p
    unfold Limit.ExplainInfo
    rw [sprintf_offset_count]
    exact not_ends_of_last (last_append_of_last (repr_last p.Count)) (digitChar_ne_space _)
  · intro p hs
    rw [aggregation_eq]
    cases hl : p.AggFuncs with
    | nil =>
      rw [joined_nil, String.append_empty]
      exact not_ends_of_last (hcolon _ ", funcs:" rfl) (by decide)
    | cons e es =>
      rw [← hl]
      apply joined_not_ends _ _ (by simp [hl]) hs
      rw [hcolon _ ", funcs:" rfl]
      simp
  · intro p join id hj hid hne
    refine ⟨join ++ ", right:" ++ id, ?_, ?_⟩
    · rw [apply_eq, hj, Option.some_bind, hid]
      rfl
    · exact id_not_ends (hcolon _ ", right:" rfl) hne
  · intro p id hid hne h1 h2 h3 h4 h5
    refine ⟨_, by rw [indexJoin_eq, hid]; rfl, ?_⟩
    apply clauseText_not_ends _ ", other cond:" _ rfl h5
    apply clauseText_not_ends _ ", right cond:" _ rfl h4
    apply clauseText_not_ends _ ", left cond:" _ rfl h3
    apply clauseText_not_ends _ ", inner key:" _ rfl h2
    apply clauseText_not_ends _ ", outer key:" _ rfl h1
    exact id_not_ends rfl hne
  · intro p id hid hne h1 h2 h3 h4
    refine ⟨_, by rw [hashJoin_eq, hid]; rfl, ?_⟩
    apply clauseText_not_ends _ ", other cond:" _ rfl h4
    apply clauseText_not_ends _ ", right cond:" _ rfl h3
    apply clauseText_not_ends _ ", left cond:" _ rfl h2
    apply clauseText_not_ends _ ", equal:" _ rfl h1
    exact id_not_ends (hcolon _ ", small:" rfl) hne
  · intro p id hid hne h1 h2 h3 h4
    refine ⟨_, by rw [hashSemiJoin_eq, hid]; rfl, ?_⟩
    apply clauseText_not_ends _ ", other cond:" _ rfl h4
    apply clauseText_not_ends _ ", right cond:" _ rfl h3
    apply clauseText_not_ends _ ", left cond:" _ rfl h2
    apply clauseText_not_ends _ ", equal:" _ rfl h1
    have h0 : ¬ EndsWithSeparator ("right:" ++ id) := id_not_ends rfl hne
    cases p.WithAux <;> cases p.Anti
    · simpa using h0
    · exact not_ends_of_last (c := 'i') (last_append_of_last rfl) (by decide)
    · simp only [if_true, Bool.false_eq_true, if_false, String.append_empty]
      exact not_ends_of_last (c := 'x') (last_append_of_last rfl) (by decide)
    · exact not_ends_of_last (c := 'i') (last_append_of_last rfl) (by decide)
  · intro p h1 h2
    rw [mergeJoin_eq]
    apply clauseText_not_ends _ "right key:" _ rfl h2
    apply clauseText_not_ends _ "left key:" _ rfl h1
    cases p.Desc
    · exact not_ends_of_last (c := 'c') (last_append_of_last rfl) (by decide)
    · exact not_ends_of_last (c := 'c') (last_append_of_last rfl) (by decide)

/-! ## The two loops of a run -/

theorem firstLoop_run {h h1 : Heap} {fuel root : Nat} {L : List Nat} {M : PlanMark}
    (e : firstLoop (setParents4FinalPlan fuel) fuel h root = some (h1, L, M)) :
    ∃ n os, h[root]? = some n ∧
      pass1Ops (relinkOps fuel h) h fuel [root] (PlanMark.set (fun _ => false) n.id true) 0
        = some (os, L, M) ∧
      runOps os h = some h1 := by
  unfold firstLoop at e
  cases hn : h[root]? with
  | none => rw [hn] at e; simp at e
  | some n =>
    rw [hn] at e
    simp only [Option.some_bind] at e
    rw [pass1_eq (setParents4FinalPlan fuel) (relinkOps fuel h)
      (fun h' r a => setParents4FinalPlan_eq fuel h' r a) fuel h _ _ 0 (SameShape.refl h)] at e
    cases h1e : pass1Ops (relinkOps fuel h) h fuel [root]
        (PlanMark.set (fun _ => false) n.id true) 0 with
    | none => rw [h1e] at e; simp at e
    | some r =>
      obtain ⟨os, L', M'⟩ := r
      rw [h1e] at e
      simp only [Option.some_bind] at e
      cases hr : runOps os h with
      | none => rw [hr] at e; simp at e
      | some h2 =>
        rw [hr] at e
        simp at e
        obtain ⟨rfl, rfl, rfl⟩ := e
        exact ⟨n, os, rfl, h1e, hr⟩

/-- The second loop rebuilds the list of the first loop and makes one call of
`AddParent` for every `Children()` entry of every listed plan. -/
theorem secondLoop_run {h h1 h2 : Heap} {fuel root : Nat} {n : Node} {os : List Op}
    {L L2 : List Nat} {M M2 : PlanMark} (a : SameShape h h1) (hn : h[root]? = some n)
    (e1 : pass1Ops (relinkOps fuel h) h fuel [root]
      (PlanMark.set (fun _ => false) n.id true) 0 = some (os, L, M))
    (e2 : secondLoop fuel h1 root M = some (h2, L2, M2)) :
    L2 = L ∧ runOps (addOps h L) h1 = some h2 := by
  obtain ⟨n1, hn1, hid, _, _⟩ := a.get_some hn
  obtain ⟨m2, hp2⟩ := pass2Ops_of_pass1Ops _ _ _ _ _ _ _ e1
    (M.set n.id false) (initial_mark_inv M _)
  unfold secondLoop at e2
  rw [hn1] at e2
  simp only [Option.some_bind, hid] at e2
  rw [pass2_eq fuel h1 _ _ 0 a, hp2] at e2
  simp only [Option.some_bind, List.drop_zero] at e2
  cases hr : runOps (addOps h L) h1 with
  | none => rw [hr] at e2; simp at e2
  | some h3 =>
    rw [hr] at e2
    simp at e2
    exact ⟨e2.2.1.symm, by rw [e2.1]⟩

theorem run_loops {h h' : Heap} {fuel root : Nat}
    (e : setParents4FinalPlan (fuel + 1) h root = some h') :
    ∃ h1 L M M2 n os, h[root]? = some n ∧
      pass1Ops (relinkOps fuel h) h fuel [root] (PlanMark.set (fun _ => false) n.id true) 0
        = some (os, L, M) ∧
      firstLoop (setParents4FinalPlan fuel) fuel h root = some (h1, L, M) ∧
      SameShape h h1 ∧
      secondLoop fuel h1 root M = some (h', L, M2) ∧
      runOps (addOps h L) h1 = some h' := by
  simp only [setParents4FinalPlan] at e
  cases h1e : firstLoop (setParents4FinalPlan fuel) fuel h root with
  | none => rw [h1e] at e; simp at e
  | some r =>
    obtain ⟨h1, L, M⟩ := r
    rw [h1e] at e
    simp only [Option.some_bind] at e
    cases h2e : secondLoop fuel h1 root M with
    | none => rw [h2e] at e; simp at e
    | some r2 =>
      obtain ⟨h2, L2, M2⟩ := r2
      rw [h2e] at e
      simp at e
      subst e
      obtain ⟨n, os, hn, hp, hrun⟩ := firstLoop_run h1e
      have a : SameShape h h1 := runOps_sameShape hrun
      obtain ⟨rfl, hadd⟩ := secondLoop_run a hn hp h2e
      exact ⟨h1, L2, M, M2, n, os, hn, hp, rfl, a, h2e, hadd⟩

theorem length_addOps (h : Heap) (L : List Nat) :
    (addOps h L).length = (L.map fun p => (childrenAt h p).length).sum := by
  unfold addOps
  rw [List.length_flatMap]
  congr 1
  apply List.map_congr_left
  intro p _
  simp

theorem run_fuel_pos {h h' : Heap} {fuel root : Nat}
    (e : setParents4FinalPlan fuel h root = some h') : ∃ f, fuel = f + 1 := by
  cases fuel with
  | zero => simp [setParents4FinalPlan] at e
  | succ f => exact ⟨f, rfl⟩

/-- C20 (termination, also on cyclic input).  On a finite plan graph without
nil plans whose nesting of embedded sub-plans is well-founded (`rank` does not
increase along a `Children()` edge, which may lie on a cycle, and decreases
into an embedded sub-plan) `setParents4FinalPlan(root)` returns.  In every run
that returns both loops end with the same list `allPlans`, one entry for each
iteration: its ids are pairwise different and belong to nodes reachable from
`root`, so it is no longer than any list that holds the id of every node
reachable from `root`; and the second loop is exactly one call of `AddParent`
for every `Children()` entry of every listed node, in order. -/
theorem relink_terminates (h : Heap) (rank : Nat → Nat) (root : Nat)
    (hclosed : Closed h) (hrank : Ranked h rank) (hroot : root < h.length) :
    (∃ fuel h', setParents4FinalPlan fuel h root = some h') ∧
    ∀ fuel h', setParents4FinalPlan fuel h root = some h' →
      ∃ f h1 L M M2, fuel = f + 1 ∧
        firstLoop (setParents4FinalPlan f) f h root = some (h1, L, M) ∧
        secondLoop f h1 root M = some (h', L, M2) ∧
        (L.map (idOf h)).Nodup ∧
        (∀ p ∈ L, Reach h root p) ∧
        (∀ S : List (Option String), (∀ x, Reach h root x → idOf h x ∈ S) →
          L.length ≤ S.length) ∧
        L.length ≤ h.length ∧
        runOps (addOps h L) h1 = some h' ∧
        (addOps h L).length = (L.map fun p => (childrenAt h p).length).sum ∧
        ∀ c, parentsAt h' c = parentsAt h1 c ++ (addOps h L).filterMap (addedTo c) := by
  refine ⟨⟨_, run_returns hclosed hrank hroot⟩, ?_⟩
  intro fuel h' e
  obtain ⟨f, rfl⟩ := run_fuel_pos e
  obtain ⟨h1, L, M, M2, n, os, hn, hp, hfirst, a, hsecond, hadd⟩ := run_loops e
  obtain ⟨d, _⟩ := pass1Ops_discovered hn hp
  have hbound : ∀ S : List (Option String), (∀ x, Reach h root x → idOf h x ∈ S) →
      L.length ≤ S.length := by
    intro S hS
    have hsub : L.map (idOf h) ⊆ S := by
      intro s hs
      obtain ⟨x, hx, rfl⟩ := List.mem_map.mp hs
      exact hS x (d.reach x hx)
    have := (List.Nodup.subperm d.nodup hsub).length_le
    simpa using this
  refine ⟨f, h1, L, M, M2, rfl, hfirst, hsecond, d.nodup, d.reach, hbound, ?_, hadd,
    length_addOps h L, ?_⟩
  · have hsub : L.map (idOf h) ⊆ h.map fun n => some n.id := by
      intro s hs
      obtain ⟨x, hx, rfl⟩ := List.mem_map.mp hs
      have hxv : x < h.length := d.valid x hx
      exact List.mem_map.mpr ⟨h[x], List.getElem_mem hxv, (idOf_some hxv).symm⟩
    have := (List.Nodup.subperm d.nodup hsub).length_le
    simpa using this
  · intro c
    rw [runOps_parentsAt hadd c, parentsAfter_adds c _ _ (addOps_no_clear h L)]

/-- Witness of C20 on a plan whose `Children()` edges form a cycle (`A` has the
child `B`, `B` has the children `A` and `B`): the run returns, its list is no
longer than the heap and the second loop is one `AddParent` per child entry. -/
theorem relink_terminates_witness :
    (Closed cyclicPlan ∧ Ranked cyclicPlan (fun _ => 0)) ∧
    setParents4FinalPlan 3 cyclicPlan 0 = some cyclicPlanLinked ∧
    ∃ h1 L, (L.map (idOf cyclicPlan)).Nodup ∧ L.length ≤ cyclicPlan.length ∧
      runOps (addOps cyclicPlan L) h1 = some cyclicPlanLinked ∧
      (addOps cyclicPlan L).length = (L.map fun p => (childrenAt cyclicPlan p).length).sum := by
  refine ⟨by decide, by decide, ?_⟩
  obtain ⟨_, h1, L, _, _, _, _, _, hn, _, _, hl, hadd, hlen, _⟩ :=
    (relink_terminates cyclicPlan (fun _ => 0) 0 (by decide) (by decide) (by decide)).2
      3 cyclicPlanLinked (by decide)
  exact ⟨h1, L, hn, hl, hadd, hlen⟩

/-! ## Breadth-first order of the first loop -/

theorem markChildren_sublist {h : Heap} (cs allPlans : List Nat) (planMark : PlanMark)
    (L : List Nat) (M : PlanMark) (e : markChildren h cs allPlans planMark = some (L, M)) :
    ∃ new, L = allPlans ++ new ∧ new.Sublist cs := by
  refine markChildren_induction
    (fun cs allPlans _ L _ => ∃ new, L = allPlans ++ new ∧ new.Sublist cs)
    ?_ ?_ ?_ cs allPlans planMark L M e
  · intro allPlans _; exact ⟨[], by simp, List.Sublist.refl _⟩
  · intro c cs allPlans _ n L _ _ _ _ ih
    obtain ⟨new, h1, h2⟩ := ih
    exact ⟨new, h1, List.Sublist.cons _ h2⟩
  · intro c cs allPlans _ n L _ _ _ _ ih
    obtain ⟨new, h1, h2⟩ := ih
    exact ⟨c :: new, by simp [h1], List.Sublist.cons₂ _ h2⟩

/-- The list of the first loop is the initial list followed by one block for
every plan from index `pID` on, the block of a plan being the children it
discovered, in their `Children()` order. -/
theorem pass1Ops_blocks {self : Nat → Option (List Op)} {h : Heap}
    (fuel : Nat) (allPlans : List Nat) (planMark : PlanMark) (pID : Nat) (os : List Op)
    (L : List Nat) (M : PlanMark)
    (e : pass1Ops self h fuel allPlans planMark pID = some (os, L, M)) :
    ∃ news : List (List Nat), L = allPlans ++ news.flatten ∧
      List.Forall₂ (fun p nw => nw.Sublist (childrenAt h p)) (L.drop pID) news := by
  refine pass1Ops_induction
    (fun _ allPlans _ pID _ L _ => ∃ news : List (List Nat), L = allPlans ++ news.flatten ∧
      List.Forall₂ (fun p nw => nw.Sublist (childrenAt h p)) (L.drop pID) news)
    ?_ ?_ fuel allPlans planMark pID os L M e
  · intro _ allPlans _ pID hnone
    refine ⟨[], by simp, ?_⟩
    have : allPlans.length ≤ pID := List.getElem?_eq_none_iff.mp hnone
    rw [List.drop_of_length_le this]
    exact List.Forall₂.nil
  · intro _ allPlans planMark pID p n _ all1 m1 _ L _ hp hn _ hm _ ih
    obtain ⟨new, h1, hsub⟩ := markChildren_sublist _ _ _ _ _ hm
    obtain ⟨news, h2, hf⟩ := ih
    refine ⟨new :: news, by rw [h2, h1, List.flatten_cons, List.append_assoc], ?_⟩
    have hL : L[pID]? = some p := by
      rw [h2, h1, List.append_assoc]
      rw [List.getElem?_append_left (List.getElem?_eq_some_iff.mp hp).1]
      exact hp
    rw [drop_of_getElem? hL]
    refine List.Forall₂.cons ?_ hf
    rw [childrenAt_of_get hn]
    exact hsub

theorem mem_of_getElem {α : Type} {l : List α} {i : Nat} {a : α} (hi : l[i]? = some a) :
    a ∈ l := by
  obtain ⟨hlt, rfl⟩ := List.getElem?_eq_some_iff.mp hi
  exact List.getElem_mem hlt

theorem levelled_done {h : Heap} {root pID : Nat} {al : List (Nat × Nat)}
    (hl : Levelled h root al pID) (hp : al.length ≤ pID) : LevelledAll h root al :=
  ⟨hl.first, hl.sorted, hl.path, fun q hq => hl.edges q (by rwa [List.take_of_length_le hp])⟩

theorem levelled_step {h : Heap} (hu : UniqueIds h) {root pID p k : Nat}
    {al : List (Nat × Nat)} {new : List Nat} {m1 : PlanMark}
    (hl : Levelled h root al pID) (hpk : al[pID]? = some (p, k))
    (hnew : ∀ c ∈ new, c ∈ childrenAt h p)
    (hlisted : Listed h (al.map Prod.fst ++ new) m1)
    (hmarked : ∀ c ∈ childrenAt h p, ∃ n, h[c]? = some n ∧ m1 n.id = true) :
    Levelled h root (al ++ new.map fun c => (c, k + 1)) (pID + 1) := by
  have hlt : pID < al.length := (List.getElem?_eq_some_iff.mp hpk).1
  have hmem : (p, k) ∈ al := mem_of_getElem hpk
  have hdrop : al.drop pID = (p, k) :: al.drop (pID + 1) := drop_of_getElem? hpk
  have hnear : ∀ x ∈ al, x.2 ≤ k + 1 := fun x hx =>
    hl.near x hx (p, k) (by rw [hdrop]; exact List.mem_cons_self _ _)
  have hk : ∀ q ∈ al.drop (pID + 1), k ≤ q.2 := by
    have hs : (al.drop pID).Pairwise fun a b => a.2 ≤ b.2 :=
      List.Pairwise.sublist (List.drop_sublist _ _) hl.sorted
    rw [hdrop, List.pairwise_cons] at hs
    exact fun q hq => hs.1 q hq
  constructor
  · exact List.mem_append_left _ hl.first
  · rw [List.pairwise_append]
    refine ⟨hl.sorted, ?_, ?_⟩
    · rw [List.pairwise_map]
      exact List.pairwise_of_forall (fun _ _ => le_refl _)
    · intro x hx y hy
      obtain ⟨c, _, rfl⟩ := List.mem_map.mp hy
      exact hnear x hx
  · intro x hx
    rcases List.mem_append.mp hx with hx | hx
    · exact hl.path x hx
    · obtain ⟨c, hc, rfl⟩ := List.mem_map.mp hx
      exact PathLen.step (hl.path (p, k) hmem) (hnew c hc)
  · intro x hx q hq
    have hq' : q ∈ al.drop (pID + 1) ∨ q.2 = k + 1 := by
      rw [List.drop_append_eq_append_drop] at hq
      rcases List.mem_append.mp hq with hq | hq
      · exact Or.inl hq
      · obtain ⟨c, _, rfl⟩ := List.mem_map.mp (List.mem_of_mem_drop hq)
        exact Or.inr rfl
    have hkq : k ≤ q.2 := by
      rcases hq' with hq' | hq'
      · exact hk q hq'
      · omega
    rcases List.mem_append.mp hx with hx | hx
    · have := hnear x hx; omega
    · obtain ⟨c, _, rfl⟩ := List.mem_map.mp hx
      simp only
      omega
  · intro q hq c hc
    rw [List.take_append_of_le_length (by omega), List.take_succ, hpk] at hq
    simp only [Option.toList_some] at hq
    rcases List.mem_append.mp hq with hq | hq
    · obtain ⟨n, hn1, hn2⟩ := hl.edges q hq c hc
      exact ⟨n, List.mem_append_left _ hn1, hn2⟩
    · simp only [List.mem_singleton] at hq
      subst hq
      obtain ⟨n, hn, hmk⟩ := hmarked c hc
      have hcv : c < h.length := (List.getElem?_eq_some_iff.mp hn).1
      have hin : some n.id ∈ (al.map Prod.fst ++ new).map (idOf h) := (hlisted.marks n.id).mp hmk
      obtain ⟨x, hx, hxid⟩ := List.mem_map.mp hin
      have hxc : x = c := idOf_inj hu hcv (by rw [hxid, idOf_of_get hn])
      subst hxc
      rcases List.mem_append.mp hx with hx | hx
      · obtain ⟨y, hy, rfl⟩ := List.mem_map.mp hx
        exact ⟨y.2, List.mem_append_left _ hy, hnear y hy⟩
      · exact ⟨k + 1, List.mem_append_right _ (List.mem_map.mpr ⟨x, hx, rfl⟩), le_refl _⟩

/-- With unique ids the first loop assigns levels: the final list carries
levels that satisfy `LevelledAll`. -/
theorem pass1Ops_levelled {self : Nat → Option (List Op)} {h : Heap} (hu : UniqueIds h)
    (root : Nat) (fuel : Nat) (allPlans : List Nat) (planMark : PlanMark) (pID : Nat)
    (os : List Op) (L : List Nat) (M : PlanMark)
    (e : pass1Ops self h fuel allPlans planMark pID = some (os, L, M)) :
    ∀ al : List (Nat × Nat), al.map Prod.fst = allPlans → Listed h allPlans planMark →
      Levelled h root al pID → ∃ al', al'.map Prod.fst = L ∧ LevelledAll h root al' := by
  refine pass1Ops_induction
    (fun _ allPlans planMark pID _ L _ => ∀ al : List (Nat × Nat),
      al.map Prod.fst = allPlans → Listed h allPlans planMark →
      Levelled h root al pID → ∃ al', al'.map Prod.fst = L ∧ LevelledAll h root al')
    ?_ ?_ fuel allPlans planMark pID os L M e
  · intro _ allPlans _ pID hnone al hal _ hl
    refine ⟨al, hal, levelled_done hl ?_⟩
    have : allPlans.length ≤ pID := List.getElem?_eq_none_iff.mp hnone
    rw [← hal] at this
    simpa using this
  · intro _ allPlans planMark pID p n _ all1 m1 _ L _ hp hn _ hm _ ih al hal hlisted hl
    obtain ⟨new, h1, hnew⟩ := markChildren_append _ _ _ _ _ hm
    have hq : ∃ k, al[pID]? = some (p, k) := by
      rw [← hal, List.getElem?_map] at hp
      cases hq : al[pID]? with
      | none => rw [hq] at hp; simp at hp
      | some q =>
        rw [hq] at hp
        simp at hp
        exact ⟨q.2, by rw [← hp]⟩
    obtain ⟨k, hq⟩ := hq
    have hl1 : Listed h all1 m1 := markChildren_listed _ _ _ _ _ hm hlisted
    have hch : childrenAt h p = n.children := childrenAt_of_get hn
    apply ih (al ++ new.map fun c => (c, k + 1))
    · rw [h1, ← hal]; simp [Function.comp_def]
    · exact hl1
    · apply levelled_step hu hl hq
      · intro c hc; rw [hch]; exact hnew c hc
      · rw [hal, ← h1]; exact hl1
      · rw [hch]; exact markChildren_marked _ _ _ _ _ hm

theorem levelledAll_complete {h : Heap} {root : Nat} {al : List (Nat × Nat)}
    (hl : LevelledAll h root al) {x n : Nat} (hp : PathLen h root x n) :
    ∃ k, (x, k) ∈ al ∧ k ≤ n := by
  induction hp with
  | zero => exact ⟨0, hl.first, le_refl _⟩
  | step _ hc ih =>
    obtain ⟨k, hk, hkn⟩ := ih
    obtain ⟨m, hm, hmk⟩ := hl.edges _ hk _ hc
    exact ⟨m, hm, by omega⟩

theorem levelledAll_dist {h : Heap} {root : Nat} {al : List (Nat × Nat)}
    (hl : LevelledAll h root al) (hnd : (al.map Prod.fst).Nodup) {x : Nat × Nat}
    (hx : x ∈ al) : IsDist h root x.1 x.2 := by
  refine ⟨hl.path x hx, ?_⟩
  intro n hn
  obtain ⟨k, hk, hkn⟩ := levelledAll_complete hl hn
  have : (x.1, k) = x := List.inj_on_of_nodup_map hnd hk hx rfl
  have : k = x.2 := by rw [← this]
  omega

theorem isDist_unique {h : Heap} {root x d e : Nat} (hd : IsDist h root x d)
    (he : IsDist h root x e) : d = e :=
  le_antisymm (hd.2 e he.1) (he.2 d hd.1)

theorem nodup_of_nodup_map_idOf {h : Heap} {L : List Nat} (hn : (L.map (idOf h)).Nodup) :
    L.Nodup :=
  List.Nodup.of_map _ hn

/-- The breadth-first order of the list of the first loop. -/
theorem pass1Ops_bfs {self : Nat → Option (List Op)} {h : Heap} (hu : UniqueIds h)
    {fuel root : Nat} {n : Node} {os : List Op} {L : List Nat} {M : PlanMark}
    (hn : h[root]? = some n)
    (e : pass1Ops self h fuel [root] (PlanMark.set (fun _ => false) n.id true) 0
      = some (os, L, M)) :
    (∀ a ∈ L, ∃ d, IsDist h root a d) ∧
    ∀ i j a b da db : Nat, i ≤ j → L[i]? = some a → L[j]? = some b →
      IsDist h root a da → IsDist h root b db → da ≤ db := by
  obtain ⟨d, _⟩ := pass1Ops_discovered hn e
  have hid : idOf h root = some n.id := idOf_of_get hn
  have hl0 : Listed h [root] (PlanMark.set (fun _ => false) n.id true) := by
    constructor
    · intro p hp; simp at hp; subst hp
      exact (List.getElem?_eq_some_iff.mp hn).1
    · simp
    · intro s
      by_cases hs : s = n.id
      · subst hs; simp [PlanMark.set_self, hid]
      · rw [PlanMark.set_other _ _ hs]
        simp [hid]
        exact fun hh => hs hh
  have hlev0 : Levelled h root [(root, 0)] 0 := by
    constructor
    · simp
    · simp
    · intro x hx; simp at hx; subst hx; exact PathLen.zero
    · intro x hx q hq; simp at hx hq; subst hx; subst hq; simp
    · intro q hq; simp at hq
  obtain ⟨al, hal, hall⟩ := pass1Ops_levelled hu root _ _ _ _ _ _ _ e [(root, 0)] rfl hl0 hlev0
  have hnd : (al.map Prod.fst).Nodup := by rw [hal]; exact nodup_of_nodup_map_idOf d.nodup
  have hget : ∀ i a : Nat, L[i]? = some a → ∃ k, al[i]? = some (a, k) := by
    intro i a hi
    rw [← hal, List.getElem?_map] at hi
    cases hq : al[i]? with
    | none => rw [hq] at hi; simp at hi
    | some q =>
      rw [hq] at hi
      simp at hi
      exact ⟨q.2, by rw [← hi]⟩
  constructor
  · intro a ha
    rw [← hal] at ha
    obtain ⟨x, hx, rfl⟩ := List.mem_map.mp ha
    exact ⟨x.2, levelledAll_dist hall hnd hx⟩
  · intro i j a b da db hij hi hj hda hdb
    obtain ⟨ka, hka⟩ := hget i a hi
    obtain ⟨kb, hkb⟩ := hget j b hj
    have ea : da = ka := isDist_unique hda (levelledAll_dist hall hnd (mem_of_getElem hka))
    have eb : db = kb := isDist_unique hdb (levelledAll_dist hall hnd (mem_of_getElem hkb))
    subst ea; subst eb
    rcases Nat.eq_or_lt_of_le hij with rfl | hlt
    · rw [hka] at hkb
      simp at hkb
      omega
    · have hs := hall.sorted
      rw [List.pairwise_iff_getElem] at hs
      have hi' := List.getElem?_eq_some_iff.mp hka
      have hj' := List.getElem?_eq_some_iff.mp hkb
      have := hs i j hi'.1 hj'.1 hlt
      rw [hi'.2, hj'.2] at this
      exact this

/-- C19 (breadth-first order and pass agreement).  On a plan graph with unique
node ids (no nil plan, embedded sub-plans nested to depth `rank`)
`setParents4FinalPlan(root)` returns, and in every run that returns the list
`allPlans` at the end of the first loop starts with `root`; every listed node
has a shortest children-path from `root`, and the length of that path does not
decrease along the list; the list is `root` followed by one block for every
listed node, in list order, the block being a sublist of the `Children()` of
that node (the children it discovered, in their `Children()` order); the
second loop ends with the same list, and it is exactly one `AddParent` call
for every child entry of every listed node, so that after the run every listed
node (the nodes whose parents the first loop cleared) is in the parents of
each of its children. -/
theorem breadth_first_order (h : Heap) (rank : Nat → Nat) (root : Nat)
    (hclosed : Closed h) (hids : UniqueIds h) (hrank : Ranked h rank)
    (hroot : root < h.length) :
    (∃ fuel h', setParents4FinalPlan fuel h root = some h') ∧
    ∀ fuel h', setParents4FinalPlan fuel h root = some h' →
      ∃ f h1 L M M2, fuel = f + 1 ∧
        firstLoop (setParents4FinalPlan f) f h root = some (h1, L, M) ∧
        secondLoop f h1 root M = some (h', L, M2) ∧
        L.head? = some root ∧
        (∀ a ∈ L, ∃ d, IsDist h root a d) ∧
        (∀ i j a b da db : Nat, i ≤ j → L[i]? = some a → L[j]? = some b →
          IsDist h root a da → IsDist h root b db → da ≤ db) ∧
        (∃ news : List (List Nat), L = root :: news.flatten ∧
          List.Forall₂ (fun p nw => nw.Sublist (childrenAt h p)) L news) ∧
        runOps (addOps h L) h1 = some h' ∧
        ∀ p ∈ L, ∀ c ∈ childrenAt h p, p ∈ parentsAt h' c := by
  refine ⟨⟨_, run_returns hclosed hrank hroot⟩, ?_⟩
  intro fuel h' e
  obtain ⟨f, rfl⟩ := run_fuel_pos e
  obtain ⟨h1, L, M, M2, n, os, hn, hp, hfirst, a, hsecond, hadd⟩ := run_loops e
  obtain ⟨d, _⟩ := pass1Ops_discovered hn hp
  obtain ⟨hdist, hord⟩ := pass1Ops_bfs hids hn hp
  obtain ⟨news, hnews, hblocks⟩ := pass1Ops_blocks _ _ _ _ _ _ _ hp
  refine ⟨f, h1, L, M, M2, rfl, hfirst, hsecond, d.head, hdist, hord,
    ⟨news, by simpa using hnews, by simpa using hblocks⟩, hadd, ?_⟩
  intro p hpL c hc
  rw [runOps_parentsAt hadd c, parentsAfter_adds c _ _ (addOps_no_clear h L)]
  apply List.mem_append_right
  rw [List.mem_filterMap]
  exact ⟨Op.add c p, mem_addOps.mpr ⟨p, hpL, c, hc, rfl⟩, by simp [addedTo]⟩

/-- Witness of C19 on the shared-node plan (`A` with children `[B, C]`, `C`
with child `[B]`): both loops of the run on `A` end with the same list, which
starts with `A`, and every listed node is in the parents of its children. -/
theorem breadth_first_order_witness :
    (Closed sharedPlan ∧ UniqueIds sharedPlan ∧ Ranked sharedPlan (fun _ => 0)) ∧
    setParents4FinalPlan 4 sharedPlan 0 = some sharedPlanLinked ∧
    ∃ h1 L M M2, firstLoop (setParents4FinalPlan 3) 3 sharedPlan 0 = some (h1, L, M) ∧
      secondLoop 3 h1 0 M = some (sharedPlanLinked, L, M2) ∧
      L.head? = some 0 ∧
      ∀ p ∈ L, ∀ c ∈ childrenAt sharedPlan p, p ∈ parentsAt sharedPlanLinked c := by
  refine ⟨by decide, by decide, ?_⟩
  obtain ⟨f, h1, L, M, M2, hf, hfirst, hsecond, hhead, _, _, _, _, hlinks⟩ :=
    (breadth_first_order sharedPlan (fun _ => 0) 0 (by decide) (by decide) (by decide)
      (by decide)).2 4 sharedPlanLinked (by decide)
  have hf3 : f = 3 := by omega
  subst hf3
  exact ⟨h1, L, M, M2, hfirst, hsecond, hhead, hlinks⟩

end Plan
